import Mathlib

/-!
# Fleet-RL: RAII / move-semantics katas

A shallow embedding of `cpp-kata/raii-move-semantics/kata2_smart_pointers.cpp`.

C++ objects have identity (`this != &other`), so the handles live in a store
indexed by their address.  A machine state records

* the `ptr_` field of the handle object at every handle address,
* which handle addresses currently hold a constructed (not yet destroyed) object,
* the free store: the `Resource` object living at every allocated address,
* the ordered log of memory effects (`delete p`, and every store to a `ptr_` field).

Console output is presentation only and is not modelled.
-/

namespace FleetRL

namespace Kata2

/-- Address of a `SimpleUniquePtr<Resource>` object (the value of `this`). -/
abbrev Addr := Nat

/-- A raw `Resource*`; address `0` is the null pointer. -/
abbrev Ptr := Nat

/-- The null pointer constant. -/
def nullptr : Ptr := 0

/-- Class `Resource`: a single `int value_` member. -/
structure Resource where
  value_ : Int
deriving DecidableEq

/-- Method `Resource::getValue`. -/
def Resource.getValue (r : Resource) : Int := r.value_

/-- Method `Resource::setValue`. -/
def Resource.setValue (_r : Resource) (value : Int) : Resource := { value_ := value }

/-- Observable memory effects, logged in program order. -/
inductive Event where
  | del (p : Ptr)
  | store (this : Addr) (p : Ptr)
deriving DecidableEq

/-- The exception thrown by `operator*` and `operator->`. -/
inductive Error where
  | runtime_error (what : String)
deriving DecidableEq

/-- Machine state: handle fields, handle lifetimes, free store, effect log. -/
structure State where
  ptr_ : Addr → Ptr
  alive : Addr → Bool
  heap : Ptr → Option Resource
  trace : List Event

/-- The state before any object exists. -/
def State.empty : State :=
  { ptr_ := fun _ => nullptr, alive := fun _ => false, heap := fun _ => none, trace := [] }

/-- Expression `new Resource(value)` when the allocator returns address `a`. -/
def State.newResource (s : State) (a : Ptr) (value : Int) : State :=
  { s with heap := fun x => if x = a then some { value_ := value } else s.heap x }

/-- Statement `delete p` (deleting the null pointer has no effect). -/
def State.deletePtr (s : State) (p : Ptr) : State :=
  if p = nullptr then s
  else { s with heap := fun x => if x = p then none else s.heap x,
                trace := s.trace ++ [Event.del p] }

/-- Statement `this->ptr_ = p`. -/
def State.storePtr (s : State) (this : Addr) (p : Ptr) : State :=
  { s with ptr_ := fun x => if x = this then p else s.ptr_ x,
           trace := s.trace ++ [Event.store this p] }

/-- The lifetime of the object at `this` begins (`b = true`) or ends (`b = false`). -/
def State.setAlive (s : State) (this : Addr) (b : Bool) : State :=
  { s with alive := fun x => if x = this then b else s.alive x }

/-- Number of times `p` has been passed to `delete` so far. -/
def State.deallocCount (s : State) (p : Ptr) : Nat :=
  s.trace.count (Event.del p)

namespace SimpleUniquePtr

/-- Constructor `explicit SimpleUniquePtr(T* ptr = nullptr) : ptr_(ptr)`. -/
def construct (this : Addr) (ptr : Ptr) (s : State) : State :=
  (s.storePtr this ptr).setAlive this true

/-- Default construction: the argument defaults to `nullptr`. -/
def constructDefault (this : Addr) (s : State) : State :=
  construct this nullptr s

/-- Destructor `~SimpleUniquePtr()`: `if (ptr_) delete ptr_;`. -/
def destruct (this : Addr) (s : State) : State :=
  let s1 := if s.ptr_ this ≠ nullptr then s.deletePtr (s.ptr_ this) else s
  s1.setAlive this false

/-- Move constructor: `ptr_(other.ptr_)`, then `other.ptr_ = nullptr`. -/
def moveConstruct (this other : Addr) (s : State) : State :=
  let s1 := s.storePtr this (s.ptr_ other)
  let s2 := s1.storePtr other nullptr
  s2.setAlive this true

/-- Move assignment `operator=(SimpleUniquePtr&& other)`. -/
def moveAssign (this other : Addr) (s : State) : State :=
  if this ≠ other then
    let s1 := if s.ptr_ this ≠ nullptr then s.deletePtr (s.ptr_ this) else s
    let s2 := s1.storePtr this (s1.ptr_ other)
    s2.storePtr other nullptr
  else s

/-- Dereference `operator*`: throws on a null `ptr_`, else yields the reference `*ptr_`
(a reference is represented by the address of its referent). -/
def operatorStar (this : Addr) (s : State) : Except Error Ptr :=
  if s.ptr_ this = nullptr then
    Except.error (Error.runtime_error "Dereferencing a null pointer")
  else Except.ok (s.ptr_ this)

/-- Member access `operator->`: throws on a null `ptr_`, else returns `ptr_`. -/
def operatorArrow (this : Addr) (s : State) : Except Error Ptr :=
  if s.ptr_ this = nullptr then
    Except.error (Error.runtime_error "Dereferencing a null pointer")
  else Except.ok (s.ptr_ this)

/-- Method `get`: `return ptr_;`. -/
def get (this : Addr) (s : State) : Ptr := s.ptr_ this

/-- Method `release`: `temp = ptr_; ptr_ = nullptr; return temp;`. -/
def release (this : Addr) (s : State) : Ptr × State :=
  let temp := s.ptr_ this
  (temp, s.storePtr this nullptr)

/-- Method `reset(T* ptr = nullptr)`: `if (ptr_) delete ptr_; ptr_ = ptr;`. -/
def reset (this : Addr) (ptr : Ptr) (s : State) : State :=
  let s1 := if s.ptr_ this ≠ nullptr then s.deletePtr (s.ptr_ this) else s
  s1.storePtr this ptr

/-- Conversion `explicit operator bool`: `return ptr_ != nullptr;`. -/
def operatorBool (this : Addr) (s : State) : Bool := s.ptr_ this != nullptr

end SimpleUniquePtr

/-- Read `p->getValue()` for a raw pointer `p` into the free store. -/
def getValueAt (s : State) (p : Ptr) : Option Int :=
  (s.heap p).map Resource.getValue

/-- Test 2 of `test_move_semantics`, just before the move:
`SimpleUniquePtr<Resource> ptr1(new Resource(100));` with `ptr1` at handle address 1
and the resource allocated at address 1000. -/
def test2Before : State :=
  SimpleUniquePtr.construct 1 1000 (State.empty.newResource 1000 100)

/-- Test 3 of `test_move_semantics`, just before the assignment:
`ptr1(new Resource(200))` at handle address 1 owning address 1000 and
`ptr2(new Resource(300))` at handle address 2 owning address 2000. -/
def test3Before : State :=
  SimpleUniquePtr.construct 2 2000
    ((SimpleUniquePtr.construct 1 1000 (State.empty.newResource 1000 200)).newResource 2000 300)

/-- Test 1 of `test_move_semantics`: `SimpleUniquePtr<Resource> ptr(new Resource(42));`
with `ptr` at handle address 1 and the resource allocated at address 1000. -/
def test1State : State :=
  SimpleUniquePtr.construct 1 1000 (State.empty.newResource 1000 42)

/-- Result of a member-function call. -/
inductive Value where
  | unit
  | ptr (p : Ptr)
  | bool (b : Bool)
deriving DecidableEq

/-- The member functions of `SimpleUniquePtr`, as calls on handle addresses. -/
inductive Call where
  | construct (this : Addr) (ptr : Ptr)
  | destruct (this : Addr)
  | moveConstruct (this other : Addr)
  | moveAssign (this other : Addr)
  | operatorStar (this : Addr)
  | operatorArrow (this : Addr)
  | get (this : Addr)
  | release (this : Addr)
  | reset (this : Addr) (ptr : Ptr)
  | operatorBool (this : Addr)
deriving DecidableEq

/-- Run one call: the returned value and the state after it, or the exception thrown.
The `const` member functions hand back the state they were given. -/
def Call.run (c : Call) (s : State) : Except Error (Value × State) :=
  match c with
  | Call.construct this ptr => Except.ok (Value.unit, SimpleUniquePtr.construct this ptr s)
  | Call.destruct this => Except.ok (Value.unit, SimpleUniquePtr.destruct this s)
  | Call.moveConstruct this other =>
      Except.ok (Value.unit, SimpleUniquePtr.moveConstruct this other s)
  | Call.moveAssign this other =>
      Except.ok (Value.unit, SimpleUniquePtr.moveAssign this other s)
  | Call.operatorStar this =>
      match SimpleUniquePtr.operatorStar this s with
      | Except.error e => Except.error e
      | Except.ok r => Except.ok (Value.ptr r, s)
  | Call.operatorArrow this =>
      match SimpleUniquePtr.operatorArrow this s with
      | Except.error e => Except.error e
      | Except.ok r => Except.ok (Value.ptr r, s)
  | Call.get this => Except.ok (Value.ptr (SimpleUniquePtr.get this s), s)
  | Call.release this =>
      Except.ok (Value.ptr (SimpleUniquePtr.release this s).1, (SimpleUniquePtr.release this s).2)
  | Call.reset this ptr => Except.ok (Value.unit, SimpleUniquePtr.reset this ptr s)
  | Call.operatorBool this => Except.ok (Value.bool (SimpleUniquePtr.operatorBool this s), s)

/-- Whether a call ended by throwing. -/
def throws {α : Type} (r : Except Error α) : Bool :=
  match r with
  | Except.error _ => true
  | Except.ok _ => false

/-- Exclusive ownership: no two distinct living handles hold the same non-null pointer. -/
def Exclusive (s : State) : Prop :=
  ∀ a b : Addr, s.alive a = true → s.alive b = true → a ≠ b →
    s.ptr_ a ≠ nullptr → s.ptr_ a ≠ s.ptr_ b

/-- Every non-null pointer held by a living handle is a live allocation. -/
def OwnedLive (s : State) : Prop :=
  ∀ a : Addr, s.alive a = true → s.ptr_ a ≠ nullptr → s.heap (s.ptr_ a) ≠ none

/-- One program step on handles: construction over a fresh allocation (or default
construction), move construction, move assignment, release, reset with a fresh
allocation, destruction.  A fresh allocation is the result of `new`: a non-null address
that is not live at the time of the call. -/
inductive Step : State → State → Prop where
  | construct (s : State) (this : Addr) (a : Ptr) (v : Int) :
      s.alive this = false → a ≠ nullptr → s.heap a = none →
      Step s (SimpleUniquePtr.construct this a (s.newResource a v))
  | constructDefault (s : State) (this : Addr) :
      s.alive this = false → Step s (SimpleUniquePtr.constructDefault this s)
  | moveConstruct (s : State) (this other : Addr) :
      s.alive this = false → s.alive other = true →
      Step s (SimpleUniquePtr.moveConstruct this other s)
  | moveAssign (s : State) (this other : Addr) :
      s.alive this = true → s.alive other = true →
      Step s (SimpleUniquePtr.moveAssign this other s)
  | release (s : State) (this : Addr) :
      s.alive this = true → Step s (SimpleUniquePtr.release this s).2
  | resetFresh (s : State) (this : Addr) (a : Ptr) (v : Int) :
      s.alive this = true → a ≠ nullptr → s.heap a = none →
      Step s (SimpleUniquePtr.reset this a (s.newResource a v))
  | destruct (s : State) (this : Addr) :
      s.alive this = true → Step s (SimpleUniquePtr.destruct this s)

/-- States reachable from `s` by finitely many steps. -/
inductive Reachable (s : State) : State → Prop where
  | refl : Reachable s s
  | step (t u : State) : Reachable s t → Step t u → Reachable s u

/-- Function `make_simple_unique<Resource>(args)`:
`return SimpleUniquePtr<T>(new T(std::forward<Args>(args)...));`.
The allocator returns address `a`; the returned handle is constructed in the caller's
object at address `this`. -/
def make_simple_unique (this : Addr) (a : Ptr) (args : Int) (s : State) : State :=
  SimpleUniquePtr.construct this a (s.newResource a args)

end Kata2

/-!
## Kata 3: `ExpensiveObject` and `OptimizedContainer`

A shallow embedding of `cpp-kata/raii-move-semantics/kata3_advanced_move.cpp`.
Containers have identity (`this != &other`), so they live in a store indexed by their
address.  The backing `std::vector<ExpensiveObject>` is modelled by its element sequence
and its capacity; every special member function that the vector invokes on an element is
appended to a log.  Sizes are natural numbers; a vector of `int` cannot be created with
more than `max_size()` elements, and storage for fewer elements is always available.
-/

namespace Kata3

/-- Address of an `OptimizedContainer<ExpensiveObject>` object (the value of `this`). -/
abbrev Addr := Nat

/-- Class `ExpensiveObject`: `std::string name_` and `std::vector<int> data_`. -/
structure ExpensiveObject where
  name_ : String
  data_ : List Int
deriving DecidableEq

/-- Special member functions of `ExpensiveObject`, as logged invocations. -/
inductive ObjEvent where
  | ctor
  | copyCtor
  | copyAssign
  | moveCtor
  | moveAssign
  | dtor
deriving DecidableEq

/-- The exceptions thrown: `std::out_of_range` by `operator[]`, and `std::length_error`
by the `std::vector<int>` constructor called with more elements than `max_size()`. -/
inductive Error where
  | out_of_range (what : String)
  | length_error
deriving DecidableEq

namespace ExpensiveObject

/-- Constructor `ExpensiveObject(const std::string& name, size_t size = 1000)`:
`name_(name), data_(size, 42)`.  The member initializer `data_(size, 42)` throws
`std::length_error` when `size` exceeds `maxSize`, the value of
`std::vector<int>::max_size()`; then no object is constructed. -/
def construct (maxSize : Nat) (name : String) (size : Nat) : Except Error ExpensiveObject :=
  if size > maxSize then Except.error Error.length_error
  else Except.ok { name_ := name, data_ := List.replicate size 42 }

/-- Constructor call with `size` omitted: the default argument is 1000. -/
def constructDefault (maxSize : Nat) (name : String) : Except Error ExpensiveObject :=
  construct maxSize name 1000

/-- Copy constructor: `name_(other.name_ + "_copy"), data_(other.data_)`. -/
def copyConstruct (other : ExpensiveObject) : ExpensiveObject :=
  { name_ := other.name_ ++ "_copy", data_ := other.data_ }

/-- Copy assignment; `distinct` is the value of `this != &other`.
Returns the assigned-to object. -/
def copyAssign (self other : ExpensiveObject) (distinct : Bool) : ExpensiveObject :=
  if distinct then { name_ := other.name_ ++ "_assigned", data_ := other.data_ }
  else self

/-- Move constructor: takes `other.name_` and `other.data_`, then clears both in
`other`.  Returns the new object and `other` after the call. -/
def moveConstruct (other : ExpensiveObject) : ExpensiveObject × ExpensiveObject :=
  ({ name_ := other.name_, data_ := other.data_ }, { name_ := "", data_ := [] })

/-- Move assignment; `distinct` is the value of `this != &other`.
Returns the assigned-to object and `other` after the call. -/
def moveAssign (self other : ExpensiveObject) (distinct : Bool) :
    ExpensiveObject × ExpensiveObject :=
  if distinct then
    ({ name_ := other.name_, data_ := other.data_ }, { name_ := "", data_ := [] })
  else (self, other)

/-- Method `getName`. -/
def getName (o : ExpensiveObject) : String := o.name_

/-- Method `getDataSize`: `data_.size()`. -/
def getDataSize (o : ExpensiveObject) : Nat := o.data_.length

/-- Method `setName`. -/
def setName (o : ExpensiveObject) (name : String) : ExpensiveObject :=
  { o with name_ := name }

end ExpensiveObject

/-- A `std::vector<ExpensiveObject>`: the constructed elements in order and the number
of slots of the allocated storage. -/
structure StdVector where
  elems : List ExpensiveObject
  capacity : Nat

namespace StdVector

/-- Default-constructed vector: no elements, no storage. -/
def create : StdVector := { elems := [], capacity := 0 }

/-- Member `size()`. -/
def size (v : StdVector) : Nat := v.elems.length

/-- Member `empty()`. -/
def empty (v : StdVector) : Bool := v.elems.isEmpty

/-- Member `clear()`: destroys every element, keeps the storage. -/
def clear (v : StdVector) : StdVector × List ObjEvent :=
  ({ v with elems := [] }, List.replicate v.size ObjEvent.dtor)

/-- Member `emplace_back`: `e` is the element built in the new slot and `how` the
constructor that builds it.  With a spare slot the element is built in place.  Otherwise
storage of `max (grow size) (size + 1)` slots is allocated, the new element is built in
it, and every existing element is relocated by the `noexcept` move constructor and then
destroyed in the old storage. -/
def emplace_back (grow : Nat → Nat) (v : StdVector) (e : ExpensiveObject) (how : ObjEvent) :
    StdVector × List ObjEvent :=
  if v.size < v.capacity then
    ({ v with elems := v.elems ++ [e] }, [how])
  else
    ({ elems := v.elems.map (fun o => (ExpensiveObject.moveConstruct o).1) ++ [e],
       capacity := max (grow v.size) (v.size + 1) },
     how :: (List.replicate v.size ObjEvent.moveCtor ++ List.replicate v.size ObjEvent.dtor))

/-- Element-wise copy onto existing storage: existing elements are copy-assigned, slots
beyond them are copy-constructed, surplus elements are dropped. -/
def copyElems : List ExpensiveObject → List ExpensiveObject → List ExpensiveObject
  | d :: ds, x :: xs => ExpensiveObject.copyAssign d x true :: copyElems ds xs
  | [], xs => xs.map ExpensiveObject.copyConstruct
  | _ :: _, [] => []

/-- Copy assignment `v = x` between distinct vectors.  When `x` does not fit the
capacity, fresh storage is filled by copy construction and the old elements are
destroyed; otherwise the elements are copied onto the existing storage. -/
def copyAssign (v x : StdVector) : StdVector × List ObjEvent :=
  if x.size > v.capacity then
    ({ elems := x.elems.map ExpensiveObject.copyConstruct, capacity := x.size },
     List.replicate x.size ObjEvent.copyCtor ++ List.replicate v.size ObjEvent.dtor)
  else
    ({ elems := copyElems v.elems x.elems, capacity := v.capacity },
     List.replicate (min v.size x.size) ObjEvent.copyAssign
       ++ List.replicate (x.size - v.size) ObjEvent.copyCtor
       ++ List.replicate (v.size - x.size) ObjEvent.dtor)

/-- Move assignment `v = std::move(x)` between distinct vectors: the elements of `v` are
destroyed, `v` takes the storage of `x`, and `x` is left without storage.
Returns `v` and `x` after the call. -/
def moveAssign (v x : StdVector) : (StdVector × StdVector) × List ObjEvent :=
  ((x, create), List.replicate v.size ObjEvent.dtor)

end StdVector

/-- Growth rule of the GNU standard library: a full vector of `size` elements is
reallocated to `size + max(size, 1)` slots. -/
def gnuGrowth (size : Nat) : Nat := size + max size 1

/-- Value of `std::vector<int>::max_size()` in the GNU standard library on a platform
with 64-bit pointers and 4-byte `int`: `PTRDIFF_MAX / sizeof(int)`. -/
def gnuMaxSize : Nat := 2305843009213693951

/-- Number of copy-constructor and copy-assignment invocations in a log. -/
def copies (l : List ObjEvent) : Nat :=
  l.count ObjEvent.copyCtor + l.count ObjEvent.copyAssign

/-- Number of move-constructor and move-assignment invocations in a log. -/
def moves (l : List ObjEvent) : Nat :=
  l.count ObjEvent.moveCtor + l.count ObjEvent.moveAssign

/-- Number of constructor invocations (plain, copy and move) in a log. -/
def constructions (l : List ObjEvent) : Nat :=
  l.count ObjEvent.ctor + l.count ObjEvent.copyCtor + l.count ObjEvent.moveCtor

/-- Number of destructions in a log. -/
def destructions (l : List ObjEvent) : Nat :=
  l.count ObjEvent.dtor

/-- Machine state: the `elements_` member of the container at every address, and the
log of element special-member invocations made by the containers. -/
structure State where
  elements_ : Addr → StdVector
  log : List ObjEvent

/-- The state before any container operation. -/
def State.init : State :=
  { elements_ := fun _ => StdVector.create, log := [] }

/-- Write the `elements_` member of the container at `this` and log `events`. -/
def State.setElements (s : State) (this : Addr) (v : StdVector) (events : List ObjEvent) :
    State :=
  { elements_ := fun x => if x = this then v else s.elements_ x,
    log := s.log ++ events }

namespace OptimizedContainer

/-- Default constructor: `elements_` is default-constructed. -/
def construct (this : Addr) (s : State) : State :=
  s.setElements this StdVector.create []

/-- Copy constructor: `elements_ = other.elements_;` on a default-constructed member. -/
def copyConstruct (this other : Addr) (s : State) : State :=
  let s0 := construct this s
  let r := StdVector.copyAssign (s0.elements_ this) (s0.elements_ other)
  s0.setElements this r.1 r.2

/-- Copy assignment: `if (this != &other) elements_ = other.elements_;`. -/
def copyAssign (this other : Addr) (s : State) : State :=
  if this ≠ other then
    let r := StdVector.copyAssign (s.elements_ this) (s.elements_ other)
    s.setElements this r.1 r.2
  else s

/-- Move constructor: `elements_ = std::move(other.elements_); other.elements_.clear();`
on a default-constructed member. -/
def moveConstruct (this other : Addr) (s : State) : State :=
  let s0 := construct this s
  let r := StdVector.moveAssign (s0.elements_ this) (s0.elements_ other)
  let s1 := (s0.setElements this r.1.1 r.2).setElements other r.1.2 []
  let c := StdVector.clear (s1.elements_ other)
  s1.setElements other c.1 c.2

/-- Move assignment: under `this != &other`,
`elements_ = std::move(other.elements_); other.elements_.clear();`. -/
def moveAssign (this other : Addr) (s : State) : State :=
  if this ≠ other then
    let r := StdVector.moveAssign (s.elements_ this) (s.elements_ other)
    let s1 := (s.setElements this r.1.1 r.2).setElements other r.1.2 []
    let c := StdVector.clear (s1.elements_ other)
    s1.setElements other c.1 c.2
  else s

/-- Read-only `operator[]`: throws `std::out_of_range` when `index >= elements_.size()`,
else yields `elements_[index]`. -/
def operatorIndexConst (this : Addr) (index : Nat) (s : State) :
    Except Error ExpensiveObject :=
  if h : index ≥ (s.elements_ this).size then
    Except.error (Error.out_of_range "Index out of range")
  else Except.ok ((s.elements_ this).elems.get ⟨index, Nat.lt_of_not_ge h⟩)

/-- Mutable `operator[]`: throws `std::out_of_range` when `index >= elements_.size()`,
else yields `elements_[index]`. -/
def operatorIndex (this : Addr) (index : Nat) (s : State) :
    Except Error ExpensiveObject :=
  if h : index ≥ (s.elements_ this).size then
    Except.error (Error.out_of_range "Index out of range")
  else Except.ok ((s.elements_ this).elems.get ⟨index, Nat.lt_of_not_ge h⟩)

end OptimizedContainer

/-- What the reference parameter of `add` is bound to: an object that is no element of
a container, given by its value, or the element `that[index]` of a container, obtained
through `operator[]`. -/
inductive Arg where
  | object (o : ExpensiveObject)
  | element (that : Addr) (index : Nat)
deriving DecidableEq

/-- Evaluation of the argument expression of `add`: the referenced object.  The
expression `that[index]` throws `std::out_of_range` as `operator[]` does. -/
def Arg.eval (s : State) : Arg → Except Error ExpensiveObject
  | Arg.object o => Except.ok o
  | Arg.element that index => OptimizedContainer.operatorIndex that index s

/-- Assignment of the value `o` to the object that the argument of `add` refers to: an
element of a container is changed in the state, an object outside the containers is
not part of the state. -/
def Arg.assign (s : State) (o : ExpensiveObject) : Arg → State
  | Arg.object _ => s
  | Arg.element that index =>
    s.setElements that { s.elements_ that with elems := (s.elements_ that).elems.set index o }
      []

namespace OptimizedContainer

/-- Member template `add(U&& element)` called with an `ExpensiveObject`:
`elements_.emplace_back(std::forward<U>(element));`.  The parameter is a reference, and
`element` says what it is bound to.  `isLvalue` is `std::is_lvalue_reference_v<U>` and
`isConst` says whether the referenced type is `const`.  The forwarded argument selects
the copy constructor when it is an lvalue or `const` (a `const` rvalue does not bind to
the move constructor), and the move constructor otherwise.  The move constructor empties
the referenced object where it is, an element of a container included; the new element is
built before the storage grows.  The call throws when evaluating the argument throws.
Returns the state and the referenced object after the call. -/
def add (grow : Nat → Nat) (this : Addr) (element : Arg) (isLvalue isConst : Bool)
    (s : State) : Except Error (State × ExpensiveObject) :=
  match element.eval s with
  | Except.error e => Except.error e
  | Except.ok src =>
    if isLvalue || isConst then
      let r := StdVector.emplace_back grow (s.elements_ this)
        (ExpensiveObject.copyConstruct src) ObjEvent.copyCtor
      Except.ok (s.setElements this r.1 r.2, src)
    else
      let m := ExpensiveObject.moveConstruct src
      let s0 := element.assign s m.2
      let r := StdVector.emplace_back grow (s0.elements_ this) m.1 ObjEvent.moveCtor
      Except.ok (s0.setElements this r.1 r.2, m.2)

/-- Member template `emplace(Args&&... args)` called with `(name, size)`:
`elements_.emplace_back(std::forward<Args>(args)...);` builds the element in the new
slot with the constructor `ExpensiveObject(name, size)`.  When the constructor throws,
the exception leaves `emplace` and the vector is as it was. -/
def emplace (grow : Nat → Nat) (maxSize : Nat) (this : Addr) (name : String) (size : Nat)
    (s : State) : Except Error State :=
  match ExpensiveObject.construct maxSize name size with
  | Except.error e => Except.error e
  | Except.ok o =>
    let r := StdVector.emplace_back grow (s.elements_ this) o ObjEvent.ctor
    Except.ok (s.setElements this r.1 r.2)

/-- Member `emplace` called with `(name)` only. -/
def emplaceDefault (grow : Nat → Nat) (maxSize : Nat) (this : Addr) (name : String)
    (s : State) : Except Error State :=
  match ExpensiveObject.constructDefault maxSize name with
  | Except.error e => Except.error e
  | Except.ok o =>
    let r := StdVector.emplace_back grow (s.elements_ this) o ObjEvent.ctor
    Except.ok (s.setElements this r.1 r.2)

/-- Member `size()`: `elements_.size()`. -/
def size (this : Addr) (s : State) : Nat := (s.elements_ this).size

/-- Member `empty()`: `elements_.empty()`. -/
def empty (this : Addr) (s : State) : Bool := (s.elements_ this).empty

/-- Member `begin()`: the iterator to the first slot, as an offset into the storage. -/
def begin (_this : Addr) (_s : State) : Nat := 0

/-- Member `end()`: the iterator one past the last element. -/
def end_ (this : Addr) (s : State) : Nat := (s.elements_ this).size

/-- Read-only `begin()`. -/
def beginConst (_this : Addr) (_s : State) : Nat := 0

/-- Read-only `end()`. -/
def endConst (this : Addr) (s : State) : Nat := (s.elements_ this).size

end OptimizedContainer

/-- The range-based `for` loop `for (it = first; it != last; ++it) visit(*it)` over the
storage `elems`, returning the visited elements in order.  `none` when the fuel runs out
or an iterator is dereferenced outside the storage. -/
def rangeFor (elems : List ExpensiveObject) (last : Nat) :
    Nat → Nat → Option (List ExpensiveObject)
  | 0, _ => none
  | fuel + 1, it =>
    if it ≠ last then
      match elems[it]? with
      | some x => (rangeFor elems last fuel (it + 1)).map (fun rest => x :: rest)
      | none => none
    else some []

/-- Traversal `for (auto& obj : container)` through `begin()` and `end()`. -/
def traverse (this : Addr) (s : State) : Option (List ExpensiveObject) :=
  rangeFor (s.elements_ this).elems (OptimizedContainer.end_ this s)
    ((s.elements_ this).size + 1) (OptimizedContainer.begin this s)

/-- Traversal `for (const auto& obj : container)` of a read-only container. -/
def traverseConst (this : Addr) (s : State) : Option (List ExpensiveObject) :=
  rangeFor (s.elements_ this).elems (OptimizedContainer.endConst this s)
    ((s.elements_ this).size + 1) (OptimizedContainer.beginConst this s)

/-- Result of a member-function call. -/
inductive Value where
  | unit
  | nat (n : Nat)
  | bool (b : Bool)
  | obj (e : ExpensiveObject)
  | seq (l : Option (List ExpensiveObject))
deriving DecidableEq

/-- The member functions of `OptimizedContainer`, as calls on container addresses. -/
inductive Call where
  | construct (this : Addr)
  | copyConstruct (this other : Addr)
  | copyAssign (this other : Addr)
  | moveConstruct (this other : Addr)
  | moveAssign (this other : Addr)
  | add (this : Addr) (element : Arg) (isLvalue isConst : Bool)
  | emplace (this : Addr) (name : String) (size : Nat)
  | operatorIndex (this : Addr) (index : Nat)
  | operatorIndexConst (this : Addr) (index : Nat)
  | size (this : Addr)
  | empty (this : Addr)
  | traverse (this : Addr)
  | traverseConst (this : Addr)
deriving DecidableEq

/-- Run one call: the returned value and the state after it, or the exception thrown.
The `const` member functions, both `operator[]` and the traversals hand back the state
they were given.  For `add` the value is the referenced object after the call. -/
def Call.run (grow : Nat → Nat) (maxSize : Nat) (c : Call) (s : State) :
    Except Error (Value × State) :=
  match c with
  | Call.construct this => Except.ok (Value.unit, OptimizedContainer.construct this s)
  | Call.copyConstruct this other =>
      Except.ok (Value.unit, OptimizedContainer.copyConstruct this other s)
  | Call.copyAssign this other =>
      Except.ok (Value.unit, OptimizedContainer.copyAssign this other s)
  | Call.moveConstruct this other =>
      Except.ok (Value.unit, OptimizedContainer.moveConstruct this other s)
  | Call.moveAssign this other =>
      Except.ok (Value.unit, OptimizedContainer.moveAssign this other s)
  | Call.add this element isLvalue isConst =>
      match OptimizedContainer.add grow this element isLvalue isConst s with
      | Except.error e => Except.error e
      | Except.ok r => Except.ok (Value.obj r.2, r.1)
  | Call.emplace this name count =>
      match OptimizedContainer.emplace grow maxSize this name count s with
      | Except.error e => Except.error e
      | Except.ok t => Except.ok (Value.unit, t)
  | Call.operatorIndex this index =>
      match OptimizedContainer.operatorIndex this index s with
      | Except.error e => Except.error e
      | Except.ok r => Except.ok (Value.obj r, s)
  | Call.operatorIndexConst this index =>
      match OptimizedContainer.operatorIndexConst this index s with
      | Except.error e => Except.error e
      | Except.ok r => Except.ok (Value.obj r, s)
  | Call.size this => Except.ok (Value.nat (OptimizedContainer.size this s), s)
  | Call.empty this => Except.ok (Value.bool (OptimizedContainer.empty this s), s)
  | Call.traverse this => Except.ok (Value.seq (Kata3.traverse this s), s)
  | Call.traverseConst this => Except.ok (Value.seq (Kata3.traverseConst this s), s)

/-- Whether a call ended by throwing. -/
def throws {α : Type} (r : Except Error α) : Bool :=
  match r with
  | Except.error _ => true
  | Except.ok _ => false

/-- An element produced from `src` by one of the copy operations of `ExpensiveObject`:
the copy constructor, or the copy assignment onto some existing element. -/
def IsCopyOf (d src : ExpensiveObject) : Prop :=
  d = ExpensiveObject.copyConstruct src
    ∨ ∃ old : ExpensiveObject, d = ExpensiveObject.copyAssign old src true

/-- Calls that a program working with the single container at `this` makes after
constructing it: `add`, `emplace`, both `operator[]`, `size`, `empty`, traversal. -/
def Call.usesOnly (this : Addr) (c : Call) : Bool :=
  match c with
  | Call.add t _ _ _ => decide (t = this)
  | Call.emplace t _ _ => decide (t = this)
  | Call.operatorIndex t _ => decide (t = this)
  | Call.operatorIndexConst t _ => decide (t = this)
  | Call.size t => decide (t = this)
  | Call.empty t => decide (t = this)
  | Call.traverse t => decide (t = this)
  | Call.traverseConst t => decide (t = this)
  | _ => false

/-- Calls that only observe: both `operator[]`, `size`, `empty`, traversal. -/
def Call.observes (c : Call) : Bool :=
  match c with
  | Call.operatorIndex _ _ => true
  | Call.operatorIndexConst _ _ => true
  | Call.size _ => true
  | Call.empty _ => true
  | Call.traverse _ => true
  | Call.traverseConst _ => true
  | _ => false

/-- States reached by default-constructing the container at `this`, on an empty log,
and then making calls on it that return normally. -/
inductive Reachable (grow : Nat → Nat) (maxSize : Nat) (this : Addr) : State → Prop where
  | init (s0 : State) : s0.log = [] →
      Reachable grow maxSize this (OptimizedContainer.construct this s0)
  | step (s t : State) (c : Call) (v : Value) :
      Reachable grow maxSize this s → c.usesOnly this = true →
      c.run grow maxSize s = Except.ok (v, t) → Reachable grow maxSize this t

/-- The state after a call that may throw: the state it returns, or the state before
the call when it throws. -/
def stateAfter (r : Except Error State) (before : State) : State :=
  match r with
  | Except.ok t => t
  | Except.error _ => before

/-- Test 2 of `test_advanced_move_semantics`: the object
`ExpensiveObject obj1("copy_source", 200)`. -/
def test2Obj1 : ExpensiveObject :=
  match ExpensiveObject.construct gnuMaxSize "copy_source" 200 with
  | Except.ok o => o
  | Except.error _ => { name_ := "", data_ := [] }

/-- Test 3 of `test_advanced_move_semantics`, just before the move: `container1` at
address 1 after `emplace("container1_obj1")` and `emplace("container1_obj2")`. -/
def test3Container1 : State :=
  let s0 := OptimizedContainer.construct 1 State.init
  let s1 := stateAfter (OptimizedContainer.emplaceDefault gnuGrowth gnuMaxSize 1
    "container1_obj1" s0) s0
  stateAfter (OptimizedContainer.emplaceDefault gnuGrowth gnuMaxSize 1 "container1_obj2" s1) s1

/-- Test 4 of `test_advanced_move_semantics`: `container` at address 1 after
`emplace("loop_obj1")`, `emplace("loop_obj2")`, `emplace("loop_obj3")`. -/
def test4Container : State :=
  let s0 := OptimizedContainer.construct 1 State.init
  let s1 := stateAfter (OptimizedContainer.emplaceDefault gnuGrowth gnuMaxSize 1
    "loop_obj1" s0) s0
  let s2 := stateAfter (OptimizedContainer.emplaceDefault gnuGrowth gnuMaxSize 1
    "loop_obj2" s1) s1
  stateAfter (OptimizedContainer.emplaceDefault gnuGrowth gnuMaxSize 1 "loop_obj3" s2) s2

end Kata3

/-!
## Kata 1: `FileHandle`

A shallow embedding of `cpp-kata/raii-move-semantics/kata1_basic_raii.cpp`.
Handles have identity (`this != &other`), so they live in a store indexed by their
address.  The `std::fstream` member is modelled by the state of its file buffer (open
flag, descriptor, path, mode, position, unflushed output) and its error flags; the
environment is a file system with an oracle for the outcome of opening a file and a log
of descriptor openings and closings.  Strings of file content are lists of characters.
-/

namespace Kata1

/-- Address of a `FileHandle` object (the value of `this`). -/
abbrev Addr := Nat

/-- The flags of `std::ios::openmode` used by the program: `in` and `out`. -/
structure OpenMode where
  inp : Bool
  out : Bool
deriving DecidableEq

/-- Mode `std::ios::in`. -/
def OpenMode.read : OpenMode := { inp := true, out := false }

/-- Mode `std::ios::out`. -/
def OpenMode.write : OpenMode := { inp := false, out := true }

/-- Mode `std::ios::in | std::ios::out`, the default argument of the constructor. -/
def OpenMode.readWrite : OpenMode := { inp := true, out := true }

/-- The exception thrown by the constructor, `write` and `read`. -/
inductive Error where
  | runtime_error (what : String)
deriving DecidableEq

/-- Operating-system events on file descriptors, logged in program order. -/
inductive Event where
  | opened (fd : Nat) (name : String)
  | closed (fd : Nat)
deriving DecidableEq

/-- The environment: file contents by name, the oracle telling whether the system
grants opening a name in a mode, the next free descriptor, and the event log. -/
structure World where
  files : String → Option (List Char)
  permits : String → OpenMode → Bool
  nextFd : Nat
  log : List Event

/-- A `std::fstream`: state of the file buffer and the error flags
(`fail` stands for `failbit` or `badbit`). -/
structure FStream where
  is_open : Bool
  fd : Nat
  path : String
  mode : OpenMode
  pos : Nat
  pending : List Char
  fail : Bool
  eof : Bool

/-- The NUL character, the delimiter passed to `std::getline` by `read`. -/
def nul : Char := Char.ofNat 0

/-- Content of a file after writing `data` at offset `start`. -/
def writeAt (content : List Char) (start : Nat) (data : List Char) : List Char :=
  content.take start ++ data ++ content.drop (start + data.length)

/-- Replace the content of the file `name`. -/
def World.setFile (w : World) (name : String) (content : List Char) : World :=
  { w with files := fun x => if x = name then some content else w.files x }

namespace FStream

/-- A default-constructed stream: not associated with a file. -/
def create : FStream :=
  { is_open := false, fd := 0, path := "", mode := { inp := false, out := false },
    pos := 0, pending := [], fail := false, eof := false }

/-- Whether the system opens `name` in `mode`: the oracle grants it, and the file exists
when `in` is requested (`in`, `in|out`) or `out` is requested (`out` creates it). -/
def openSucceeds (w : World) (name : String) (mode : OpenMode) : Bool :=
  w.permits name mode && (if mode.inp then (w.files name).isSome else mode.out)

/-- Member `open(name, mode)`: fails on an already open stream or when the system does
not open the file; mode `out` alone truncates or creates the file.  On success the
stream takes a fresh descriptor and its error flags are cleared. -/
def «open» (w : World) (st : FStream) (name : String) (mode : OpenMode) : World × FStream :=
  if st.is_open then (w, { st with fail := true })
  else if openSucceeds w name mode then
    let w1 := if mode.inp then w else w.setFile name []
    ({ w1 with nextFd := w.nextFd + 1, log := w1.log ++ [Event.opened w.nextFd name] },
     { is_open := true, fd := w.nextFd, path := name, mode := mode, pos := 0,
       pending := [], fail := false, eof := false })
  else (w, { st with fail := true })

/-- Write the unflushed output of the stream to its file. -/
def flush (w : World) (st : FStream) : World × FStream :=
  if st.pending = [] then (w, st)
  else
    (w.setFile st.path
       (writeAt ((w.files st.path).getD []) (st.pos - st.pending.length) st.pending),
     { st with pending := [] })

/-- File-buffer `close()`: on an open buffer, flush and release the descriptor; on a
buffer that is not open, nothing. -/
def closeBuf (w : World) (st : FStream) : World × FStream :=
  if st.is_open then
    let r := flush w st
    ({ r.1 with log := r.1.log ++ [Event.closed st.fd] }, { r.2 with is_open := false })
  else (w, st)

/-- Member `close()`: closes the file buffer, and sets `failbit` when it was not
open. -/
def close (w : World) (st : FStream) : World × FStream :=
  if st.is_open then closeBuf w st
  else (w, { st with fail := true })

/-- Move assignment `st = std::move(rhs)`: closes the buffer of `st`, hands the state of
`rhs` to `st` and leaves `rhs` not open.  Returns the world, `st` and `rhs` after it. -/
def moveAssign (w : World) (st rhs : FStream) : World × FStream × FStream :=
  ((closeBuf w st).1, rhs, { rhs with is_open := false, pending := [] })

/-- Insertion `st << data`: on a stream that is not good it sets `failbit`; inserting
the empty string succeeds; otherwise the characters go to the output buffer of a stream
open for output, and the insertion fails on any other stream. -/
def put (st : FStream) (data : List Char) : FStream :=
  if st.fail ∨ st.eof then { st with fail := true }
  else if data = [] then st
  else if st.is_open ∧ st.mode.out then
    { st with pending := st.pending ++ data, pos := st.pos + data.length }
  else { st with fail := true }

/-- Characters that the stream can still deliver: the file content from the current
position on a stream open for input, nothing otherwise. -/
def remaining (w : World) (st : FStream) : List Char :=
  if st.is_open ∧ st.mode.inp then ((w.files st.path).getD []).drop st.pos else []

/-- Function `std::getline(st, content, delim)` on an empty `content`.  On a stream that
is not good it sets `failbit`.  Otherwise it extracts characters up to the delimiter,
which is extracted and discarded, or up to the end of the file, which sets `eofbit`; it
sets `failbit` when nothing at all was extracted. -/
def getline (w : World) (st : FStream) (delim : Char) : World × FStream × List Char :=
  if st.fail ∨ st.eof then (w, { st with fail := true }, [])
  else
    let r := flush w st
    let rest := remaining r.1 r.2
    let line := rest.takeWhile (fun ch => ch != delim)
    if line.length < rest.length then
      (r.1, { r.2 with pos := r.2.pos + line.length + 1 }, line)
    else
      (r.1, { r.2 with pos := r.2.pos + line.length, eof := true,
                       fail := decide (line = []) }, line)

end FStream

/-- Class `FileHandle`: the members `file_`, `filename_` and `is_open_`. -/
structure FileHandle where
  file_ : FStream
  filename_ : String
  is_open_ : Bool

/-- Machine state: the environment, the handle object at every address, and which
addresses currently hold a constructed (not yet destroyed) handle. -/
structure State where
  world : World
  obj : Addr → FileHandle
  alive : Addr → Bool

/-- Write the handle object at `this`. -/
def State.setObj (s : State) (this : Addr) (h : FileHandle) : State :=
  { s with obj := fun x => if x = this then h else s.obj x }

/-- The lifetime of the object at `this` begins (`b = true`) or ends (`b = false`). -/
def State.setAlive (s : State) (this : Addr) (b : Bool) : State :=
  { s with alive := fun x => if x = this then b else s.alive x }

/-- Replace the environment. -/
def State.setWorld (s : State) (w : World) : State :=
  { s with world := w }

/-- An environment with no files in which every opening is granted. -/
def World.init : World :=
  { files := fun _ => none, permits := fun _ _ => true, nextFd := 0, log := [] }

/-- The state before any handle exists, in environment `w`. -/
def State.init (w : World) : State :=
  { world := w,
    obj := fun _ => { file_ := FStream.create, filename_ := "", is_open_ := false },
    alive := fun _ => false }

/-- Number of times descriptor `fd` has been closed so far. -/
def State.closeCount (s : State) (fd : Nat) : Nat :=
  s.world.log.count (Event.closed fd)

namespace FileHandle

/-- Constructor `FileHandle(filename, mode)`: `filename_ = filename;
file_.open(filename, mode); if (!file_.is_open()) throw ...; is_open_ = true;`.
When it throws no object exists at `this`. -/
def construct (this : Addr) (filename : String) (mode : OpenMode) (s : State) :
    Except Error Unit × State :=
  let r := FStream.open s.world FStream.create filename mode
  if !r.2.is_open then
    (Except.error (Error.runtime_error ("Failed to open file: " ++ filename)),
     s.setWorld r.1)
  else
    (Except.ok (),
     ((s.setWorld r.1).setObj this
        { file_ := r.2, filename_ := filename, is_open_ := true }).setAlive this true)

/-- Destructor `~FileHandle()`: `if (!is_open_) return; file_.close();
is_open_ = false;`, followed by the destruction of the members, where the stream closes
its file buffer. -/
def destruct (this : Addr) (s : State) : State :=
  let h := s.obj this
  let s1 :=
    if !h.is_open_ then s
    else
      let r := FStream.close s.world h.file_
      (s.setWorld r.1).setObj this { h with file_ := r.2, is_open_ := false }
  let m := FStream.closeBuf s1.world (s1.obj this).file_
  ((s1.setWorld m.1).setObj this { s1.obj this with file_ := m.2 }).setAlive this false

/-- Move constructor: `file_ = std::move(other.file_); filename_ =
std::move(other.filename_); is_open_ = other.is_open_; other.is_open_ = false;
other.filename_.clear();` on default-constructed members. -/
def moveConstruct (this other : Addr) (s : State) : State :=
  let o := s.obj other
  let r := FStream.moveAssign s.world FStream.create o.file_
  let s1 := (s.setWorld r.1).setObj this
    { file_ := r.2.1, filename_ := o.filename_, is_open_ := o.is_open_ }
  let s2 := s1.setObj other { file_ := r.2.2, filename_ := "", is_open_ := false }
  s2.setAlive this true

/-- Move assignment: under `this != &other`, `if (is_open_) file_.close();` and then the
same transfer as the move constructor. -/
def moveAssign (this other : Addr) (s : State) : State :=
  if this ≠ other then
    let h := s.obj this
    let c := if h.is_open_ then FStream.close s.world h.file_ else (s.world, h.file_)
    let o := s.obj other
    let r := FStream.moveAssign c.1 c.2 o.file_
    let s1 := (s.setWorld r.1).setObj this
      { file_ := r.2.1, filename_ := o.filename_, is_open_ := o.is_open_ }
    s1.setObj other { file_ := r.2.2, filename_ := "", is_open_ := false }
  else s

/-- Method `is_open`: `return is_open_;`. -/
def is_open (this : Addr) (s : State) : Bool := (s.obj this).is_open_

/-- Method `write`: `if (!is_open_) throw ...; file_ << data; if (!file_) throw ...;`. -/
def write (this : Addr) (data : List Char) (s : State) : Except Error Unit × State :=
  let h := s.obj this
  if !h.is_open_ then
    (Except.error (Error.runtime_error ("File is not open for writing: " ++ h.filename_)),
     s)
  else
    let st := FStream.put h.file_ data
    let s1 := s.setObj this { h with file_ := st }
    if st.fail then
      (Except.error (Error.runtime_error ("Failed to write to file: " ++ h.filename_)), s1)
    else (Except.ok (), s1)

/-- Method `read`: `if (!is_open_) throw ...; std::getline(file_, content, 0);
if (!file_) throw ...; return content;`. -/
def read (this : Addr) (s : State) : Except Error (List Char) × State :=
  let h := s.obj this
  if !h.is_open_ then
    (Except.error (Error.runtime_error ("File is not open for reading: " ++ h.filename_)),
     s)
  else
    let r := FStream.getline s.world h.file_ nul
    let s1 := (s.setWorld r.1).setObj this { h with file_ := r.2.1 }
    if r.2.1.fail then
      (Except.error (Error.runtime_error ("Failed to read from file: " ++ h.filename_)),
       s1)
    else (Except.ok r.2.2, s1)

end FileHandle

/-- Whether a call ended by throwing. -/
def throws {α : Type} (r : Except Error α) : Bool :=
  match r with
  | Except.error _ => true
  | Except.ok _ => false

/-- The handle at `h` is alive, flagged open, and its stream holds descriptor `fd`. -/
def Holds (s : State) (h : Addr) (fd : Nat) : Prop :=
  s.alive h = true ∧ (s.obj h).is_open_ = true ∧ (s.obj h).file_.fd = fd

/-- One program step on handles: a construction (successful or not), `write`, `read`,
move construction of a new handle, move assignment, destruction. -/
inductive Step : State → State → Prop where
  | construct (s : State) (this : Addr) (filename : String) (mode : OpenMode) :
      s.alive this = false → Step s (FileHandle.construct this filename mode s).2
  | write (s : State) (this : Addr) (data : List Char) :
      s.alive this = true → Step s (FileHandle.write this data s).2
  | read (s : State) (this : Addr) :
      s.alive this = true → Step s (FileHandle.read this s).2
  | moveConstruct (s : State) (this other : Addr) :
      s.alive this = false → s.alive other = true →
      Step s (FileHandle.moveConstruct this other s)
  | moveAssign (s : State) (this other : Addr) :
      s.alive this = true → s.alive other = true →
      Step s (FileHandle.moveAssign this other s)
  | destruct (s : State) (this : Addr) :
      s.alive this = true → Step s (FileHandle.destruct this s)

/-- States reachable from `s` by finitely many steps. -/
inductive Reachable (s : State) : State → Prop where
  | refl : Reachable s s
  | step (t u : State) : Reachable s t → Step t u → Reachable s u

/-- Tests 1 and 2 of `test_basic_raii` with content `data`: open `test1.txt` for
output at handle address 1, write `data`, destroy the handle; open `test1.txt` for input
at handle address 2 and read.  Returns the result of `read`. -/
def writeThenRead (w : World) (data : List Char) : Except Error (List Char) :=
  let s1 := (FileHandle.construct 1 "test1.txt" OpenMode.write (State.init w)).2
  let s2 := (FileHandle.write 1 data s1).2
  let s3 := FileHandle.destruct 1 s2
  let s4 := (FileHandle.construct 2 "test1.txt" OpenMode.read s3).2
  (FileHandle.read 2 s4).1

/-- Flag consistency: for every living handle, `is_open_` tells whether the stream is
open. -/
def Consistent (s : State) : Prop :=
  ∀ h : Addr, s.alive h = true → (s.obj h).file_.is_open = (s.obj h).is_open_

/-- The descriptor of every living handle flagged open has been opened and not closed. -/
def OpenUnderlying (s : State) : Prop :=
  ∀ h : Addr, s.alive h = true → (s.obj h).is_open_ = true →
    (s.obj h).file_.fd < s.world.nextFd ∧ s.closeCount (s.obj h).file_.fd = 0

/-- No two distinct living handles flagged open hold the same descriptor. -/
def ExclusiveFd (s : State) : Prop :=
  ∀ h k : Addr, s.alive h = true → s.alive k = true →
    (s.obj h).is_open_ = true → (s.obj k).is_open_ = true →
    (s.obj h).file_.fd = (s.obj k).file_.fd → h = k

/-- Every opened descriptor that has not been closed is held by a living handle. -/
def NoLeak (s : State) : Prop :=
  ∀ fd : Nat, fd < s.world.nextFd → s.closeCount fd = 0 → ∃ h : Addr, Holds s h fd

/-- No descriptor has been closed twice, and none that was never opened. -/
def ClosedOnce (s : State) : Prop :=
  ∀ fd : Nat, s.closeCount fd ≤ 1 ∧ (s.world.nextFd ≤ fd → s.closeCount fd = 0)

/-- The starting states: no living handle, no descriptor handed out, empty log. -/
def Initial (s : State) : Prop :=
  (∀ h : Addr, s.alive h = false) ∧ s.world.nextFd = 0 ∧ s.world.log = []

/-- The ownership discipline of `FileHandle` states. -/
def Invariant (s : State) : Prop :=
  Consistent s ∧ OpenUnderlying s ∧ ExclusiveFd s ∧ NoLeak s ∧ ClosedOnce s

/-- Test 4 of `test_basic_raii`, just before the assignment: `fh3` at address 3 open on
`test3.txt` with `"Move assignment test"` written, `fh4` at address 4 open on
`test4.txt`. -/
def test4Before : State :=
  (FileHandle.construct 4 "test4.txt" OpenMode.write
    (FileHandle.write 3 "Move assignment test".toList
      (FileHandle.construct 3 "test3.txt" OpenMode.write (State.init World.init)).2).2).2

/-- Test 3 of `test_basic_raii` up to the end of its scope: `fh1` at address 1 opened on
`test2.txt`, `"Move test"` written, `fh2` at address 2 move-constructed from `fh1`, then
`fh2` and `fh1` destroyed. -/
def test3Final : State :=
  FileHandle.destruct 1
    (FileHandle.destruct 2
      (FileHandle.moveConstruct 2 1
        (FileHandle.write 1 "Move test".toList
          (FileHandle.construct 1 "test2.txt" OpenMode.write (State.init World.init)).2).2))

/-- A handle at address 1 open for input on a file `empty.txt` with no content. -/
def emptyFileOpen : State :=
  (FileHandle.construct 1 "empty.txt" OpenMode.read
    (State.init (World.init.setFile "empty.txt" []))).2

/-- A handle at address 1 open for input on a file `nul.bin` whose content is the three
characters `a`, NUL, `b`. -/
def nulFileOpen : State :=
  (FileHandle.construct 1 "nul.bin" OpenMode.read
    (State.init (World.init.setFile "nul.bin" ['a', nul, 'b']))).2

end Kata1

/-!
## LeetCode 207: `canFinish`

A shallow embedding of `docs/ds_algo/lc207.cpp`.  Courses are natural numbers, the
prerequisites are pairs `(course, prerequisite)`, and `std::vector` is a list read and
written by position.  The recursive lambda `hasCycle` takes fuel and returns `none` when
it runs out.
-/

namespace LC207

/-- Statement `graph[i].push_back(x)`. -/
def pushAt (graph : List (List Nat)) (i : Nat) (x : Nat) : List (List Nat) :=
  graph.set i (graph.getD i [] ++ [x])

/-- Step 1 of `canFinish`: `graph(numCourses)` filled by
`graph[prerequisite].push_back(course)` for every pair. -/
def buildGraph (numCourses : Nat) (prerequisites : List (Nat × Nat)) : List (List Nat) :=
  prerequisites.foldl (fun g prereq => pushAt g prereq.2 prereq.1)
    (List.replicate numCourses [])

/-- Expression `color[i]`. -/
def colorOf (color : List Nat) (i : Nat) : Nat := color.getD i 0

/-- The loop `for (int neighbor : graph[course]) if (hasCycle(neighbor)) return true;`
with `visit` standing for the recursive call.  The result is whether the loop returned
`true`, and the colors after it. -/
def forNeighbors (visit : List Nat → Nat → Option (Bool × List Nat)) :
    List Nat → List Nat → Option (Bool × List Nat)
  | [], color => some (false, color)
  | neighbor :: rest, color =>
    match visit color neighbor with
    | none => none
    | some (true, color1) => some (true, color1)
    | some (false, color1) => forNeighbors visit rest color1

/-- The lambda `hasCycle`: gray gives `true`, black gives `false`, otherwise the course
is colored gray, its neighbors are visited, and it is colored black when none of them
reported a cycle.  Returns the result and the colors after the call. -/
def hasCycle (graph : List (List Nat)) : Nat → List Nat → Nat → Option (Bool × List Nat)
  | 0, _, _ => none
  | fuel + 1, color, course =>
    if colorOf color course = 1 then some (true, color)
    else if colorOf color course = 2 then some (false, color)
    else
      match forNeighbors (hasCycle graph fuel) (graph.getD course [])
          (color.set course 1) with
      | none => none
      | some (true, color1) => some (true, color1)
      | some (false, color1) => some (false, color1.set course 2)

/-- The loop `for (int i = 0; i < numCourses; i++) if (color[i] == 0) if (hasCycle(i))
return false;` followed by `return true;`, over the remaining values of `i`. -/
def checkAll (graph : List (List Nat)) (fuel : Nat) :
    List Nat → List Nat → Option Bool
  | [], _ => some true
  | i :: rest, color =>
    if colorOf color i = 0 then
      match hasCycle graph fuel color i with
      | none => none
      | some (true, _) => some false
      | some (false, color1) => checkAll graph fuel rest color1
    else checkAll graph fuel rest color

/-- Function `canFinish(numCourses, prerequisites)`; the recursion of `hasCycle` gets
fuel `numCourses + 1`. -/
def canFinish (numCourses : Nat) (prerequisites : List (Nat × Nat)) : Option Bool :=
  checkAll (buildGraph numCourses prerequisites) (numCourses + 1)
    (List.range numCourses) (List.replicate numCourses 0)

/-- The directed graph of the prerequisites: an edge `prerequisite → course` for every
pair `(course, prerequisite)`. -/
def Edge (prerequisites : List (Nat × Nat)) (u w : Nat) : Prop :=
  (w, u) ∈ prerequisites

/-- The graph contains a directed cycle: some course reaches itself through at least one
edge. -/
def HasDirectedCycle (prerequisites : List (Nat × Nat)) : Prop :=
  ∃ v : Nat, Relation.TransGen (Edge prerequisites) v v

/-- Every color is white (0), gray (1) or black (2). -/
def ColorsValid (color : List Nat) : Prop :=
  ∀ u : Nat, colorOf color u = 0 ∨ colorOf color u = 1 ∨ colorOf color u = 2

/-- Every edge out of a black course leads to a black course. -/
def BlackClosed (prerequisites : List (Nat × Nat)) (color : List Nat) : Prop :=
  ∀ u w : Nat, colorOf color u = 2 → Edge prerequisites u w → colorOf color w = 2

/-- No black course lies on a directed cycle. -/
def BlackAcyclic (prerequisites : List (Nat × Nat)) (color : List Nat) : Prop :=
  ∀ u : Nat, colorOf color u = 2 → ¬ Relation.TransGen (Edge prerequisites) u u

/-- From `color` to `color1` every course keeps its color or goes from white to
black. -/
def Advances (color color1 : List Nat) : Prop :=
  color1.length = color.length
  ∧ ∀ u : Nat, colorOf color1 u = colorOf color u
      ∨ (colorOf color u = 0 ∧ colorOf color1 u = 2)

/-- Number of white courses. -/
def whites (color : List Nat) : Nat := color.count 0

end LC207

/-!
## LeetCode 200: `numIslands`

A shallow embedding of `docs/ds_algo/lc200.cpp`.  The grid is a list of rows of
characters, indices are integers as in the source (`r - 1` may be negative), and an
access `grid[r][c]` outside the vectors is reported as `Fault.outOfBounds`.  The
recursive lambda `dfs` takes fuel and reports `Fault.outOfFuel` when it runs out.  The
sizes of the grid are taken to fit the type `int`.
-/

namespace LC200

/-- Type `std::vector<std::vector<char>>`. -/
abbrev Grid := List (List Char)

/-- A position `(r, c)`. -/
abbrev Cell := Int × Int

/-- Ways in which a run of the model stops without a result. -/
inductive Fault where
  | outOfFuel
  | outOfBounds
  deriving DecidableEq

/-- Expression `grid[r][c]` read. -/
def readCell (grid : Grid) (r c : Int) : Except Fault Char :=
  if r < 0 ∨ c < 0 then Except.error Fault.outOfBounds
  else
    match grid[r.toNat]? with
    | none => Except.error Fault.outOfBounds
    | some row =>
      match row[c.toNat]? with
      | none => Except.error Fault.outOfBounds
      | some ch => Except.ok ch

/-- Statement `grid[r][c] = ch`. -/
def writeCell (grid : Grid) (r c : Int) (ch : Char) : Except Fault Grid :=
  if r < 0 ∨ c < 0 then Except.error Fault.outOfBounds
  else
    match grid[r.toNat]? with
    | none => Except.error Fault.outOfBounds
    | some row =>
      if c.toNat < row.length then Except.ok (grid.set r.toNat (row.set c.toNat ch))
      else Except.error Fault.outOfBounds

/-- The lambda `dfs` with the captured constants `rows` and `cols`: it returns at once
when `(r, c)` is outside the bounds or holds `'0'`; otherwise it writes `'0'` and calls
itself on the cell above, below, to the left and to the right, in this order.  The
result is the grid after the call. -/
def dfs (rows cols : Int) : Nat → Grid → Int → Int → Except Fault Grid
  | 0, _, _, _ => Except.error Fault.outOfFuel
  | fuel + 1, grid, r, c =>
    if r < 0 ∨ r ≥ rows ∨ c < 0 ∨ c ≥ cols then Except.ok grid
    else
      match readCell grid r c with
      | Except.error e => Except.error e
      | Except.ok ch =>
        if ch = '0' then Except.ok grid
        else
          match writeCell grid r c '0' with
          | Except.error e => Except.error e
          | Except.ok g1 =>
            match dfs rows cols fuel g1 (r - 1) c with
            | Except.error e => Except.error e
            | Except.ok g2 =>
              match dfs rows cols fuel g2 (r + 1) c with
              | Except.error e => Except.error e
              | Except.ok g3 =>
                match dfs rows cols fuel g3 r (c - 1) with
                | Except.error e => Except.error e
                | Except.ok g4 => dfs rows cols fuel g4 r (c + 1)

/-- The inner loop `for (int c = 0; c < cols; ++c) if (grid[r][c] == '1') { ++islands;
dfs(dfs, r, c); }` over the remaining values of `c`.  The result is the grid and the
counter after the loop. -/
def scanRow (rows cols : Int) (fuel : Nat) (r : Int) :
    List Nat → Grid → Int → Except Fault (Grid × Int)
  | [], grid, islands => Except.ok (grid, islands)
  | c :: rest, grid, islands =>
    match readCell grid r c with
    | Except.error e => Except.error e
    | Except.ok ch =>
      if ch = '1' then
        match dfs rows cols fuel grid r c with
        | Except.error e => Except.error e
        | Except.ok g1 => scanRow rows cols fuel r rest g1 (islands + 1)
      else scanRow rows cols fuel r rest grid islands

/-- The outer loop `for (int r = 0; r < rows; ++r)` over the remaining values of `r`. -/
def scanRows (rows cols : Int) (fuel : Nat) :
    List Nat → Grid → Int → Except Fault (Grid × Int)
  | [], grid, islands => Except.ok (grid, islands)
  | r :: rest, grid, islands =>
    match scanRow rows cols fuel r (List.range cols.toNat) grid islands with
    | Except.error e => Except.error e
    | Except.ok (g1, k) => scanRows rows cols fuel rest g1 k

/-- Function `numIslands(grid)`: `rows = grid.size()`, `cols = grid[0].size()`, the two
loops, `return islands`.  The grid is passed by reference, so the result is the returned
count together with the grid after the call.  The recursion of `dfs` gets fuel
`rows * cols + 1`. -/
def numIslands (grid : Grid) : Except Fault (Int × Grid) :=
  match grid[0]? with
  | none => Except.error Fault.outOfBounds
  | some row0 =>
    match scanRows grid.length row0.length (grid.length * row0.length + 1)
        (List.range grid.length) grid 0 with
    | Except.error e => Except.error e
    | Except.ok (g1, islands) => Except.ok (islands, g1)

/-- Test grid 1 of `main`. -/
def grid1 : Grid :=
  [['1', '1', '1', '1', '0'],
   ['1', '1', '0', '1', '0'],
   ['1', '1', '0', '0', '0'],
   ['0', '0', '0', '0', '0']]

/-- The grid has at least one row, and every row has the length of the first. -/
def Rectangular (grid : Grid) : Prop :=
  grid ≠ [] ∧ ∀ row ∈ grid, row.length = (grid.headD []).length

/-- The cell lies in the grid and holds a character other than `'0'`. -/
def Solid (grid : Grid) (p : Cell) : Prop :=
  ∃ ch : Char, readCell grid p.1 p.2 = Except.ok ch ∧ ch ≠ '0'

/-- Cell `q` is directly above, below, left or right of `p`. -/
def Adjacent (p q : Cell) : Prop :=
  q = (p.1 - 1, p.2) ∨ q = (p.1 + 1, p.2) ∨ q = (p.1, p.2 - 1) ∨ q = (p.1, p.2 + 1)

/-- A step between adjacent cells that both satisfy `P`. -/
def StepIn (P : Cell → Prop) (p q : Cell) : Prop :=
  P p ∧ P q ∧ Adjacent p q

/-- Cell `q` is reached from the `P`-cell `p` through adjacent `P`-cells. -/
def ConnIn (P : Cell → Prop) (p q : Cell) : Prop :=
  P p ∧ Relation.ReflTransGen (StepIn P) p q

/-- Number of cells that hold a character other than `'0'`. -/
def solidCount (grid : Grid) : Nat :=
  (grid.map (fun row => row.countP (fun ch => ch != '0'))).sum

/-- The grid has `rows` rows of `cols` cells each. -/
def Dim (grid : Grid) (rows cols : Nat) : Prop :=
  grid.length = rows ∧ ∀ row ∈ grid, row.length = cols

/-- Grid `g1` is `g` with `'0'` written over every cell reached from a seed in `S`
through adjacent cells other than `'0'`; all other cells are as in `g`. -/
def SunkBy (g g1 : Grid) (S : Cell → Prop) : Prop :=
  ∀ q : Cell,
    ((∃ a, S a ∧ ConnIn (Solid g) a q) → readCell g1 q.1 q.2 = Except.ok '0')
    ∧ ((¬ ∃ a, S a ∧ ConnIn (Solid g) a q) → readCell g1 q.1 q.2 = readCell g q.1 q.2)

/-- Invariant of the two loops of `numIslands` on the input `g0`: the current grid `g`
is `g0` with the islands of the start cells `reps` sunk, the start cells are cells of
`g0` other than `'0'`, and no two of them lie on the same island. -/
def ScanInv (g0 : Grid) (rows cols fuel : Nat) (g : Grid) (reps : List Cell) : Prop :=
  Dim g rows cols ∧ solidCount g < fuel ∧ SunkBy g0 g (fun a => a ∈ reps)
    ∧ (∀ a ∈ reps, Solid g0 a)
    ∧ reps.Pairwise (fun a b => ¬ ConnIn (Solid g0) a b)

end LC200

/-!
## LeetCode 133: `cloneGraph`

A shallow embedding of `docs/ds_algo/lc133.cpp`.  A `Node*` is an address, address `0`
being the null pointer; the free store maps addresses to nodes, and `new` returns the
address `next` and advances it.  The map `visited` is the list of its entries, the
latest first.  The recursive lambda `dfs` takes fuel and reports `Fault.outOfFuel` when
it runs out; dereferencing a pointer that is null or not allocated is reported as
`Fault.invalidPointer`.
-/

namespace LC133

/-- The null pointer constant; a raw `Node*` is a natural number, its address. -/
def nullptr : Nat := 0

/-- Class `Node`: `int val` and `std::vector<Node*> neighbors`. -/
structure Node where
  val : Int
  neighbors : List Nat
deriving DecidableEq

/-- Ways in which a run of the model stops without a result. -/
inductive Fault where
  | outOfFuel
  | invalidPointer
deriving DecidableEq

/-- The free store: the node at every allocated address, and the address that the next
`new` returns. -/
structure Heap where
  nodes : Nat → Option Node
  next : Nat

/-- The free store before any allocation. -/
def Heap.empty : Heap := { nodes := fun _ => none, next := 1 }

/-- Write the node at address `a`. -/
def Heap.store (h : Heap) (a : Nat) (n : Node) : Heap :=
  { h with nodes := fun x => if x = a then some n else h.nodes x }

/-- Expression `new Node(val)`: constructor `Node(int _val)` with an empty `neighbors`.
Returns the address of the new node and the free store after the allocation. -/
def Heap.newNode (h : Heap) (val : Int) : Nat × Heap :=
  (h.next, { nodes := fun x => if x = h.next then some { val := val, neighbors := [] }
                                else h.nodes x,
             next := h.next + 1 })

/-- Statement `p->neighbors = l`. -/
def Heap.setNeighbors (h : Heap) (p : Nat) (l : List Nat) : Except Fault Heap :=
  match h.nodes p with
  | none => Except.error Fault.invalidPointer
  | some n => Except.ok (h.store p { n with neighbors := l })

/-- Statement `p->neighbors.push_back(q)`. -/
def Heap.pushNeighbor (h : Heap) (p q : Nat) : Except Fault Heap :=
  match h.nodes p with
  | none => Except.error Fault.invalidPointer
  | some n => Except.ok (h.store p { n with neighbors := n.neighbors ++ [q] })

/-- Expression `visited.find(key)`: the value stored under `key`, if any. -/
def mapFind : List (Nat × Nat) → Nat → Option Nat
  | [], _ => none
  | (k, v) :: rest, key => if k = key then some v else mapFind rest key

/-- Machine state of `cloneGraph`: the free store and the map `visited`. -/
structure State where
  heap : Heap
  visited : List (Nat × Nat)

/-- The loop `for (Node* neighbor : original_node->neighbors)
clone_node->neighbors.push_back(dfs(neighbor));` over the remaining neighbors, with
`visit` standing for the recursive call.  The range of the loop is fixed when the loop
starts. -/
def cloneNeighbors (visit : State → Nat → Except Fault (Nat × State))
    (clone_node : Nat) : List Nat → State → Except Fault State
  | [], s => Except.ok s
  | neighbor :: rest, s =>
    match visit s neighbor with
    | Except.error e => Except.error e
    | Except.ok (c, s1) =>
      match s1.heap.pushNeighbor clone_node c with
      | Except.error e => Except.error e
      | Except.ok h2 =>
        cloneNeighbors visit clone_node rest { s1 with heap := h2 }

/-- The lambda `dfs`: a node found in `visited` yields its clone; otherwise a new node
with the same `val` is allocated and entered in `visited`, the clones of the neighbors
are appended to its `neighbors` in order, and it is returned.  The result is the
returned pointer and the state after the call. -/
def dfs : Nat → State → Nat → Except Fault (Nat × State)
  | 0, _, _ => Except.error Fault.outOfFuel
  | fuel + 1, s, original_node =>
    match mapFind s.visited original_node with
    | some c => Except.ok (c, s)
    | none =>
      match s.heap.nodes original_node with
      | none => Except.error Fault.invalidPointer
      | some n =>
        let r := s.heap.newNode n.val
        match cloneNeighbors (dfs fuel) r.1 n.neighbors
            { heap := r.2, visited := (original_node, r.1) :: s.visited } with
        | Except.error e => Except.error e
        | Except.ok s2 => Except.ok (r.1, s2)

/-- Function `cloneGraph(node)`: null for a null argument, else `dfs(node)` on an empty
`visited`.  The result is the returned pointer and the free store after the call.  The
recursion of `dfs` gets fuel `next + 1`, more than there are allocated nodes. -/
def cloneGraph (h : Heap) (node : Nat) : Except Fault (Nat × Heap) :=
  if node = nullptr then Except.ok (nullptr, h)
  else
    match dfs (h.next + 1) { heap := h, visited := [] } node with
    | Except.error e => Except.error e
    | Except.ok (c, s) => Except.ok (c, s.heap)

/-- Function `createTestGraph`: four nodes with values 1 to 4 joined in a cycle
`1 - 2 - 3 - 4 - 1`.  Returns `node1` and the free store after the call. -/
def createTestGraph (h : Heap) : Except Fault (Nat × Heap) :=
  let r1 := h.newNode 1
  let r2 := r1.2.newNode 2
  let r3 := r2.2.newNode 3
  let r4 := r3.2.newNode 4
  match r4.2.setNeighbors r1.1 [r2.1, r4.1] with
  | Except.error e => Except.error e
  | Except.ok h1 =>
    match h1.setNeighbors r2.1 [r1.1, r3.1] with
    | Except.error e => Except.error e
    | Except.ok h2 =>
      match h2.setNeighbors r3.1 [r2.1, r4.1] with
      | Except.error e => Except.error e
      | Except.ok h3 =>
        match h3.setNeighbors r4.1 [r1.1, r3.1] with
        | Except.error e => Except.error e
        | Except.ok h4 => Except.ok (r1.1, h4)

/-- The free store of Test Case 1 after `createTestGraph()` on an empty free store:
nodes 1 to 4 at addresses 1 to 4. -/
def testGraph : Heap :=
  match createTestGraph Heap.empty with
  | Except.ok (_, h) => h
  | Except.error _ => Heap.empty

/-- The free store of Test Case 3 after `new Node(1)`. -/
def singleGraph : Heap := (Heap.empty.newNode 1).2

/-- A free store with one node that is its own neighbor, twice. -/
def loopGraph : Heap :=
  { nodes := fun a => if a = 1 then some { val := 7, neighbors := [1, 1] } else none,
    next := 2 }

/-- Node `b` is in the `neighbors` of the node at `a`. -/
def Edge (h : Heap) (a b : Nat) : Prop :=
  ∃ n : Node, h.nodes a = some n ∧ b ∈ n.neighbors

/-- Node `a` is reached from `root` by following `neighbors`. -/
def Reach (h : Heap) (root a : Nat) : Prop :=
  Relation.ReflTransGen (Edge h) root a

/-- A free store in which every allocated node has a non-null address below `next` and
every pointer in a `neighbors` vector points to an allocated node. -/
def WellFormed (h : Heap) : Prop :=
  ∀ (a : Nat) (n : Node), h.nodes a = some n →
    a ≠ nullptr ∧ a < h.next ∧ ∀ b ∈ n.neighbors, ∃ m : Node, h.nodes b = some m

/-- The addresses `b + k - 1`, ..., `b + 1`, `b`: the results of `k` allocations
starting at `b`, the latest first. -/
def valuesFrom (b : Nat) : Nat → List Nat
  | 0 => []
  | k + 1 => (b + k) :: valuesFrom b k

/-- Invariant of `dfs` on the free store `h0` with the argument `root`: nodes below
`h0.next` are as in `h0`, one node has been allocated per entry of `visited`, nothing is
allocated from `next` on, the keys of `visited` are distinct nodes reached from `root`,
and its values are the addresses from `h0.next` on, the latest first. -/
def Inv (h0 : Heap) (root : Nat) (s : State) : Prop :=
  (∀ a : Nat, a < h0.next → s.heap.nodes a = h0.nodes a)
  ∧ s.heap.next = h0.next + s.visited.length
  ∧ (∀ a : Nat, s.heap.next ≤ a → s.heap.nodes a = none)
  ∧ (∀ p ∈ s.visited, Reach h0 root p.1)
  ∧ (s.visited.map Prod.fst).Nodup
  ∧ s.visited.map Prod.snd = valuesFrom h0.next s.visited.length

/-- The entry `p` of `visited` is finished: the clone holds the `val` of the original,
and its `neighbors` are, position by position, clones entered in `visited` for the
`neighbors` of the original. -/
def Complete (h0 : Heap) (s : State) (p : Nat × Nat) : Prop :=
  ∃ (n : Node) (cs : List Nat), h0.nodes p.1 = some n
    ∧ s.heap.nodes p.2 = some { val := n.val, neighbors := cs }
    ∧ List.Forall₂ (fun b cb => (b, cb) ∈ s.visited) n.neighbors cs

/-- The clone of `a` recorded in `visited`, null when there is none. -/
def cloneOf (visited : List (Nat × Nat)) (a : Nat) : Nat :=
  (mapFind visited a).getD nullptr

end LC133

namespace Kata2

open SimpleUniquePtr

/-- Fields of the state after a move assignment between distinct handles. -/
theorem moveAssign_fields (s : State) (this other : Addr) (hne : this ≠ other) :
    (∀ z, (moveAssign this other s).ptr_ z
        = if z = other then nullptr else if z = this then s.ptr_ other else s.ptr_ z)
    ∧ (moveAssign this other s).alive = s.alive
    ∧ (∀ z, (moveAssign this other s).heap z
        = if s.ptr_ this ≠ nullptr ∧ z = s.ptr_ this then none else s.heap z) := by
  by_cases hq : s.ptr_ this = nullptr <;>
    simp [moveAssign, State.storePtr, State.deletePtr, hne, hq]

/-- Fields of the state after `reset`. -/
theorem reset_fields (s : State) (this : Addr) (x : Ptr) :
    (∀ z, (reset this x s).ptr_ z = if z = this then x else s.ptr_ z)
    ∧ (reset this x s).alive = s.alive
    ∧ (∀ z, (reset this x s).heap z
        = if s.ptr_ this ≠ nullptr ∧ z = s.ptr_ this then none else s.heap z) := by
  by_cases hq : s.ptr_ this = nullptr <;>
    simp [reset, State.storePtr, State.deletePtr, hq]

/-- Fields of the state after the destructor. -/
theorem destruct_fields (s : State) (this : Addr) :
    (destruct this s).ptr_ = s.ptr_
    ∧ (∀ z, (destruct this s).alive z = if z = this then false else s.alive z)
    ∧ (∀ z, (destruct this s).heap z
        = if s.ptr_ this ≠ nullptr ∧ z = s.ptr_ this then none else s.heap z) := by
  by_cases hq : s.ptr_ this = nullptr <;>
    simp [destruct, State.setAlive, State.deletePtr, hq]

/-- Exclusive ownership read in both directions. -/
theorem Exclusive.sep {s : State} (hE : Exclusive s) {a b : Addr}
    (ha : s.alive a = true) (hb : s.alive b = true) :
    (a ≠ b → s.ptr_ a ≠ nullptr → s.ptr_ a ≠ s.ptr_ b ∧ s.ptr_ b ≠ s.ptr_ a)
    ∧ (b ≠ a → s.ptr_ a ≠ nullptr → s.ptr_ a ≠ s.ptr_ b ∧ s.ptr_ b ≠ s.ptr_ a) := by
  have h := hE a b ha hb
  constructor
  · intro hab h0
    exact ⟨h hab h0, fun e => h hab h0 e.symm⟩
  · intro hba h0
    have hab : a ≠ b := fun e => hba e.symm
    exact ⟨h hab h0, fun e => h hab h0 e.symm⟩

/-- Construction over a fresh allocation keeps ownership exclusive and live. -/
theorem construct_preserves (s : State) (this : Addr) (a : Ptr) (v : Int)
    (ha0 : a ≠ nullptr) (hfresh : s.heap a = none)
    (hE : Exclusive s) (hL : OwnedLive s) :
    Exclusive (construct this a (s.newResource a v))
    ∧ OwnedLive (construct this a (s.newResource a v)) := by
  have hnot : ∀ z : Addr, s.alive z = true → s.ptr_ z ≠ a ∧ a ≠ s.ptr_ z := by
    intro z hz
    have hLz := hL z hz
    constructor
    · intro e
      rw [e] at hLz
      exact hLz ha0 hfresh
    · intro e
      rw [← e] at hLz
      exact hLz ha0 hfresh
  constructor
  · intro x y hx hy hxy hpx
    have hExy := hE x y
    have hnx := hnot x
    have hny := hnot y
    by_cases h1 : x = this <;> by_cases h2 : y = this <;>
      simp_all [construct, State.storePtr, State.setAlive, State.newResource]
  · intro x hx hpx
    have hLx := hL x
    have hnx := hnot x
    by_cases h1 : x = this <;>
      simp_all [construct, State.storePtr, State.setAlive, State.newResource]

/-- Default construction keeps ownership exclusive and live. -/
theorem constructDefault_preserves (s : State) (this : Addr)
    (hE : Exclusive s) (hL : OwnedLive s) :
    Exclusive (constructDefault this s) ∧ OwnedLive (constructDefault this s) := by
  constructor
  · intro x y hx hy hxy hpx
    have hExy := hE x y
    by_cases h1 : x = this <;> by_cases h2 : y = this <;>
      simp_all [constructDefault, construct, State.storePtr, State.setAlive]
  · intro x hx hpx
    have hLx := hL x
    by_cases h1 : x = this <;>
      simp_all [constructDefault, construct, State.storePtr, State.setAlive]

/-- Move construction of a new handle keeps ownership exclusive and live. -/
theorem moveConstruct_preserves (s : State) (this other : Addr)
    (hal : s.alive this = false) (hoth : s.alive other = true)
    (hE : Exclusive s) (hL : OwnedLive s) :
    Exclusive (moveConstruct this other s) ∧ OwnedLive (moveConstruct this other s) := by
  constructor
  · intro x y hx hy hxy hpx
    have hExy := hE x y
    have hoy := fun hy0 : s.alive y = true => (hE.sep hoth hy0).2
    have hox := fun hx0 : s.alive x = true => (hE.sep hx0 hoth).1
    by_cases h1 : x = this <;> by_cases h2 : y = this <;>
      by_cases h3 : x = other <;> by_cases h4 : y = other <;>
      simp_all [moveConstruct, State.storePtr, State.setAlive]
  · intro x hx hpx
    have hLx := hL x
    have hLo := hL other
    by_cases h1 : x = this <;> by_cases h3 : x = other <;>
      simp_all [moveConstruct, State.storePtr, State.setAlive]

/-- Move assignment keeps ownership exclusive and live. -/
theorem moveAssign_preserves (s : State) (this other : Addr)
    (hal : s.alive this = true) (hoth : s.alive other = true)
    (hE : Exclusive s) (hL : OwnedLive s) :
    Exclusive (moveAssign this other s) ∧ OwnedLive (moveAssign this other s) := by
  by_cases h0 : this = other
  · have hs : moveAssign this other s = s := by simp [moveAssign, h0]
    rw [hs]
    exact ⟨hE, hL⟩
  · obtain ⟨hptr, halive, hheap⟩ := moveAssign_fields s this other h0
    constructor
    · intro x y hx hy hxy hpx
      rw [halive] at hx hy
      rw [hptr] at hpx
      rw [hptr, hptr]
      have hExy := hE x y hx hy hxy
      have hoy := (hE.sep hoth hy).2
      have hox := (hE.sep hx hoth).1
      by_cases h1 : x = this <;> by_cases h2 : y = this <;>
        by_cases h3 : x = other <;> by_cases h4 : y = other <;>
        simp_all
    · intro x hx hpx
      rw [halive] at hx
      rw [hptr] at hpx
      rw [hheap, hptr]
      have hLx := hL x hx
      have hLo := hL other hoth
      have hto := (hE.sep hal hoth).1 h0
      have htx := (hE.sep hal hx).2
      by_cases h1 : x = this <;> by_cases h3 : x = other <;>
        simp_all

/-- Release keeps ownership exclusive and live. -/
theorem release_preserves (s : State) (this : Addr)
    (hE : Exclusive s) (hL : OwnedLive s) :
    Exclusive (release this s).2 ∧ OwnedLive (release this s).2 := by
  constructor
  · intro x y hx hy hxy hpx
    have hExy := hE x y
    by_cases h1 : x = this <;> by_cases h2 : y = this <;>
      simp_all [release, State.storePtr]
  · intro x hx hpx
    have hLx := hL x
    by_cases h1 : x = this <;>
      simp_all [release, State.storePtr]

/-- Reset with a fresh allocation keeps ownership exclusive and live. -/
theorem resetFresh_preserves (s : State) (this : Addr) (a : Ptr) (v : Int)
    (hal : s.alive this = true) (ha0 : a ≠ nullptr) (hfresh : s.heap a = none)
    (hE : Exclusive s) (hL : OwnedLive s) :
    Exclusive (reset this a (s.newResource a v))
    ∧ OwnedLive (reset this a (s.newResource a v)) := by
  have hnot : ∀ z : Addr, s.alive z = true → s.ptr_ z ≠ a ∧ a ≠ s.ptr_ z := by
    intro z hz
    have hLz := hL z hz
    constructor
    · intro e
      rw [e] at hLz
      exact hLz ha0 hfresh
    · intro e
      rw [← e] at hLz
      exact hLz ha0 hfresh
  obtain ⟨hptr, halive, hheap⟩ := reset_fields (s.newResource a v) this a
  have hp0 : (s.newResource a v).ptr_ = s.ptr_ := rfl
  have ha1 : (s.newResource a v).alive = s.alive := rfl
  have hh1 : ∀ z, (s.newResource a v).heap z
      = if z = a then some { value_ := v } else s.heap z := fun _ => rfl
  constructor
  · intro x y hx hy hxy hpx
    rw [halive, ha1] at hx hy
    rw [hptr, hp0] at hpx
    rw [hptr, hptr, hp0]
    have hExy := hE x y hx hy hxy
    have hnx := hnot x hx
    have hny := hnot y hy
    by_cases h1 : x = this <;> by_cases h2 : y = this <;>
      simp_all
  · intro x hx hpx
    rw [halive, ha1] at hx
    rw [hptr, hp0] at hpx
    rw [hheap, hptr, hp0, hh1]
    have hLx := hL x hx
    have hnt := hnot this hal
    have hnx := hnot x hx
    have htx := (hE.sep hal hx).2
    by_cases h1 : x = this <;>
      simp_all

/-- Destruction keeps ownership exclusive and live. -/
theorem destruct_preserves (s : State) (this : Addr)
    (hal : s.alive this = true)
    (hE : Exclusive s) (hL : OwnedLive s) :
    Exclusive (destruct this s) ∧ OwnedLive (destruct this s) := by
  obtain ⟨hptr, halive, hheap⟩ := destruct_fields s this
  constructor
  · intro x y hx hy hxy hpx
    rw [halive] at hx hy
    rw [hptr] at hpx ⊢
    have hExy := hE x y
    by_cases h1 : x = this <;> by_cases h2 : y = this <;>
      simp_all
  · intro x hx hpx
    rw [halive] at hx
    rw [hptr] at hpx
    rw [hheap, hptr]
    have hLx := hL x
    have htx := fun hx0 : s.alive x = true => (hE.sep hal hx0).2
    by_cases h1 : x = this <;>
      simp_all

/-- Every step keeps ownership exclusive and every held pointer live. -/
theorem step_preserves (s t : State) (hst : Step s t)
    (hE : Exclusive s) (hL : OwnedLive s) : Exclusive t ∧ OwnedLive t := by
  cases hst with
  | construct this a v hal ha0 hfresh => exact construct_preserves s this a v ha0 hfresh hE hL
  | constructDefault this hal => exact constructDefault_preserves s this hE hL
  | moveConstruct this other hal hoth => exact moveConstruct_preserves s this other hal hoth hE hL
  | moveAssign this other hal hoth => exact moveAssign_preserves s this other hal hoth hE hL
  | release this hal => exact release_preserves s this hE hL
  | resetFresh this a v hal ha0 hfresh =>
      exact resetFresh_preserves s this a v hal ha0 hfresh hE hL
  | destruct this hal => exact destruct_preserves s this hal hE hL

/-- Reachable states keep ownership exclusive and every held pointer live. -/
theorem reachable_preserves (s0 s : State) (hr : Reachable s0 s)
    (hE : Exclusive s0) (hL : OwnedLive s0) : Exclusive s ∧ OwnedLive s := by
  induction hr with
  | refl => exact ⟨hE, hL⟩
  | step t u _ htu ih => exact step_preserves t u htu ih.1 ih.2

/-- C1: for every handle `src` holding raw pointer `p` (null or not), move-constructing a
new handle `dst` from `src`, and move-assigning `src` into any distinct handle `dst`,
both leave `dst.get() == p` and `src` empty (`operator bool` false, `get()` null). -/
theorem move_transfers_ownership (s : State) (dst src : Addr) (p : Ptr)
    (hne : dst ≠ src) (hp : get src s = p) :
    (get dst (moveConstruct dst src s) = p
      ∧ operatorBool src (moveConstruct dst src s) = false
      ∧ get src (moveConstruct dst src s) = nullptr)
    ∧ (get dst (moveAssign dst src s) = p
      ∧ operatorBool src (moveAssign dst src s) = false
      ∧ get src (moveAssign dst src s) = nullptr) := by
  have hne2 : src ≠ dst := fun h => hne h.symm
  subst hp
  refine ⟨⟨?_, ?_, ?_⟩, ?_, ?_, ?_⟩
  · simp [SimpleUniquePtr.get, moveConstruct, State.storePtr, State.setAlive, hne]
  · simp [operatorBool, moveConstruct, State.storePtr, State.setAlive]
  · simp [SimpleUniquePtr.get, moveConstruct, State.storePtr, State.setAlive]
  · by_cases hq : s.ptr_ dst = nullptr <;>
      simp [SimpleUniquePtr.get, moveAssign, State.storePtr, State.deletePtr, hne, hq]
  · by_cases hq : s.ptr_ dst = nullptr <;>
      simp [operatorBool, moveAssign, State.storePtr, State.deletePtr, hne, hq]
  · by_cases hq : s.ptr_ dst = nullptr <;>
      simp [SimpleUniquePtr.get, moveAssign, State.storePtr, State.deletePtr, hne, hq]

/-- C1 witness (Test 2): `ptr1` owning `Resource(100)` moved into `ptr2` leaves `ptr1`
null and `ptr2->getValue() == 100`. -/
theorem move_transfers_ownership_witness :
    (get 2 (moveConstruct 2 1 test2Before) = 1000
      ∧ operatorBool 1 (moveConstruct 2 1 test2Before) = false
      ∧ get 1 (moveConstruct 2 1 test2Before) = nullptr)
    ∧ operatorArrow 2 (moveConstruct 2 1 test2Before) = Except.ok 1000
    ∧ getValueAt (moveConstruct 2 1 test2Before) 1000 = some 100 :=
  ⟨(move_transfers_ownership test2Before 2 1 1000 (by decide) rfl).1, rfl, rfl⟩

/-- C2: for distinct handles `dst` owning `q` and `src` owning `p` (`q` non-null,
`p != q`), `dst = move(src)` logs exactly `delete q`, then the store of `p` into `dst`,
then the store of null into `src`: `q` is deallocated exactly once, `p` is not
deallocated, and the deallocation of `q` precedes `dst` taking `p`. -/
theorem moveAssign_deletes_old_first (s : State) (dst src : Addr) (p q : Ptr)
    (hne : dst ≠ src) (hq : get dst s = q) (hp : get src s = p)
    (hq0 : q ≠ nullptr) (hpq : p ≠ q) :
    (moveAssign dst src s).trace
        = s.trace ++ [Event.del q, Event.store dst p, Event.store src nullptr]
    ∧ (moveAssign dst src s).deallocCount q = s.deallocCount q + 1
    ∧ (moveAssign dst src s).deallocCount p = s.deallocCount p
    ∧ (moveAssign dst src s).heap q = none
    ∧ (moveAssign dst src s).heap p = s.heap p
    ∧ get dst (moveAssign dst src s) = p := by
  have hne2 : src ≠ dst := fun h => hne h.symm
  have hq1 : s.ptr_ dst = q := hq
  have hp1 : s.ptr_ src = p := hp
  have hqp : q ≠ p := fun h => hpq h.symm
  refine ⟨?_, ?_, ?_, ?_, ?_, ?_⟩ <;>
    simp [SimpleUniquePtr.get, moveAssign, State.storePtr, State.deletePtr,
      State.deallocCount, hne, hne2, hq1, hp1, hq0, hpq, hqp, List.count_cons]

/-- C2 witness (Test 3): `ptr2` owning `Resource(300)` assigned from `ptr1` owning
`Resource(200)` destroys `Resource(300)` and `ptr2->getValue() == 200`. -/
theorem moveAssign_deletes_old_first_witness :
    (moveAssign 2 1 test3Before).trace
        = test3Before.trace ++ [Event.del 2000, Event.store 2 1000, Event.store 1 nullptr]
    ∧ getValueAt test3Before 2000 = some 300
    ∧ getValueAt (moveAssign 2 1 test3Before) 2000 = none
    ∧ operatorArrow 2 (moveAssign 2 1 test3Before) = Except.ok 1000
    ∧ getValueAt (moveAssign 2 1 test3Before) 1000 = some 200 :=
  ⟨(moveAssign_deletes_old_first test3Before 2 1 1000 2000 (by decide) rfl rfl
      (by decide) (by decide)).1, rfl, rfl, rfl, rfl⟩

/-- C3: move-assigning a handle to itself is a no-op: the whole machine state is
unchanged, so the handle holds the same pointer, is valid iff it was valid before, and
nothing is deallocated. -/
theorem moveAssign_self_noop (s : State) (a : Addr) :
    moveAssign a a s = s
    ∧ get a (moveAssign a a s) = get a s
    ∧ operatorBool a (moveAssign a a s) = operatorBool a s
    ∧ (moveAssign a a s).heap = s.heap
    ∧ (moveAssign a a s).trace = s.trace := by
  have h : moveAssign a a s = s := by simp [moveAssign]
  simp [h]

/-- C4: a call throws if and only if it is `operator*` or `operator->` on an empty
handle; on a non-empty handle both return the owned object's address and leave the state
unchanged; every other member function returns normally in every state. -/
theorem only_dereference_of_empty_throws (s : State) (c : Call) :
    (throws (c.run s) = true ↔
      ∃ h : Addr, (c = Call.operatorStar h ∨ c = Call.operatorArrow h)
        ∧ operatorBool h s = false)
    ∧ (∀ h : Addr, operatorBool h s = true →
        (Call.operatorStar h).run s = Except.ok (Value.ptr (get h s), s)
        ∧ (Call.operatorArrow h).run s = Except.ok (Value.ptr (get h s), s)) := by
  constructor
  · cases c with
    | operatorStar this =>
        by_cases hz : s.ptr_ this = nullptr <;>
          simp [Call.run, throws, operatorStar, operatorBool, hz]
    | operatorArrow this =>
        by_cases hz : s.ptr_ this = nullptr <;>
          simp [Call.run, throws, operatorArrow, operatorBool, hz]
    | _ => simp [Call.run, throws]
  · intro h hb
    have hz : s.ptr_ h ≠ nullptr := by simpa [operatorBool] using hb
    simp [Call.run, operatorStar, operatorArrow, SimpleUniquePtr.get, hz]

/-- C5: `release()` returns the held pointer, leaves the handle empty (`operator bool`
false, `get()` null) and deallocates nothing: the free store is unchanged and the only
logged effect is the store of null into the handle. -/
theorem release_returns_and_empties (s : State) (h : Addr) :
    (release h s).1 = get h s
    ∧ operatorBool h (release h s).2 = false
    ∧ get h (release h s).2 = nullptr
    ∧ (release h s).2.heap = s.heap
    ∧ (release h s).2.trace = s.trace ++ [Event.store h nullptr]
    ∧ ∀ x : Ptr, (release h s).2.deallocCount x = s.deallocCount x := by
  refine ⟨?_, ?_, ?_, ?_, ?_, ?_⟩ <;>
    simp [release, SimpleUniquePtr.get, operatorBool, State.storePtr, State.deallocCount]

/-- C6: for a non-empty handle `h` owning `p`, after `r = h.release()` the handle is
empty; deleting `r` externally and then destroying `h` deallocates `p` exactly once in
total, the destructor of `h` deallocating nothing. -/
theorem release_then_delete_no_double_free (s : State) (h : Addr) (p : Ptr)
    (hp : get h s = p) (hp0 : p ≠ nullptr) :
    (release h s).1 = p
    ∧ operatorBool h (release h s).2 = false
    ∧ (destruct h (((release h s).2).deletePtr (release h s).1)).deallocCount p
        = s.deallocCount p + 1
    ∧ (destruct h (((release h s).2).deletePtr (release h s).1)).trace
        = (((release h s).2).deletePtr (release h s).1).trace
    ∧ (destruct h (((release h s).2).deletePtr (release h s).1)).heap
        = (((release h s).2).deletePtr (release h s).1).heap := by
  have hp1 : s.ptr_ h = p := hp
  refine ⟨?_, ?_, ?_, ?_, ?_⟩ <;>
    simp [release, destruct, operatorBool, State.storePtr, State.deletePtr,
      State.setAlive, State.deallocCount, hp1, hp0, List.count_cons]

/-- C6 witness (Test 1 handle): releasing `ptr` owning address 1000, deleting the
returned pointer and destroying `ptr` deallocates address 1000 exactly once. -/
theorem release_then_delete_no_double_free_witness :
    (release 1 test1State).1 = 1000
    ∧ (destruct 1 (((release 1 test1State).2).deletePtr (release 1 test1State).1)).trace
        = test1State.trace ++ [Event.store 1 nullptr, Event.del 1000]
    ∧ (destruct 1 (((release 1 test1State).2).deletePtr
        (release 1 test1State).1)).deallocCount 1000 = test1State.deallocCount 1000 + 1 :=
  ⟨rfl, rfl,
   (release_then_delete_no_double_free test1State 1 1000 rfl (by decide)).2.2.1⟩

/-- C7 (as stated, refuted): on the Test 1 handle, which owns address 1000, the call
`reset(1000)` passes the new value itself to `delete`: the new value is deallocated and
is no longer live, although the handle holds it afterwards. -/
theorem reset_own_pointer_deallocates_new_value :
    get 1 test1State = 1000
    ∧ operatorBool 1 test1State = true
    ∧ get 1 (reset 1 1000 test1State) = 1000
    ∧ ¬ ((reset 1 1000 test1State).deallocCount 1000 = test1State.deallocCount 1000)
    ∧ test1State.heap 1000 = some { value_ := 42 }
    ∧ (reset 1 1000 test1State).heap 1000 = none := by
  refine ⟨rfl, rfl, rfl, ?_, rfl, rfl⟩
  decide

/-- C7 (amended): for a non-empty handle `h` owning `p` and every raw pointer `x`,
`reset(x)` logs exactly `delete p` followed by the store of `x` into `h`; `p` is
deallocated once, no address other than `p` is deallocated or leaves the free store, so
the new value `x` is never deallocated when `x != p`; afterwards `h` holds `x` and is
empty iff `x` is null. -/
theorem reset_deallocates_exactly_old (s : State) (h : Addr) (p x : Ptr)
    (hp : get h s = p) (hp0 : p ≠ nullptr) :
    (reset h x s).trace = s.trace ++ [Event.del p, Event.store h x]
    ∧ (reset h x s).deallocCount p = s.deallocCount p + 1
    ∧ (reset h x s).heap p = none
    ∧ (∀ y : Ptr, y ≠ p →
        (reset h x s).deallocCount y = s.deallocCount y ∧ (reset h x s).heap y = s.heap y)
    ∧ (x ≠ p →
        (reset h x s).deallocCount x = s.deallocCount x ∧ (reset h x s).heap x = s.heap x)
    ∧ get h (reset h x s) = x
    ∧ (operatorBool h (reset h x s) = false ↔ x = nullptr) := by
  have hp1 : s.ptr_ h = p := hp
  have key : ∀ y : Ptr, y ≠ p →
      (reset h x s).deallocCount y = s.deallocCount y ∧ (reset h x s).heap y = s.heap y := by
    intro y hy
    simp [reset, State.storePtr, State.deletePtr, State.deallocCount, hp1, hp0, hy,
      List.count_cons]
  refine ⟨?_, ?_, ?_, key, key x, ?_, ?_⟩ <;>
    simp [reset, SimpleUniquePtr.get, operatorBool, State.storePtr, State.deletePtr,
      State.deallocCount, hp1, hp0, List.count_cons]

/-- C7 witness (Test 1 handle): with `ptr` owning address 1000, `ptr.reset(new
Resource(7))`, the new object allocated at address 3000, deallocates address 1000 only
and leaves `ptr` holding the live new object. -/
theorem reset_deallocates_exactly_old_witness :
    (reset 1 3000 (test1State.newResource 3000 7)).trace
        = (test1State.newResource 3000 7).trace ++ [Event.del 1000, Event.store 1 3000]
    ∧ (reset 1 3000 (test1State.newResource 3000 7)).deallocCount 3000
        = (test1State.newResource 3000 7).deallocCount 3000
    ∧ getValueAt (reset 1 3000 (test1State.newResource 3000 7)) 1000 = none
    ∧ getValueAt (reset 1 3000 (test1State.newResource 3000 7)) 3000 = some 7
    ∧ get 1 (reset 1 3000 (test1State.newResource 3000 7)) = 3000 :=
  ⟨(reset_deallocates_exactly_old (test1State.newResource 3000 7) 1 1000 3000 rfl
      (by decide)).1,
   ((reset_deallocates_exactly_old (test1State.newResource 3000 7) 1 1000 3000 rfl
      (by decide)).2.2.2.2.1 (by decide)).1,
   rfl, rfl, rfl⟩

/-- C8: exclusive ownership is an invariant.  Starting from any state whose living
handles hold pairwise distinct live allocations, every state reachable by construction
over a fresh allocation, move construction, move assignment, release, reset with a fresh
allocation and destruction has no two distinct living handles holding the same non-null
pointer. -/
theorem exclusive_ownership_invariant (s0 s : State)
    (hE : Exclusive s0) (hL : OwnedLive s0) (hr : Reachable s0 s) :
    ∀ a b : Addr, s.alive a = true → s.alive b = true → a ≠ b →
      get a s ≠ nullptr → get a s ≠ get b s :=
  (reachable_preserves s0 s hr hE hL).1

/-- C8 witness (Test 3): from the empty state, `ptr1(new Resource(200))`,
`ptr2(new Resource(300))` and `ptr2 = std::move(ptr1)` reach a state in which the two
living handles do not share a non-null pointer. -/
theorem exclusive_ownership_invariant_witness :
    (moveAssign 2 1 test3Before).alive 1 = true
    ∧ (moveAssign 2 1 test3Before).alive 2 = true
    ∧ get 2 (moveAssign 2 1 test3Before) = 1000
    ∧ get 2 (moveAssign 2 1 test3Before) ≠ get 1 (moveAssign 2 1 test3Before) :=
  ⟨rfl, rfl, rfl,
   exclusive_ownership_invariant State.empty (moveAssign 2 1 test3Before)
     (fun _ _ ha => Bool.noConfusion ha) (fun _ ha => Bool.noConfusion ha)
     (Reachable.step _ _
       (Reachable.step _ _
         (Reachable.step _ _ Reachable.refl
           (Step.construct State.empty 1 1000 200 rfl (by decide) rfl))
         (Step.construct _ 2 2000 300 rfl (by decide) rfl))
       (Step.moveAssign _ 2 1 rfl rfl))
     2 1 rfl rfl (by decide) (by decide)⟩

/-- C9: for every raw pointer `p`, constructing a handle over `p` gives a living handle
with `get() == p` whose `operator bool` is true iff `p` is non-null, without touching
the free store; default construction gives an empty handle; and `get()` only observes:
it returns the held pointer and leaves the whole state (handle and free store) as is. -/
theorem construct_and_get_observe (s : State) (h : Addr) (p : Ptr) :
    (construct h p s).alive h = true
    ∧ get h (construct h p s) = p
    ∧ (operatorBool h (construct h p s) = true ↔ p ≠ nullptr)
    ∧ (construct h p s).heap = s.heap
    ∧ (∀ x : Ptr, (construct h p s).deallocCount x = s.deallocCount x)
    ∧ ((constructDefault h s).alive h = true
        ∧ get h (constructDefault h s) = nullptr
        ∧ operatorBool h (constructDefault h s) = false)
    ∧ (Call.get h).run s = Except.ok (Value.ptr (s.ptr_ h), s) := by
  refine ⟨?_, ?_, ?_, ?_, ?_, ⟨?_, ?_, ?_⟩, ?_⟩ <;>
    simp [construct, constructDefault, SimpleUniquePtr.get, operatorBool, State.storePtr,
      State.setAlive, State.deallocCount, Call.run]

/-- C10: the destructor deallocates the held pointer iff the handle is non-empty; hence
when a handle `src` owning `p` has been moved (by construction or by assignment) into a
distinct handle `dst`, destroying the moved-from `src` deallocates nothing and destroying
both handles, in either order, deallocates `p` exactly once. -/
theorem destruct_deallocates_iff_nonempty (s : State) (dst src : Addr) (p : Ptr)
    (hne : dst ≠ src) (hp : get src s = p) (hp0 : p ≠ nullptr) :
    (∀ (t : State) (h : Addr),
        (operatorBool h t = true →
          (destruct h t).trace = t.trace ++ [Event.del (get h t)]
          ∧ (destruct h t).heap (get h t) = none)
        ∧ (operatorBool h t = false →
          (destruct h t).trace = t.trace ∧ (destruct h t).heap = t.heap))
    ∧ (∀ m : State, (m = moveConstruct dst src s ∨ m = moveAssign dst src s) →
        (destruct src m).trace = m.trace
        ∧ (destruct src m).heap = m.heap
        ∧ (destruct dst (destruct src m)).deallocCount p = m.deallocCount p + 1
        ∧ (destruct src (destruct dst m)).deallocCount p = m.deallocCount p + 1) := by
  have hne2 : src ≠ dst := fun h => hne h.symm
  have hp1 : s.ptr_ src = p := hp
  constructor
  · intro t h
    constructor
    · intro hb
      have hz : t.ptr_ h ≠ nullptr := by simpa [operatorBool] using hb
      simp [destruct, SimpleUniquePtr.get, State.deletePtr, State.setAlive, hz]
    · intro hb
      have hz : t.ptr_ h = nullptr := by simpa [operatorBool] using hb
      simp [destruct, State.setAlive, hz]
  · intro m hm
    rcases hm with rfl | rfl
    · refine ⟨?_, ?_, ?_, ?_⟩ <;>
        simp [destruct, moveConstruct, State.storePtr, State.deletePtr, State.setAlive,
          State.deallocCount, hne, hne2, hp1, hp0, List.count_cons]
    · by_cases hq : s.ptr_ dst = nullptr <;>
        refine ⟨?_, ?_, ?_, ?_⟩ <;>
        simp [destruct, moveAssign, State.storePtr, State.deletePtr, State.setAlive,
          State.deallocCount, hne, hne2, hp1, hp0, hq, List.count_cons] <;>
        omega

/-- C10 witness (Test 2): after `ptr2 = std::move(ptr1)` the scope exit destroys `ptr2`
and then `ptr1`; `Resource(100)` at address 1000 is deallocated exactly once. -/
theorem destruct_deallocates_iff_nonempty_witness :
    (destruct 1 (destruct 2 (moveConstruct 2 1 test2Before))).deallocCount 1000
        = (moveConstruct 2 1 test2Before).deallocCount 1000 + 1
    ∧ (moveConstruct 2 1 test2Before).deallocCount 1000 = 0
    ∧ (destruct 1 (destruct 2 (moveConstruct 2 1 test2Before))).heap 1000 = none :=
  ⟨((destruct_deallocates_iff_nonempty test2Before 2 1 1000 (by decide) rfl
      (by decide)).2 (moveConstruct 2 1 test2Before) (Or.inl rfl)).2.2.2, by decide, rfl⟩

/-- C11: for every constructor argument `v`, `make_simple_unique<Resource>(v)`, the
allocator returning the fresh non-null address `a`, yields a non-empty handle owning a
new object equal to `Resource(v)` while every allocation that was live stays as it was;
after the returned handle is destroyed the allocation `a` is no longer live. -/
theorem make_simple_unique_owns_fresh (s : State) (h : Addr) (a : Ptr) (v : Int)
    (ha0 : a ≠ nullptr) (hfresh : s.heap a = none) :
    operatorBool h (make_simple_unique h a v s) = true
    ∧ get h (make_simple_unique h a v s) = a
    ∧ (make_simple_unique h a v s).heap a = some { value_ := v }
    ∧ (∀ (x : Ptr) (r : Resource), s.heap x = some r →
        (make_simple_unique h a v s).heap x = some r)
    ∧ (make_simple_unique h a v s).trace = s.trace ++ [Event.store h a]
    ∧ (destruct h (make_simple_unique h a v s)).heap a = none
    ∧ (destruct h (make_simple_unique h a v s)).deallocCount a = s.deallocCount a + 1 := by
  refine ⟨?_, ?_, ?_, ?_, ?_, ?_, ?_⟩
  · simp [make_simple_unique, construct, operatorBool, State.storePtr, State.setAlive,
      State.newResource, ha0]
  · simp [make_simple_unique, construct, SimpleUniquePtr.get, State.storePtr,
      State.setAlive, State.newResource]
  · simp [make_simple_unique, construct, State.storePtr, State.setAlive,
      State.newResource]
  · intro x r hx
    have hxa : x ≠ a := by
      intro e
      rw [e, hfresh] at hx
      cases hx
    simp [make_simple_unique, construct, State.storePtr, State.setAlive,
      State.newResource, hxa, hx]
  · simp [make_simple_unique, construct, State.storePtr, State.setAlive,
      State.newResource]
  · simp [make_simple_unique, construct, destruct, State.storePtr, State.setAlive,
      State.newResource, State.deletePtr, ha0]
  · simp [make_simple_unique, construct, destruct, State.storePtr, State.setAlive,
      State.newResource, State.deletePtr, State.deallocCount, ha0, List.count_cons]

/-- C11 witness (Test 4): `make_simple_unique<Resource>(500)->getValue() == 500`, and
the resource is gone once the handle is destroyed. -/
theorem make_simple_unique_owns_fresh_witness :
    operatorBool 1 (make_simple_unique 1 1000 500 State.empty) = true
    ∧ operatorArrow 1 (make_simple_unique 1 1000 500 State.empty) = Except.ok 1000
    ∧ getValueAt (make_simple_unique 1 1000 500 State.empty) 1000 = some 500
    ∧ (destruct 1 (make_simple_unique 1 1000 500 State.empty)).heap 1000 = none :=
  ⟨(make_simple_unique_owns_fresh State.empty 1 1000 500 (by decide) rfl).1, rfl, rfl,
   (make_simple_unique_owns_fresh State.empty 1 1000 500 (by decide) rfl).2.2.2.2.2.1⟩

end Kata2

namespace Kata3

open OptimizedContainer

/-- Relocating elements by the move constructor keeps their values. -/
theorem relocate_elems (l : List ExpensiveObject) :
    l.map (fun o => (ExpensiveObject.moveConstruct o).1) = l := by
  induction l with
  | nil => rfl
  | cons a l ih => simp [ExpensiveObject.moveConstruct]

/-- Elements after `emplace_back`: the old elements followed by the new one. -/
theorem emplace_back_elems (grow : Nat → Nat) (v : StdVector) (e : ExpensiveObject)
    (how : ObjEvent) : (StdVector.emplace_back grow v e how).1.elems = v.elems ++ [e] := by
  unfold StdVector.emplace_back
  split
  · rfl
  · simp [relocate_elems]

/-- Log of `emplace_back`: the constructor of the new element, followed on growth by
one move construction and one destruction per relocated element. -/
theorem emplace_back_log (grow : Nat → Nat) (v : StdVector) (e : ExpensiveObject)
    (how : ObjEvent) :
    (StdVector.emplace_back grow v e how).2
      = if v.size < v.capacity then [how]
        else how :: (List.replicate v.size ObjEvent.moveCtor
          ++ List.replicate v.size ObjEvent.dtor) := by
  unfold StdVector.emplace_back
  split <;> rfl

/-- Reading a container whose elements are `old ++ [x]`: every old index reads as
before and index `old.length` reads `x`. -/
theorem index_after_append (s t : State) (this : Addr) (x : ExpensiveObject)
    (h : (t.elements_ this).elems = (s.elements_ this).elems ++ [x]) :
    size this t = size this s + 1
    ∧ operatorIndex this (size this s) t = Except.ok x
    ∧ operatorIndexConst this (size this s) t = Except.ok x
    ∧ (∀ i : Nat, i < size this s →
        operatorIndex this i t = operatorIndex this i s
        ∧ operatorIndexConst this i t = operatorIndexConst this i s) := by
  have hsz : (t.elements_ this).elems.length = (s.elements_ this).elems.length + 1 := by
    rw [h]
    simp
  refine ⟨hsz, ?_, ?_, ?_⟩
  · simp only [operatorIndex, OptimizedContainer.size, StdVector.size]
    rw [dif_neg (by omega)]
    simp [h]
  · simp only [operatorIndexConst, OptimizedContainer.size, StdVector.size]
    rw [dif_neg (by omega)]
    simp [h]
  · intro i hi
    have hi0 : i < (s.elements_ this).elems.length := hi
    simp only [operatorIndex, operatorIndexConst, StdVector.size]
    rw [dif_neg (by omega), dif_neg (by omega)]
    simp [h, List.getElem_append_left, hi0]

/-- Copies and moves add up over concatenated logs. -/
theorem counts_append (a b : List ObjEvent) :
    copies (a ++ b) = copies a + copies b
    ∧ moves (a ++ b) = moves a + moves b
    ∧ constructions (a ++ b) = constructions a + constructions b
    ∧ destructions (a ++ b) = destructions a + destructions b := by
  refine ⟨?_, ?_, ?_, ?_⟩ <;>
    simp only [copies, moves, constructions, destructions, List.count_append] <;>
    omega

/-- Invocation counts of one `emplace_back`: only the constructor of the new element can
be a copy; growth adds one move construction and one destruction per relocated
element. -/
theorem emplace_back_counts (grow : Nat → Nat) (v : StdVector) (e : ExpensiveObject)
    (how : ObjEvent) :
    copies (StdVector.emplace_back grow v e how).2 = copies [how]
    ∧ moves (StdVector.emplace_back grow v e how).2
        = moves [how] + (if v.size < v.capacity then 0 else v.size)
    ∧ constructions (StdVector.emplace_back grow v e how).2
        = constructions [how] + (if v.size < v.capacity then 0 else v.size)
    ∧ destructions (StdVector.emplace_back grow v e how).2
        = destructions [how] + (if v.size < v.capacity then 0 else v.size) := by
  rw [emplace_back_log]
  by_cases h : v.size < v.capacity
  · simp [h]
  · cases how <;>
      simp [h, copies, moves, constructions, destructions, List.count_cons,
        List.count_append, List.count_replicate] <;> omega

/-- Every element written by the element-wise copy is a copy of the source element at
the same position. -/
theorem copyElems_isCopy (x : List ExpensiveObject) :
    ∀ d : List ExpensiveObject, List.Forall₂ IsCopyOf (StdVector.copyElems d x) x := by
  induction x with
  | nil =>
      intro d
      cases d <;> simp [StdVector.copyElems]
  | cons a xs ih =>
      intro d
      cases d with
      | nil =>
          have h := ih []
          simp only [StdVector.copyElems] at h
          simp only [StdVector.copyElems, List.map_cons]
          exact List.Forall₂.cons (Or.inl rfl) h
      | cons d0 ds =>
          simp only [StdVector.copyElems]
          exact List.Forall₂.cons (Or.inr ⟨d0, rfl⟩) (ih ds)

/-- Copy-constructing every element gives copies position by position. -/
theorem map_copyConstruct_isCopy (x : List ExpensiveObject) :
    List.Forall₂ IsCopyOf (x.map ExpensiveObject.copyConstruct) x := by
  cases x with
  | nil => simp
  | cons a xs => simpa [StdVector.copyElems] using copyElems_isCopy (a :: xs) []

/-- A copy carries the data of its source. -/
theorem IsCopyOf.data_eq {d e : ExpensiveObject} (h : IsCopyOf d e) : d.data_ = e.data_ := by
  rcases h with h | ⟨old, h⟩
  · rw [h]
    rfl
  · rw [h]
    simp [ExpensiveObject.copyAssign]

/-- Position-wise reading of a position-wise relation between two lists. -/
theorem forall₂_index {R : ExpensiveObject → ExpensiveObject → Prop}
    {l1 l2 : List ExpensiveObject} (h : List.Forall₂ R l1 l2) :
    ∀ (i : Nat) (e : ExpensiveObject), l2[i]? = some e → ∃ d, l1[i]? = some d ∧ R d e := by
  induction h with
  | nil =>
      intro i e he
      simp at he
  | cons hab _ ih =>
      intro i e he
      cases i with
      | zero =>
          simp at he
          subst he
          exact ⟨_, by simp, hab⟩
      | succ j =>
          simp at he
          obtain ⟨d, hd, hr⟩ := ih j e he
          exact ⟨d, by simpa using hd, hr⟩

/-- Elements of a vector after copy assignment from `x`: copies of the elements of `x`,
position by position. -/
theorem vector_copyAssign_isCopy (v x : StdVector) :
    List.Forall₂ IsCopyOf (StdVector.copyAssign v x).1.elems x.elems := by
  unfold StdVector.copyAssign
  split
  · exact map_copyConstruct_isCopy x.elems
  · exact copyElems_isCopy x.elems v.elems

/-- The loop from iterator `it` to the end iterator visits exactly the elements from
position `it` on, given enough fuel. -/
theorem rangeFor_drop (elems : List ExpensiveObject) :
    ∀ (fuel it : Nat), it ≤ elems.length → elems.length - it < fuel →
      rangeFor elems elems.length fuel it = some (elems.drop it) := by
  intro fuel
  induction fuel with
  | zero =>
      intro it _ h
      omega
  | succ n ih =>
      intro it hle hfuel
      by_cases hit : it = elems.length
      · subst hit
        simp [rangeFor]
      · have hlt : it < elems.length := by omega
        have hrec := ih (it + 1) (by omega) (by omega)
        simp only [rangeFor, ne_eq, hit, not_false_eq_true, if_true,
          List.getElem?_eq_getElem hlt, hrec, Option.map_some']
        rw [← List.drop_eq_getElem_cons hlt]

/-- Both traversals visit exactly the elements, in order. -/
theorem traverse_eq_elems (this : Addr) (s : State) :
    traverse this s = some (s.elements_ this).elems
    ∧ traverseConst this s = some (s.elements_ this).elems := by
  have h := rangeFor_drop (s.elements_ this).elems
    ((s.elements_ this).elems.length + 1) 0 (Nat.zero_le _) (by omega)
  simp only [List.drop_zero] at h
  exact ⟨h, h⟩

/-- An observing call that returns hands back the state it was given. -/
theorem observer_keeps_state (grow : Nat → Nat) (maxSize : Nat) (s u : State) (c : Call)
    (v : Value) (hobs : c.observes = true) (hrun : c.run grow maxSize s = Except.ok (v, u)) :
    u = s := by
  cases c with
  | operatorIndex this i =>
      simp only [Call.run] at hrun
      split at hrun
      · cases hrun
      · cases hrun
        rfl
  | operatorIndexConst this i =>
      simp only [Call.run] at hrun
      split at hrun
      · cases hrun
      · cases hrun
        rfl
  | size this =>
      simp only [Call.run] at hrun
      cases hrun
      rfl
  | empty this =>
      simp only [Call.run] at hrun
      cases hrun
      rfl
  | traverse this =>
      simp only [Call.run] at hrun
      cases hrun
      rfl
  | traverseConst this =>
      simp only [Call.run] at hrun
      cases hrun
      rfl
  | _ => simp [Call.observes] at hobs

/-- One `emplace_back` through a non-destroying constructor raises the number of
constructions by one more than the number of destructions. -/
theorem emplace_back_live (grow : Nat → Nat) (v : StdVector) (e : ExpensiveObject)
    (how : ObjEvent) (hc : constructions [how] = 1) (hd : destructions [how] = 0) :
    constructions (StdVector.emplace_back grow v e how).2
      = destructions (StdVector.emplace_back grow v e how).2 + 1 := by
  rw [(emplace_back_counts grow v e how).2.2.1, (emplace_back_counts grow v e how).2.2.2,
    hc, hd]
  omega

/-- A call of `add` that returns appends one element to the container, built by one
constructor call, after the referenced object has been read and, for a move, emptied
where it is; the length of the container is not changed before the element is
appended. -/
theorem add_ok (grow : Nat → Nat) (this : Addr) (arg : Arg) (lv cst : Bool) (s : State)
    (r : State × ExpensiveObject) (h : add grow this arg lv cst s = Except.ok r) :
    ∃ (s0 : State) (e : ExpensiveObject) (how : ObjEvent),
      r.1 = s0.setElements this (StdVector.emplace_back grow (s0.elements_ this) e how).1
        (StdVector.emplace_back grow (s0.elements_ this) e how).2
      ∧ s0.log = s.log
      ∧ (s0.elements_ this).elems.length = (s.elements_ this).elems.length
      ∧ constructions [how] = 1 ∧ destructions [how] = 0 := by
  unfold add at h
  cases hev : arg.eval s with
  | error e =>
    rw [hev] at h
    cases h
  | ok src =>
    rw [hev] at h
    dsimp only at h
    by_cases hc : (lv || cst) = true
    · rw [if_pos hc] at h
      cases h
      exact ⟨s, _, ObjEvent.copyCtor, rfl, rfl, rfl, by decide, by decide⟩
    · rw [if_neg hc] at h
      cases h
      refine ⟨arg.assign s (ExpensiveObject.moveConstruct src).2, _, ObjEvent.moveCtor, rfl,
        ?_, ?_, by decide, by decide⟩
      · cases arg with
        | object o => rfl
        | element that index => simp [Arg.assign, State.setElements]
      · cases arg with
        | object o => rfl
        | element that index =>
          by_cases ht : this = that
          · simp [Arg.assign, State.setElements, ht]
          · simp [Arg.assign, State.setElements, ht]

/-- A call of `add` that returns raises `size()` by one and adds one more construction
than destructions to the log. -/
theorem add_ok_size (grow : Nat → Nat) (this : Addr) (arg : Arg) (lv cst : Bool) (s : State)
    (r : State × ExpensiveObject) (h : add grow this arg lv cst s = Except.ok r) :
    size this r.1 = size this s + 1
    ∧ constructions r.1.log + destructions s.log
        = destructions r.1.log + constructions s.log + 1 := by
  obtain ⟨s0, e, how, hr, hlog, hlen, hc, hd⟩ := add_ok grow this arg lv cst s r h
  constructor
  · rw [hr]
    simp only [OptimizedContainer.size, StdVector.size, State.setElements, if_true,
      emplace_back_elems, List.length_append, List.length_singleton, hlen]
  · have hl := emplace_back_live grow (s0.elements_ this) e how hc hd
    rw [hr]
    simp only [State.setElements, hlog]
    rw [(counts_append _ _).2.2.1, (counts_append _ _).2.2.2]
    omega

/-- A call of `emplace` that returns appends the constructed object. -/
theorem emplace_ok (grow : Nat → Nat) (maxSize : Nat) (this : Addr) (name : String)
    (n : Nat) (s t : State) (h : emplace grow maxSize this name n s = Except.ok t) :
    n ≤ maxSize
    ∧ t = s.setElements this
        (StdVector.emplace_back grow (s.elements_ this)
          { name_ := name, data_ := List.replicate n 42 } ObjEvent.ctor).1
        (StdVector.emplace_back grow (s.elements_ this)
          { name_ := name, data_ := List.replicate n 42 } ObjEvent.ctor).2 := by
  unfold emplace ExpensiveObject.construct at h
  by_cases hn : n > maxSize
  · rw [if_pos hn] at h
    cases h
  · rw [if_neg hn] at h
    cases h
    exact ⟨by omega, rfl⟩

/-- A call of `emplace` with a size up to `max_size()` returns. -/
theorem emplace_returns (grow : Nat → Nat) (maxSize : Nat) (this : Addr) (name : String)
    (n : Nat) (s : State) (hn : n ≤ maxSize) :
    emplace grow maxSize this name n s = Except.ok (s.setElements this
        (StdVector.emplace_back grow (s.elements_ this)
          { name_ := name, data_ := List.replicate n 42 } ObjEvent.ctor).1
        (StdVector.emplace_back grow (s.elements_ this)
          { name_ := name, data_ := List.replicate n 42 } ObjEvent.ctor).2) := by
  have h : ¬ n > maxSize := by omega
  simp only [emplace, ExpensiveObject.construct, if_neg h]

/-- A call of `emplace` that returns raises `size()` by one and adds one more
construction than destructions to the log. -/
theorem emplace_ok_size (grow : Nat → Nat) (maxSize : Nat) (this : Addr) (name : String)
    (n : Nat) (s t : State) (h : emplace grow maxSize this name n s = Except.ok t) :
    size this t = size this s + 1
    ∧ constructions t.log + destructions s.log
        = destructions t.log + constructions s.log + 1 := by
  obtain ⟨_, ht⟩ := emplace_ok grow maxSize this name n s t h
  constructor
  · rw [ht]
    simp only [OptimizedContainer.size, StdVector.size, State.setElements, if_true,
      emplace_back_elems, List.length_append, List.length_singleton]
  · have hl := emplace_back_live grow (s.elements_ this)
      { name_ := name, data_ := List.replicate n 42 } ObjEvent.ctor (by decide) (by decide)
    rw [ht]
    simp only [State.setElements]
    rw [(counts_append _ _).2.2.1, (counts_append _ _).2.2.2]
    omega

/-- In every reachable state the constructions exceed the destructions by `size()`. -/
theorem reachable_live (grow : Nat → Nat) (maxSize : Nat) (this : Addr) (t : State)
    (hr : Reachable grow maxSize this t) :
    constructions t.log = destructions t.log + size this t := by
  induction hr with
  | init s0 h0 =>
      simp [construct, State.setElements, h0, constructions, destructions,
        OptimizedContainer.size, StdVector.size, StdVector.create]
  | step s u c v _ huse hrun ih =>
      cases c with
      | add that arg lv cst =>
          have hthat : that = this := by simpa [Call.usesOnly] using huse
          subst hthat
          simp only [Call.run] at hrun
          cases hadd : add grow that arg lv cst s with
          | error e =>
            rw [hadd] at hrun
            cases hrun
          | ok r =>
            rw [hadd] at hrun
            cases hrun
            have h1 := add_ok_size grow that arg lv cst s r hadd
            omega
      | emplace that name n =>
          have hthat : that = this := by simpa [Call.usesOnly] using huse
          subst hthat
          simp only [Call.run] at hrun
          cases hem : emplace grow maxSize that name n s with
          | error e =>
            rw [hem] at hrun
            cases hrun
          | ok r =>
            rw [hem] at hrun
            cases hrun
            have h1 := emplace_ok_size grow maxSize that name n s _ hem
            omega
      | operatorIndex that i =>
          rw [observer_keeps_state grow maxSize s u (Call.operatorIndex that i) v rfl hrun]
          exact ih
      | operatorIndexConst that i =>
          rw [observer_keeps_state grow maxSize s u (Call.operatorIndexConst that i) v rfl
            hrun]
          exact ih
      | size that =>
          rw [observer_keeps_state grow maxSize s u (Call.size that) v rfl hrun]
          exact ih
      | empty that =>
          rw [observer_keeps_state grow maxSize s u (Call.empty that) v rfl hrun]
          exact ih
      | traverse that =>
          rw [observer_keeps_state grow maxSize s u (Call.traverse that) v rfl hrun]
          exact ih
      | traverseConst that =>
          rw [observer_keeps_state grow maxSize s u (Call.traverseConst that) v rfl hrun]
          exact ih
      | _ => simp [Call.usesOnly] at huse

/-- C12: for a container of size `n` and every index `i`, both the mutable and the
read-only `operator[]` throw `std::out_of_range` if and only if `i >= n`; when `i < n`
both return the element at position `i` of the insertion sequence and the call leaves
the state unchanged. -/
theorem operatorIndex_bounds_checked (grow : Nat → Nat) (maxSize : Nat) (s : State)
    (this : Addr) (i : Nat) :
    (throws (operatorIndex this i s) = true ↔ i ≥ size this s)
    ∧ (throws (operatorIndexConst this i s) = true ↔ i ≥ size this s)
    ∧ (i ≥ size this s →
        operatorIndex this i s = Except.error (Error.out_of_range "Index out of range")
        ∧ operatorIndexConst this i s
            = Except.error (Error.out_of_range "Index out of range"))
    ∧ (i < size this s → ∃ e : ExpensiveObject,
        (s.elements_ this).elems[i]? = some e
        ∧ operatorIndex this i s = Except.ok e
        ∧ operatorIndexConst this i s = Except.ok e
        ∧ (Call.operatorIndex this i).run grow maxSize s = Except.ok (Value.obj e, s)
        ∧ (Call.operatorIndexConst this i).run grow maxSize s
            = Except.ok (Value.obj e, s)) := by
  by_cases h : i ≥ (s.elements_ this).size
  · have h1 : ¬ i < size this s := by
      simp only [OptimizedContainer.size]
      omega
    refine ⟨?_, ?_, ?_, ?_⟩
    · simp [operatorIndex, OptimizedContainer.size, throws, h]
    · simp [operatorIndexConst, OptimizedContainer.size, throws, h]
    · intro _
      simp [operatorIndex, operatorIndexConst, h]
    · intro h2
      exact absurd h2 h1
  · have hlt : i < (s.elements_ this).elems.length := by
      simp only [StdVector.size] at h
      omega
    refine ⟨?_, ?_, ?_, ?_⟩
    · simp [operatorIndex, OptimizedContainer.size, throws, h]
    · simp [operatorIndexConst, OptimizedContainer.size, throws, h]
    · intro h2
      exact absurd h2 h
    · intro _
      refine ⟨(s.elements_ this).elems.get ⟨i, hlt⟩, ?_, ?_, ?_, ?_, ?_⟩
      · simp [List.getElem?_eq_getElem hlt]
      · simp [operatorIndex, h]
      · simp [operatorIndexConst, h]
      · simp [Call.run, operatorIndex, h]
      · simp [Call.run, operatorIndexConst, h]

/-- C13: for a source container with `n` elements, move-constructing a new container
`dst` from it, and move-assigning it into any distinct container `dst` whatever `dst`
held, leave `dst` with exactly the former elements of the source, in order and with their
values, and leave the source with `size() == 0`; no element is copied or moved, the
former elements of `dst` being destroyed. -/
theorem container_move_transfers_elements (s : State) (dst src : Addr)
    (hne : dst ≠ src) :
    (((moveConstruct dst src s).elements_ dst).elems = (s.elements_ src).elems
      ∧ size dst (moveConstruct dst src s) = size src s
      ∧ size src (moveConstruct dst src s) = 0
      ∧ (moveConstruct dst src s).log = s.log)
    ∧ (((moveAssign dst src s).elements_ dst).elems = (s.elements_ src).elems
      ∧ size dst (moveAssign dst src s) = size src s
      ∧ size src (moveAssign dst src s) = 0
      ∧ (moveAssign dst src s).log
          = s.log ++ List.replicate (size dst s) ObjEvent.dtor) := by
  have hne2 : src ≠ dst := fun h => hne h.symm
  refine ⟨⟨?_, ?_, ?_, ?_⟩, ?_, ?_, ?_, ?_⟩ <;>
    simp [moveConstruct, moveAssign, construct, OptimizedContainer.size,
      State.setElements, StdVector.moveAssign, StdVector.clear, StdVector.create,
      StdVector.size, hne, hne2]

/-- C13 witness (Test 3): `container1` with two emplaced elements moved into
`container2` gives source size 0, destination size 2 and the elements in order. -/
theorem container_move_transfers_elements_witness :
    size 1 test3Container1 = 2
    ∧ size 1 (moveConstruct 2 1 test3Container1) = 0
    ∧ size 2 (moveConstruct 2 1 test3Container1) = 2
    ∧ (((moveConstruct 2 1 test3Container1).elements_ 2).elems.map
        ExpensiveObject.getName) = ["container1_obj1", "container1_obj2"] :=
  ⟨rfl,
   (container_move_transfers_elements test3Container1 2 1 (by decide)).1.2.2.1,
   rfl, by decide⟩

/-- Both `operator[]` read the element sequence by position. -/
theorem operatorIndex_lookup (this : Addr) (i : Nat) (s : State) :
    operatorIndex this i s
      = (match (s.elements_ this).elems[i]? with
        | some e => Except.ok e
        | none => Except.error (Error.out_of_range "Index out of range")) := by
  unfold operatorIndex
  by_cases h : i ≥ (s.elements_ this).size
  · rw [dif_pos h, List.getElem?_eq_none (by simpa [StdVector.size] using h)]
  · rw [dif_neg h]
    have hlt : i < (s.elements_ this).elems.length := by
      simp only [StdVector.size] at h
      omega
    rw [List.getElem?_eq_getElem hlt]
    rfl

/-- The move constructor builds an object equal to its argument. -/
theorem moveConstruct_fst (v : ExpensiveObject) : (ExpensiveObject.moveConstruct v).1 = v := by
  cases v
  rfl

/-- Adding an object that is no element of a container: by the copy constructor when it
is passed as an lvalue or is `const`, by the move constructor otherwise; the new element
is read back at the former size. -/
theorem add_copies_lvalue_moves_rvalue_aux (grow : Nat → Nat) (s : State) (this : Addr)
    (o : ExpensiveObject) :
    (∀ (lv cst : Bool), (lv || cst) = true →
      ∃ t : State, add grow this (Arg.object o) lv cst s = Except.ok (t, o)
        ∧ operatorIndex this (size this s) t = Except.ok (ExpensiveObject.copyConstruct o))
    ∧ (∃ t : State, add grow this (Arg.object o) false false s
          = Except.ok (t, { name_ := "", data_ := [] })
        ∧ operatorIndex this (size this s) t = Except.ok o) := by
  constructor
  · intro lv cst hc
    have hadd : add grow this (Arg.object o) lv cst s = Except.ok
        (s.setElements this
          (StdVector.emplace_back grow (s.elements_ this)
            (ExpensiveObject.copyConstruct o) ObjEvent.copyCtor).1
          (StdVector.emplace_back grow (s.elements_ this)
            (ExpensiveObject.copyConstruct o) ObjEvent.copyCtor).2, o) := by
      simp only [add, Arg.eval, hc, if_true]
    refine ⟨_, hadd, ?_⟩
    exact (index_after_append s _ this _ (by
      simp [State.setElements, emplace_back_elems])).2.1
  · have hadd : add grow this (Arg.object o) false false s = Except.ok
        (s.setElements this
          (StdVector.emplace_back grow (s.elements_ this) o ObjEvent.moveCtor).1
          (StdVector.emplace_back grow (s.elements_ this) o ObjEvent.moveCtor).2,
          { name_ := "", data_ := [] }) := by
      simp only [add, Arg.eval, Arg.assign, moveConstruct_fst]
      rfl
    refine ⟨_, hadd, ?_⟩
    exact (index_after_append s _ this _ (by
      simp [State.setElements, emplace_back_elems])).2.1

/-- C14 (as stated, refuted): in the container of Test 3, whose element 0 is named
`container1_obj1` and holds 1000 data items, `add(std::move(c[0]))` leaves element 0
with an empty name and no data; and `add(std::move(v))` with a `const` object `v`
appends a copy made by the copy constructor and leaves `v` as it was. -/
theorem add_moved_element_is_emptied :
    operatorIndex 1 0 test3Container1
        = Except.ok { name_ := "container1_obj1", data_ := List.replicate 1000 42 }
    ∧ (∃ (t : State) (v : ExpensiveObject),
        add gnuGrowth 1 (Arg.element 1 0) false false test3Container1 = Except.ok (t, v)
        ∧ size 1 t = 3
        ∧ operatorIndex 1 0 t = Except.ok { name_ := "", data_ := [] })
    ∧ (∃ (t : State) (v : ExpensiveObject),
        add gnuGrowth 1 (Arg.object test2Obj1) false true test3Container1 = Except.ok (t, v)
        ∧ v = test2Obj1
        ∧ (∃ e : ExpensiveObject, operatorIndex 1 2 t = Except.ok e
            ∧ e.getName = "copy_source_copy")
        ∧ copies t.log = copies test3Container1.log + 1) :=
  ⟨rfl, ⟨_, _, rfl, rfl, rfl⟩,
    ⟨_, _, rfl, rfl, ⟨_, rfl, rfl⟩, rfl⟩⟩

/-- C14 (amended): on a container of size `n`, `add(v)` with `v` passed as an lvalue or
as a `const` rvalue appends the copy of `v` made by the copy constructor at index `n`,
gives size `n+1`, and leaves elements `0..n-1` and `v` itself unchanged, also when `v`
is an element of a container.  `add(std::move(v))` with a non-`const` object `v` that is
no element of a container appends at index `n` an element carrying the former name and
data of `v`, gives size `n+1`, leaves elements `0..n-1` unchanged, empties `v`, and
invokes no copy constructor or copy assignment.  When `v` is element `j` of another
container, the same holds and that element is left empty; when `v` is element `j` of the
container itself, element `j` is left empty and the other elements are unchanged. -/
theorem add_copies_lvalue_moves_rvalue (grow : Nat → Nat) (s : State) (this : Addr) :
    (∀ (arg : Arg) (lv cst : Bool) (v : ExpensiveObject), (lv || cst) = true →
      arg.eval s = Except.ok v →
      ∃ t : State, add grow this arg lv cst s = Except.ok (t, v)
        ∧ (t.elements_ this).elems
            = (s.elements_ this).elems ++ [ExpensiveObject.copyConstruct v]
        ∧ (ExpensiveObject.copyConstruct v).data_ = v.data_
        ∧ size this t = size this s + 1
        ∧ operatorIndex this (size this s) t = Except.ok (ExpensiveObject.copyConstruct v)
        ∧ (∀ i : Nat, i < size this s → operatorIndex this i t = operatorIndex this i s)
        ∧ arg.eval t = Except.ok v
        ∧ copies t.log = copies s.log + 1)
    ∧ (∀ v : ExpensiveObject,
      ∃ t : State, add grow this (Arg.object v) false false s
          = Except.ok (t, { name_ := "", data_ := [] })
        ∧ (t.elements_ this).elems = (s.elements_ this).elems ++ [v]
        ∧ size this t = size this s + 1
        ∧ operatorIndex this (size this s) t = Except.ok v
        ∧ (∀ i : Nat, i < size this s → operatorIndex this i t = operatorIndex this i s)
        ∧ copies t.log = copies s.log)
    ∧ (∀ (that : Addr) (j : Nat) (v : ExpensiveObject), that ≠ this →
      (s.elements_ that).elems[j]? = some v →
      ∃ t : State, add grow this (Arg.element that j) false false s
          = Except.ok (t, { name_ := "", data_ := [] })
        ∧ (t.elements_ this).elems = (s.elements_ this).elems ++ [v]
        ∧ size this t = size this s + 1
        ∧ operatorIndex this (size this s) t = Except.ok v
        ∧ (∀ i : Nat, i < size this s → operatorIndex this i t = operatorIndex this i s)
        ∧ (t.elements_ that).elems
            = (s.elements_ that).elems.set j { name_ := "", data_ := [] }
        ∧ copies t.log = copies s.log)
    ∧ (∀ (j : Nat) (v : ExpensiveObject), (s.elements_ this).elems[j]? = some v →
      ∃ t : State, add grow this (Arg.element this j) false false s
          = Except.ok (t, { name_ := "", data_ := [] })
        ∧ (t.elements_ this).elems
            = (s.elements_ this).elems.set j { name_ := "", data_ := [] } ++ [v]
        ∧ size this t = size this s + 1
        ∧ operatorIndex this (size this s) t = Except.ok v
        ∧ operatorIndex this j t = Except.ok { name_ := "", data_ := [] }
        ∧ (∀ i : Nat, i < size this s → i ≠ j →
            operatorIndex this i t = operatorIndex this i s)
        ∧ copies t.log = copies s.log) := by
  refine ⟨?_, ?_, ?_, ?_⟩
  · intro arg lv cst v hc hev
    have hadd : add grow this arg lv cst s = Except.ok
        (s.setElements this
          (StdVector.emplace_back grow (s.elements_ this)
            (ExpensiveObject.copyConstruct v) ObjEvent.copyCtor).1
          (StdVector.emplace_back grow (s.elements_ this)
            (ExpensiveObject.copyConstruct v) ObjEvent.copyCtor).2, v) := by
      simp only [add, hev, hc, if_true]
    refine ⟨_, hadd, ?_⟩
    have h1 : ((s.setElements this
          (StdVector.emplace_back grow (s.elements_ this)
            (ExpensiveObject.copyConstruct v) ObjEvent.copyCtor).1
          (StdVector.emplace_back grow (s.elements_ this)
            (ExpensiveObject.copyConstruct v) ObjEvent.copyCtor).2).elements_ this).elems
        = (s.elements_ this).elems ++ [ExpensiveObject.copyConstruct v] := by
      simp [State.setElements, emplace_back_elems]
    have a1 := index_after_append s _ this _ h1
    refine ⟨h1, rfl, a1.1, a1.2.1, fun i hi => (a1.2.2.2 i hi).1, ?_, ?_⟩
    · cases arg with
      | object o => exact hev
      | element that j =>
        simp only [Arg.eval] at hev ⊢
        by_cases ht : that = this
        · subst ht
          have hj : j < size that s := by
            by_contra hge
            have hge1 : j ≥ (s.elements_ that).size := by
              simp only [OptimizedContainer.size] at hge
              omega
            simp [operatorIndex, hge1] at hev
          rw [(a1.2.2.2 j hj).1]
          exact hev
        · rw [operatorIndex_lookup] at hev ⊢
          simpa [State.setElements, ht] using hev
    · simp only [State.setElements]
      rw [(counts_append _ _).1, (emplace_back_counts _ _ _ _).1]
      simp [copies]
  · intro v
    have hadd : add grow this (Arg.object v) false false s = Except.ok
        (s.setElements this
          (StdVector.emplace_back grow (s.elements_ this) v ObjEvent.moveCtor).1
          (StdVector.emplace_back grow (s.elements_ this) v ObjEvent.moveCtor).2,
          { name_ := "", data_ := [] }) := by
      simp only [add, Arg.eval, Arg.assign, moveConstruct_fst]
      rfl
    refine ⟨_, hadd, ?_⟩
    have h1 : ((s.setElements this
          (StdVector.emplace_back grow (s.elements_ this) v ObjEvent.moveCtor).1
          (StdVector.emplace_back grow (s.elements_ this) v ObjEvent.moveCtor).2).elements_
            this).elems = (s.elements_ this).elems ++ [v] := by
      simp [State.setElements, emplace_back_elems]
    have a1 := index_after_append s _ this _ h1
    refine ⟨h1, a1.1, a1.2.1, fun i hi => (a1.2.2.2 i hi).1, ?_⟩
    simp only [State.setElements]
    rw [(counts_append _ _).1, (emplace_back_counts _ _ _ _).1]
    simp [copies]
  · intro that j v hne hv
    have hev : operatorIndex that j s = Except.ok v := by
      rw [operatorIndex_lookup, hv]
    have hne2 : this ≠ that := fun e => hne e.symm
    have hs0 : ((Arg.element that j).assign s { name_ := "", data_ := [] }).elements_ this
        = s.elements_ this := by
      simp [Arg.assign, State.setElements, hne2]
    have hadd : add grow this (Arg.element that j) false false s = Except.ok
        (((Arg.element that j).assign s { name_ := "", data_ := [] }).setElements this
          (StdVector.emplace_back grow (s.elements_ this) v ObjEvent.moveCtor).1
          (StdVector.emplace_back grow (s.elements_ this) v ObjEvent.moveCtor).2,
          { name_ := "", data_ := [] }) := by
      simp only [add, Arg.eval, hev, moveConstruct_fst]
      rw [← hs0]
      rfl
    refine ⟨_, hadd, ?_⟩
    have h1 : ((((Arg.element that j).assign s { name_ := "", data_ := [] }).setElements this
          (StdVector.emplace_back grow (s.elements_ this) v ObjEvent.moveCtor).1
          (StdVector.emplace_back grow (s.elements_ this) v ObjEvent.moveCtor).2).elements_
            this).elems = (s.elements_ this).elems ++ [v] := by
      simp [State.setElements, emplace_back_elems]
    have a1 := index_after_append s _ this _ h1
    refine ⟨h1, a1.1, a1.2.1, fun i hi => (a1.2.2.2 i hi).1, ?_, ?_⟩
    · simp [Arg.assign, State.setElements, hne]
    · simp only [State.setElements, Arg.assign, List.append_nil]
      rw [(counts_append _ _).1, (emplace_back_counts _ _ _ _).1]
      simp [copies]
  · intro j v hv
    have hev : operatorIndex this j s = Except.ok v := by
      rw [operatorIndex_lookup, hv]
    have hjl : j < (s.elements_ this).elems.length := (List.getElem?_eq_some_iff.1 hv).1
    have hs0 : (((Arg.element this j).assign s { name_ := "", data_ := [] }).elements_
        this).elems = (s.elements_ this).elems.set j { name_ := "", data_ := [] } := by
      simp [Arg.assign, State.setElements]
    have hadd : add grow this (Arg.element this j) false false s = Except.ok
        (((Arg.element this j).assign s { name_ := "", data_ := [] }).setElements this
          (StdVector.emplace_back grow
            (((Arg.element this j).assign s { name_ := "", data_ := [] }).elements_ this) v
            ObjEvent.moveCtor).1
          (StdVector.emplace_back grow
            (((Arg.element this j).assign s { name_ := "", data_ := [] }).elements_ this) v
            ObjEvent.moveCtor).2,
          { name_ := "", data_ := [] }) := by
      simp only [add, Arg.eval, hev, moveConstruct_fst]
      rfl
    refine ⟨_, hadd, ?_⟩
    have h1 : ((((Arg.element this j).assign s { name_ := "", data_ := [] }).setElements this
          (StdVector.emplace_back grow
            (((Arg.element this j).assign s { name_ := "", data_ := [] }).elements_ this) v
            ObjEvent.moveCtor).1
          (StdVector.emplace_back grow
            (((Arg.element this j).assign s { name_ := "", data_ := [] }).elements_ this) v
            ObjEvent.moveCtor).2).elements_ this).elems
        = (((Arg.element this j).assign s { name_ := "", data_ := [] }).elements_
            this).elems ++ [v] := by
      simp [State.setElements, emplace_back_elems]
    have a1 := index_after_append ((Arg.element this j).assign s { name_ := "", data_ := [] })
      _ this _ h1
    have hsz0 : size this ((Arg.element this j).assign s { name_ := "", data_ := [] })
        = size this s := by
      simp only [OptimizedContainer.size, StdVector.size, hs0, List.length_set]
    rw [hsz0] at a1
    refine ⟨by rw [h1, hs0], a1.1, a1.2.1, ?_, ?_, ?_⟩
    · rw [(a1.2.2.2 j hjl).1, operatorIndex_lookup, hs0]
      simp [hjl]
    · intro i hi hij
      rw [(a1.2.2.2 i hi).1, operatorIndex_lookup, operatorIndex_lookup, hs0,
        List.getElem?_set_ne (fun e => hij e.symm)]
    · simp only [State.setElements, Arg.assign, List.append_nil]
      rw [(counts_append _ _).1, (emplace_back_counts _ _ _ _).1]
      simp [copies]

/-- C15 (as stated, refuted): on a newly created container with the usual growth rule,
`add(a)` followed by `add(std::move(b))` invokes the move constructor twice, once to
build the second element and once to relocate the first element when the storage grows
from one slot to two. -/
theorem add_then_add_move_makes_two_moves :
    ∃ (b : ExpensiveObject) (s1 s2 : State) (a1 b1 : ExpensiveObject),
      ExpensiveObject.construct gnuMaxSize "move_source" 200 = Except.ok b
      ∧ add gnuGrowth 1 (Arg.object test2Obj1) true false (construct 1 State.init)
          = Except.ok (s1, a1)
      ∧ add gnuGrowth 1 (Arg.object b) false false s1 = Except.ok (s2, b1)
      ∧ s2.log = [ObjEvent.copyCtor, ObjEvent.moveCtor, ObjEvent.moveCtor, ObjEvent.dtor]
      ∧ copies s2.log = 1
      ∧ ¬ (moves s2.log = 1) :=
  ⟨_, _, _, _, _, rfl, rfl, rfl, rfl, rfl, by decide⟩

/-- C15 (amended): on a newly created container, `add(a)` followed by
`add(std::move(b))` with a non-`const` `b` invokes the copy constructor exactly once and
no copy or move assignment; it invokes the move constructor once to build the second
element, and once more, to relocate the first element, exactly when the storage left by
the first `add` has a single slot (growth rule `grow 0 <= 1`), giving two moves in total;
with a spare slot the total is one move. -/
theorem add_then_add_move_counts (grow : Nat → Nat) (s : State) (this : Addr)
    (a b : ExpensiveObject) :
    ∃ (s1 s2 : State) (a1 b1 : ExpensiveObject),
      add grow this (Arg.object a) true false (construct this s) = Except.ok (s1, a1)
      ∧ add grow this (Arg.object b) false false s1 = Except.ok (s2, b1)
      ∧ s2.log = s.log ++ (if grow 0 ≤ 1
          then [ObjEvent.copyCtor, ObjEvent.moveCtor, ObjEvent.moveCtor, ObjEvent.dtor]
          else [ObjEvent.copyCtor, ObjEvent.moveCtor])
      ∧ copies s2.log = copies s.log + 1
      ∧ moves s2.log = moves s.log + (if grow 0 ≤ 1 then 2 else 1) := by
  refine ⟨_, _, _, _, rfl, rfl, ?_⟩
  suffices h : ∀ l : List ObjEvent,
      l = s.log ++ (if grow 0 ≤ 1
          then [ObjEvent.copyCtor, ObjEvent.moveCtor, ObjEvent.moveCtor, ObjEvent.dtor]
          else [ObjEvent.copyCtor, ObjEvent.moveCtor]) →
      l = s.log ++ (if grow 0 ≤ 1
          then [ObjEvent.copyCtor, ObjEvent.moveCtor, ObjEvent.moveCtor, ObjEvent.dtor]
          else [ObjEvent.copyCtor, ObjEvent.moveCtor])
      ∧ copies l = copies s.log + 1
      ∧ moves l = moves s.log + (if grow 0 ≤ 1 then 2 else 1) from
    h _ (by
      by_cases hg : grow 0 ≤ 1
      · have hm : max (grow 0) 1 = 1 := by omega
        simp [Arg.assign, construct, State.setElements, StdVector.emplace_back,
          StdVector.create, StdVector.size, hg, hm]
      · have hm : 1 < max (grow 0) 1 := by omega
        simp [Arg.assign, construct, State.setElements, StdVector.emplace_back,
          StdVector.create, StdVector.size, hg, hm])
  intro l hl
  refine ⟨hl, ?_, ?_⟩
  · rw [hl, (counts_append _ _).1]
    by_cases hg : grow 0 ≤ 1 <;> simp [hg, copies]
  · rw [hl, (counts_append _ _).2.1]
    by_cases hg : grow 0 ≤ 1 <;> simp [hg, moves]

/-- C17: copy construction and copy assignment deep-copy every element.  For a source
with `n` elements and a distinct destination, whatever the destination held, the
destination afterwards has size `n`, its `i`-th element is a copy of the `i`-th element
of the source (made by the copy constructor or the copy assignment of `ExpensiveObject`,
with equal data) for every `i < n`, and the source is unchanged; copy-assigning a
container to itself leaves the state unchanged. -/
theorem container_copy_deep_copies (s : State) (dst src : Addr) (hne : dst ≠ src) :
    (((copyConstruct dst src s).elements_ dst).elems
        = (s.elements_ src).elems.map ExpensiveObject.copyConstruct
      ∧ size dst (copyConstruct dst src s) = size src s
      ∧ (∀ (i : Nat) (e : ExpensiveObject), (s.elements_ src).elems[i]? = some e →
          ∃ d, ((copyConstruct dst src s).elements_ dst).elems[i]? = some d
            ∧ IsCopyOf d e ∧ d.data_ = e.data_)
      ∧ (copyConstruct dst src s).elements_ src = s.elements_ src)
    ∧ (size dst (copyAssign dst src s) = size src s
      ∧ (∀ (i : Nat) (e : ExpensiveObject), (s.elements_ src).elems[i]? = some e →
          ∃ d, ((copyAssign dst src s).elements_ dst).elems[i]? = some d
            ∧ IsCopyOf d e ∧ d.data_ = e.data_)
      ∧ (copyAssign dst src s).elements_ src = s.elements_ src)
    ∧ (∀ c : Addr, copyAssign c c s = s) := by
  have hne2 : src ≠ dst := fun h => hne h.symm
  have hc : ((copyConstruct dst src s).elements_ dst).elems
      = (s.elements_ src).elems.map ExpensiveObject.copyConstruct := by
    by_cases h0 : (s.elements_ src).size > 0
    · simp [copyConstruct, construct, State.setElements, StdVector.copyAssign,
        StdVector.create, hne2, h0]
    · simp [copyConstruct, construct, State.setElements, StdVector.copyAssign,
        StdVector.create, StdVector.copyElems, hne2, h0]
  have hc2 : List.Forall₂ IsCopyOf ((copyConstruct dst src s).elements_ dst).elems
      (s.elements_ src).elems := by
    rw [hc]
    exact map_copyConstruct_isCopy _
  have ha : ((copyAssign dst src s).elements_ dst).elems
      = (StdVector.copyAssign (s.elements_ dst) (s.elements_ src)).1.elems := by
    simp [copyAssign, State.setElements, hne]
  have ha2 : List.Forall₂ IsCopyOf ((copyAssign dst src s).elements_ dst).elems
      (s.elements_ src).elems := by
    rw [ha]
    exact vector_copyAssign_isCopy _ _
  refine ⟨⟨hc, hc2.length_eq, ?_, ?_⟩, ⟨ha2.length_eq, ?_, ?_⟩, ?_⟩
  · intro i e he
    obtain ⟨d, hd, hr⟩ := forall₂_index hc2 i e he
    exact ⟨d, hd, hr, hr.data_eq⟩
  · simp [copyConstruct, construct, State.setElements, hne2]
  · intro i e he
    obtain ⟨d, hd, hr⟩ := forall₂_index ha2 i e he
    exact ⟨d, hd, hr, hr.data_eq⟩
  · simp [copyAssign, State.setElements, hne, hne2]
  · intro c
    simp [copyAssign]

/-- C17 witness (Test 3 container): copy-constructing `container2` from `container1`
gives two elements, named by the copy constructor, and leaves `container1` as it
was. -/
theorem container_copy_deep_copies_witness :
    size 2 (copyConstruct 2 1 test3Container1) = 2
    ∧ (((copyConstruct 2 1 test3Container1).elements_ 2).elems.map
        ExpensiveObject.getName) = ["container1_obj1_copy", "container1_obj2_copy"]
    ∧ (copyConstruct 2 1 test3Container1).elements_ 1 = test3Container1.elements_ 1 :=
  ⟨(container_copy_deep_copies test3Container1 2 1 (by decide)).1.2.1,
   by decide,
   (container_copy_deep_copies test3Container1 2 1 (by decide)).1.2.2.2⟩

/-- C18: move-assigning a container to itself is a no-op: the state is unchanged, so
`size()` and every element, in order, are the same before and after. -/
theorem container_moveAssign_self_noop (s : State) (c : Addr) :
    moveAssign c c s = s
    ∧ size c (moveAssign c c s) = size c s
    ∧ ((moveAssign c c s).elements_ c).elems = (s.elements_ c).elems
    ∧ (moveAssign c c s).log = s.log := by
  have h : moveAssign c c s = s := by simp [moveAssign]
  simp [h]

/-- C19: traversing a container from `begin()` to `end()`, mutable or read-only,
terminates and yields exactly `size()` elements, the `k`-th being `c[k]`, that is the
elements in insertion order; the traversal leaves the state unchanged, so traversing
again yields the same sequence. -/
theorem traverse_yields_elements_in_order (grow : Nat → Nat) (maxSize : Nat) (s : State)
    (this : Addr) :
    traverse this s = some (s.elements_ this).elems
    ∧ traverseConst this s = some (s.elements_ this).elems
    ∧ (s.elements_ this).elems.length = size this s
    ∧ (∀ k : Nat, k < size this s → ∃ e : ExpensiveObject,
        (s.elements_ this).elems[k]? = some e ∧ operatorIndex this k s = Except.ok e
        ∧ operatorIndexConst this k s = Except.ok e)
    ∧ (Call.traverse this).run grow maxSize s
        = Except.ok (Value.seq (some (s.elements_ this).elems), s)
    ∧ (Call.traverseConst this).run grow maxSize s
        = Except.ok (Value.seq (some (s.elements_ this).elems), s) := by
  have h := traverse_eq_elems this s
  refine ⟨h.1, h.2, rfl, ?_, ?_, ?_⟩
  · intro k hk
    have hlt : k < (s.elements_ this).elems.length := hk
    have hn : ¬ k ≥ (s.elements_ this).size := by
      simp only [StdVector.size]
      omega
    refine ⟨(s.elements_ this).elems.get ⟨k, hlt⟩, ?_, ?_, ?_⟩
    · simp [List.getElem?_eq_getElem hlt]
    · simp [operatorIndex, hn]
    · simp [operatorIndexConst, hn]
  · simp [Call.run, h.1]
  · simp [Call.run, h.2]

/-- C19 witness (Test 4): after emplacing `loop_obj1`, `loop_obj2`, `loop_obj3` the
loop visits those three names in that order. -/
theorem traverse_yields_elements_in_order_witness :
    (traverse 1 test4Container).map (List.map ExpensiveObject.getName)
      = some ["loop_obj1", "loop_obj2", "loop_obj3"] := by
  rw [(traverse_yields_elements_in_order gnuGrowth gnuMaxSize test4Container 1).1]
  decide

/-- C20: `size()` equals the number of live elements.  A default-constructed container
has `size()` 0; every `add` and every `emplace` that returns increases `size()` by
exactly 1, `add` of an object returns always and `emplace` whenever the size argument is
at most `max_size()`; both `operator[]`, `size()`, `empty()` and traversal leave the
state unchanged; `empty()` is true iff `size()` is 0 in every state; and in every state
reached from the default construction by these calls, the number of element
constructions exceeds the number of element destructions by exactly `size()`. -/
theorem size_counts_live_elements (grow : Nat → Nat) (maxSize : Nat) (this : Addr)
    (t : State) (hr : Reachable grow maxSize this t) :
    (∀ s : State, size this (construct this s) = 0)
    ∧ (∀ (s : State) (arg : Arg) (isLvalue isConst : Bool) (r : State × ExpensiveObject),
        add grow this arg isLvalue isConst s = Except.ok r →
        size this r.1 = size this s + 1)
    ∧ (∀ (s : State) (e : ExpensiveObject) (isLvalue isConst : Bool),
        ∃ r, add grow this (Arg.object e) isLvalue isConst s = Except.ok r)
    ∧ (∀ (s u : State) (name : String) (n : Nat),
        emplace grow maxSize this name n s = Except.ok u →
        size this u = size this s + 1)
    ∧ (∀ (s : State) (name : String) (n : Nat), n ≤ maxSize →
        ∃ u, emplace grow maxSize this name n s = Except.ok u)
    ∧ (∀ (s u : State) (c : Call) (v : Value), c.observes = true →
        c.run grow maxSize s = Except.ok (v, u) → u = s)
    ∧ (∀ s : State, empty this s = true ↔ size this s = 0)
    ∧ constructions t.log = destructions t.log + size this t
    ∧ (empty this t = true ↔ size this t = 0) := by
  have hempty : ∀ s : State, empty this s = true ↔ size this s = 0 := by
    intro s
    simp [OptimizedContainer.empty, OptimizedContainer.size, StdVector.empty,
      StdVector.size, List.isEmpty_iff]
  refine ⟨?_, ?_, ?_, ?_, ?_, ?_, hempty, reachable_live grow maxSize this t hr, hempty t⟩
  · intro s
    simp [construct, State.setElements, OptimizedContainer.size, StdVector.size,
      StdVector.create]
  · intro s arg lv cst r h
    exact (add_ok_size grow this arg lv cst s r h).1
  · intro s e lv cst
    unfold add
    simp only [Arg.eval]
    by_cases hc : (lv || cst) = true
    · rw [if_pos hc]
      exact ⟨_, rfl⟩
    · rw [if_neg hc]
      exact ⟨_, rfl⟩
  · intro s u name n h
    exact (emplace_ok_size grow maxSize this name n s u h).1
  · intro s name n hn
    exact ⟨_, emplace_returns grow maxSize this name n s hn⟩
  · intro s u c v hobs hrun
    exact observer_keeps_state grow maxSize s u c v hobs hrun

/-- C20 witness (Test 2): a default-constructed container after `add(obj1)` and
`add(std::move(obj1))` has size 2, three constructions and one destruction. -/
theorem size_counts_live_elements_witness :
    ∃ (s1 s2 : State) (a1 a2 : ExpensiveObject),
      add gnuGrowth 1 (Arg.object test2Obj1) true false (construct 1 State.init)
        = Except.ok (s1, a1)
      ∧ add gnuGrowth 1 (Arg.object a1) false false s1 = Except.ok (s2, a2)
      ∧ Reachable gnuGrowth gnuMaxSize 1 s2
      ∧ size 1 s2 = 2
      ∧ constructions s2.log = 3 ∧ destructions s2.log = 1
      ∧ constructions s2.log = destructions s2.log + size 1 s2 :=
  have hr := @Reachable.step gnuGrowth gnuMaxSize 1 _ _
      (Call.add 1 (Arg.object test2Obj1) false false) (Value.obj _)
      (Reachable.step _ _ (Call.add 1 (Arg.object test2Obj1) true false) (Value.obj _)
        (Reachable.init State.init rfl) rfl rfl)
      rfl rfl
  ⟨_, _, _, _, rfl, rfl, hr, rfl, rfl, rfl,
    (size_counts_live_elements gnuGrowth gnuMaxSize 1 _ hr).2.2.2.2.2.2.2.1⟩

end Kata3

namespace Kata1

open FileHandle

/-- C21: constructing a `FileHandle` throws if and only if the underlying open fails;
when it throws, no object exists at the address and the environment is as before; when
it succeeds, the new handle is alive, `is_open()` is true and it records the given
name. -/
theorem construct_fails_iff_open_fails (s : State) (this : Addr) (name : String)
    (mode : OpenMode) :
    (throws (construct this name mode s).1 = true
      ↔ (FStream.open s.world FStream.create name mode).2.is_open = false)
    ∧ (throws (construct this name mode s).1 = true
      ↔ FStream.openSucceeds s.world name mode = false)
    ∧ (throws (construct this name mode s).1 = true →
        (construct this name mode s).2 = s)
    ∧ (throws (construct this name mode s).1 = false →
        (construct this name mode s).2.alive this = true
        ∧ is_open this (construct this name mode s).2 = true
        ∧ ((construct this name mode s).2.obj this).filename_ = name
        ∧ ((construct this name mode s).2.obj this).file_.is_open = true) := by
  by_cases h : FStream.openSucceeds s.world name mode = true
  · refine ⟨?_, ?_, ?_, ?_⟩ <;>
      simp [construct, FStream.open, FStream.create, throws, h, is_open, State.setObj,
        State.setAlive, State.setWorld]
  · have h2 : FStream.openSucceeds s.world name mode = false := by
      cases hb : FStream.openSucceeds s.world name mode
      · rfl
      · exact absurd hb h
    refine ⟨?_, ?_, ?_, ?_⟩ <;>
      simp [construct, FStream.open, FStream.create, throws, h2, is_open, State.setObj,
        State.setAlive, State.setWorld]

/-- C22: on a handle that is not open, `write(data)` and `read()` both throw, for every
`data`, and leave the whole state, the stream included, unchanged; on an open handle
`write(data)` throws if and only if the insertion into the underlying stream fails. -/
theorem write_read_require_open (s : State) (this : Addr) (data : List Char) :
    (is_open this s = false →
      throws (write this data s).1 = true ∧ (write this data s).2 = s
      ∧ throws (read this s).1 = true ∧ (read this s).2 = s)
    ∧ (is_open this s = true →
      (throws (write this data s).1 = true
        ↔ (FStream.put (s.obj this).file_ data).fail = true)) := by
  constructor
  · intro h
    have h1 : (s.obj this).is_open_ = false := h
    simp [FileHandle.write, FileHandle.read, throws, h1]
  · intro h
    have h1 : (s.obj this).is_open_ = true := h
    by_cases hf : (FStream.put (s.obj this).file_ data).fail = true
    · simp [FileHandle.write, throws, h1, hf]
    · simp [FileHandle.write, throws, h1, hf]

/-- C26: move-assigning a `FileHandle` to itself is a no-op: the whole state is
unchanged, so `is_open()`, the name and the underlying stream are as before and nothing
is closed. -/
theorem fileHandle_moveAssign_self_noop (s : State) (f : Addr) :
    moveAssign f f s = s
    ∧ is_open f (moveAssign f f s) = is_open f s
    ∧ ((moveAssign f f s).obj f).filename_ = (s.obj f).filename_
    ∧ ((moveAssign f f s).obj f).file_ = (s.obj f).file_
    ∧ (moveAssign f f s).world.log = s.world.log := by
  have h : moveAssign f f s = s := by simp [moveAssign]
  simp [h]

/-- Flushing keeps the log, the descriptor counter, and the open flag and descriptor of
the stream. -/
theorem flush_keeps (w : World) (st : FStream) :
    (FStream.flush w st).1.log = w.log
    ∧ (FStream.flush w st).1.nextFd = w.nextFd
    ∧ (FStream.flush w st).2.is_open = st.is_open
    ∧ (FStream.flush w st).2.fd = st.fd := by
  unfold FStream.flush
  split <;> simp [World.setFile]

/-- Effect of closing a file buffer on the log, the counter and the stream. -/
theorem closeBuf_effect (w : World) (st : FStream) :
    (FStream.closeBuf w st).1.log
        = w.log ++ (if st.is_open then [Event.closed st.fd] else [])
    ∧ (FStream.closeBuf w st).1.nextFd = w.nextFd
    ∧ (FStream.closeBuf w st).2.is_open = false
    ∧ (FStream.closeBuf w st).2.fd = st.fd := by
  by_cases h : st.is_open = true
  · simp [FStream.closeBuf, h, flush_keeps]
  · have h2 : st.is_open = false := by
      cases hb : st.is_open
      · rfl
      · exact absurd hb h
    simp [FStream.closeBuf, h2]

/-- Effect of the member `close()` on the log, the counter and the stream. -/
theorem close_effect (w : World) (st : FStream) :
    (FStream.close w st).1.log
        = w.log ++ (if st.is_open then [Event.closed st.fd] else [])
    ∧ (FStream.close w st).1.nextFd = w.nextFd
    ∧ (FStream.close w st).2.is_open = false
    ∧ (FStream.close w st).2.fd = st.fd := by
  by_cases h : st.is_open = true
  · simp only [FStream.close, h, if_true]
    exact closeBuf_effect w st |>.imp (by simp [h]) id
  · have h2 : st.is_open = false := by
      cases hb : st.is_open
      · rfl
      · exact absurd hb h
    simp [FStream.close, h2]

/-- Insertion keeps the open flag and the descriptor of the stream. -/
theorem put_keeps (st : FStream) (data : List Char) :
    (FStream.put st data).is_open = st.is_open ∧ (FStream.put st data).fd = st.fd := by
  unfold FStream.put
  split
  · simp
  · split
    · simp
    · split <;> simp

/-- Reading a line keeps the log, the descriptor counter, and the open flag and
descriptor of the stream. -/
theorem getline_keeps (w : World) (st : FStream) (delim : Char) :
    (FStream.getline w st delim).1.log = w.log
    ∧ (FStream.getline w st delim).1.nextFd = w.nextFd
    ∧ (FStream.getline w st delim).2.1.is_open = st.is_open
    ∧ (FStream.getline w st delim).2.1.fd = st.fd := by
  by_cases h : st.fail = true ∨ st.eof = true
  · simp [FStream.getline, h]
  · simp only [FStream.getline, h, if_false]
    split <;> simp [flush_keeps]

/-- The close count after the log has been extended. -/
theorem closeCount_append (s t : State) (l : List Event)
    (h : t.world.log = s.world.log ++ l) (fd : Nat) :
    t.closeCount fd = s.closeCount fd + l.count (Event.closed fd) := by
  simp [State.closeCount, h, List.count_append]

/-- A state with the same counter, log, lifetimes, flags, stream states and descriptors
satisfies the invariant when the original does. -/
theorem invariant_of_same_view (s t : State)
    (hn : t.world.nextFd = s.world.nextFd) (hl : t.world.log = s.world.log)
    (ha : t.alive = s.alive)
    (ho : ∀ x : Addr, (t.obj x).is_open_ = (s.obj x).is_open_
      ∧ (t.obj x).file_.is_open = (s.obj x).file_.is_open
      ∧ (t.obj x).file_.fd = (s.obj x).file_.fd)
    (hinv : Invariant s) : Invariant t := by
  obtain ⟨h1, h2, h3, h4, h5⟩ := hinv
  have hcc : ∀ fd, t.closeCount fd = s.closeCount fd := by
    intro fd
    simp [State.closeCount, hl]
  refine ⟨?_, ?_, ?_, ?_, ?_⟩
  · intro x hx
    rw [ha] at hx
    rw [(ho x).1, (ho x).2.1]
    exact h1 x hx
  · intro x hx hox
    rw [ha] at hx
    rw [(ho x).1] at hox
    rw [(ho x).2.2, hn, hcc]
    exact h2 x hx hox
  · intro x y hx hy hox hoy hfd
    rw [ha] at hx hy
    rw [(ho x).1] at hox
    rw [(ho y).1] at hoy
    rw [(ho x).2.2, (ho y).2.2] at hfd
    exact h3 x y hx hy hox hoy hfd
  · intro fd hfd hcl
    rw [hn] at hfd
    rw [hcc] at hcl
    obtain ⟨k, hk1, hk2, hk3⟩ := h4 fd hfd hcl
    refine ⟨k, ?_, ?_, ?_⟩
    · rw [ha]
      exact hk1
    · rw [(ho k).1]
      exact hk2
    · rw [(ho k).2.2]
      exact hk3
  · intro fd
    rw [hcc, hn]
    exact h5 fd

/-- The invariant survives `write`. -/
theorem write_preserves (s : State) (this : Addr) (data : List Char)
    (hinv : Invariant s) : Invariant (FileHandle.write this data s).2 := by
  apply invariant_of_same_view s _ _ _ _ _ hinv
  · simp only [FileHandle.write]
    split
    · rfl
    · split <;> rfl
  · simp only [FileHandle.write]
    split
    · rfl
    · split <;> rfl
  · simp only [FileHandle.write]
    split
    · rfl
    · split <;> rfl
  · intro x
    simp only [FileHandle.write]
    split
    · simp
    · by_cases hx : x = this
      · subst hx
        split <;> simp [State.setObj, put_keeps]
      · split <;> simp [State.setObj, hx]

/-- The invariant survives `read`. -/
theorem read_preserves (s : State) (this : Addr)
    (hinv : Invariant s) : Invariant (FileHandle.read this s).2 := by
  apply invariant_of_same_view s _ _ _ _ _ hinv
  · simp only [FileHandle.read]
    split
    · rfl
    · split <;> simp [State.setObj, State.setWorld, getline_keeps]
  · simp only [FileHandle.read]
    split
    · rfl
    · split <;> simp [State.setObj, State.setWorld, getline_keeps]
  · simp only [FileHandle.read]
    split
    · rfl
    · split <;> rfl
  · intro x
    simp only [FileHandle.read]
    split
    · simp
    · by_cases hx : x = this
      · subst hx
        split <;> simp [State.setObj, State.setWorld, getline_keeps]
      · split <;> simp [State.setObj, State.setWorld, hx]

/-- Effect of a successful construction. -/
theorem construct_effect (s : State) (this : Addr) (name : String) (mode : OpenMode)
    (hok : FStream.openSucceeds s.world name mode = true) :
    (construct this name mode s).2.world.nextFd = s.world.nextFd + 1
    ∧ (∀ fd, (construct this name mode s).2.closeCount fd = s.closeCount fd)
    ∧ (∀ x, (construct this name mode s).2.alive x = if x = this then true else s.alive x)
    ∧ ((construct this name mode s).2.obj this).is_open_ = true
    ∧ ((construct this name mode s).2.obj this).file_.is_open = true
    ∧ ((construct this name mode s).2.obj this).file_.fd = s.world.nextFd
    ∧ (∀ x, x ≠ this → (construct this name mode s).2.obj x = s.obj x) := by
  refine ⟨?_, ?_, ?_, ?_, ?_, ?_, ?_⟩
  · simp [construct, FStream.open, FStream.create, hok, State.setObj, State.setAlive,
      State.setWorld]
  · intro fd
    by_cases hm : mode.inp = true <;>
      simp [construct, FStream.open, FStream.create, hok, State.setObj, State.setAlive,
        State.setWorld, State.closeCount, World.setFile, List.count_append, hm]
  · intro x
    simp [construct, FStream.open, FStream.create, hok, State.setObj, State.setAlive,
      State.setWorld]
  · simp [construct, FStream.open, FStream.create, hok, State.setObj, State.setAlive,
      State.setWorld]
  · simp [construct, FStream.open, FStream.create, hok, State.setObj, State.setAlive,
      State.setWorld]
  · simp [construct, FStream.open, FStream.create, hok, State.setObj, State.setAlive,
      State.setWorld]
  · intro x hx
    simp [construct, FStream.open, FStream.create, hok, State.setObj, State.setAlive,
      State.setWorld, hx]

/-- The invariant survives a construction, successful or not. -/
theorem fileHandle_construct_preserves (s : State) (this : Addr) (name : String) (mode : OpenMode)
    (hal : s.alive this = false) (hinv : Invariant s) :
    Invariant (construct this name mode s).2 := by
  by_cases hok : FStream.openSucceeds s.world name mode = true
  · obtain ⟨hn, hcc, ha, ht1, ht2, ht3, hoth⟩ := construct_effect s this name mode hok
    obtain ⟨h1, h2, h3, h4, h5⟩ := hinv
    have hold : ∀ x, x ≠ this → (construct this name mode s).2.alive x = true →
        s.alive x = true := by
      intro x hx hax
      rw [ha x] at hax
      simpa [hx] using hax
    refine ⟨?_, ?_, ?_, ?_, ?_⟩
    · intro x hx
      by_cases hxt : x = this
      · subst hxt
        rw [ht1, ht2]
      · rw [hoth x hxt]
        exact h1 x (hold x hxt hx)
    · intro x hx hox
      by_cases hxt : x = this
      · subst hxt
        rw [ht3, hn, hcc]
        exact ⟨Nat.lt_succ_self _, (h5 _).2 (Nat.le_refl _)⟩
      · rw [hoth x hxt] at hox ⊢
        rw [hn, hcc]
        have := h2 x (hold x hxt hx) hox
        exact ⟨Nat.lt_succ_of_lt this.1, this.2⟩
    · intro x y hx hy hox hoy hfd
      by_cases hxt : x = this
      · by_cases hyt : y = this
        · rw [hxt, hyt]
        · subst hxt
          rw [hoth y hyt] at hoy hfd
          rw [ht3] at hfd
          have := (h2 y (hold y hyt hy) hoy).1
          omega
      · by_cases hyt : y = this
        · subst hyt
          rw [hoth x hxt] at hox hfd
          rw [ht3] at hfd
          have := (h2 x (hold x hxt hx) hox).1
          omega
        · rw [hoth x hxt] at hox hfd
          rw [hoth y hyt] at hoy hfd
          exact h3 x y (hold x hxt hx) (hold y hyt hy) hox hoy hfd
    · intro fd hfd hcl
      rw [hn] at hfd
      rw [hcc] at hcl
      by_cases hnew : fd = s.world.nextFd
      · refine ⟨this, ?_, ht1, ?_⟩
        · rw [ha this]
          simp
        · rw [ht3, hnew]
      · obtain ⟨k, hk1, hk2, hk3⟩ := h4 fd (by omega) hcl
        have hkt : k ≠ this := by
          intro e
          rw [e, hal] at hk1
          cases hk1
        refine ⟨k, ?_, ?_, ?_⟩
        · rw [ha k]
          simp [hkt, hk1]
        · rw [hoth k hkt]
          exact hk2
        · rw [hoth k hkt]
          exact hk3
    · intro fd
      rw [hcc, hn]
      exact ⟨(h5 fd).1, fun hle => (h5 fd).2 (by omega)⟩
  · have h2 : FStream.openSucceeds s.world name mode = false := by
      cases hb : FStream.openSucceeds s.world name mode
      · rfl
      · exact absurd hb hok
    have hs : (construct this name mode s).2 = s := by
      simp [construct, FStream.open, FStream.create, h2, State.setWorld]
    rw [hs]
    exact hinv

/-- Effect of a move assignment between distinct handles, the destination having
consistent flags. -/
theorem moveAssign_effect (s : State) (this other : Addr) (hne : this ≠ other)
    (hc : (s.obj this).file_.is_open = (s.obj this).is_open_) :
    (moveAssign this other s).world.nextFd = s.world.nextFd
    ∧ (moveAssign this other s).world.log
        = s.world.log ++ (if (s.obj this).is_open_
            then [Event.closed (s.obj this).file_.fd] else [])
    ∧ (moveAssign this other s).alive = s.alive
    ∧ (((moveAssign this other s).obj this).is_open_ = (s.obj other).is_open_
      ∧ ((moveAssign this other s).obj this).file_.is_open = (s.obj other).file_.is_open
      ∧ ((moveAssign this other s).obj this).file_.fd = (s.obj other).file_.fd)
    ∧ (((moveAssign this other s).obj other).is_open_ = false
      ∧ ((moveAssign this other s).obj other).file_.is_open = false)
    ∧ (∀ x, x ≠ this → x ≠ other → (moveAssign this other s).obj x = s.obj x) := by
  have hne2 : other ≠ this := fun h => hne h.symm
  refine ⟨?_, ?_, ?_, ⟨?_, ?_, ?_⟩, ⟨?_, ?_⟩, ?_⟩
  · by_cases h1 : (s.obj this).is_open_ = true
    · have h2 : (s.obj this).file_.is_open = true := by rw [hc, h1]
      simp [moveAssign, FStream.moveAssign, State.setObj, State.setWorld, hne, h1,
        closeBuf_effect, close_effect]
    · have h1f : (s.obj this).is_open_ = false := by
        cases hb : (s.obj this).is_open_
        · rfl
        · exact absurd hb h1
      simp [moveAssign, FStream.moveAssign, State.setObj, State.setWorld, hne, h1f,
        closeBuf_effect]
  · by_cases h1 : (s.obj this).is_open_ = true
    · have h2 : (s.obj this).file_.is_open = true := by rw [hc, h1]
      simp [moveAssign, FStream.moveAssign, State.setObj, State.setWorld, hne, h1, h2,
        closeBuf_effect, close_effect]
    · have h1f : (s.obj this).is_open_ = false := by
        cases hb : (s.obj this).is_open_
        · rfl
        · exact absurd hb h1
      have h2 : (s.obj this).file_.is_open = false := by rw [hc, h1f]
      simp [moveAssign, FStream.moveAssign, State.setObj, State.setWorld, hne, h1f, h2,
        closeBuf_effect]
  · simp [moveAssign, FStream.moveAssign, State.setObj, State.setWorld, hne]
  · simp [moveAssign, FStream.moveAssign, State.setObj, State.setWorld, hne, hne2]
  · simp [moveAssign, FStream.moveAssign, State.setObj, State.setWorld, hne, hne2]
  · simp [moveAssign, FStream.moveAssign, State.setObj, State.setWorld, hne, hne2]
  · simp [moveAssign, FStream.moveAssign, State.setObj, State.setWorld, hne, hne2]
  · simp [moveAssign, FStream.moveAssign, State.setObj, State.setWorld, hne, hne2]
  · intro x hx1 hx2
    simp [moveAssign, FStream.moveAssign, State.setObj, State.setWorld, hne, hx1, hx2]

/-- The invariant survives a move assignment. -/
theorem fileHandle_moveAssign_preserves (s : State) (this other : Addr)
    (hat : s.alive this = true) (hao : s.alive other = true) (hinv : Invariant s) :
    Invariant (moveAssign this other s) := by
  by_cases hne : this = other
  · have hs : moveAssign this other s = s := by simp [moveAssign, hne]
    rw [hs]
    exact hinv
  · obtain ⟨h1, h2, h3, h4, h5⟩ := hinv
    obtain ⟨hn, hl, ha, ⟨ht1, ht2, ht3⟩, ⟨ho1, ho2⟩, hoth⟩ :=
      moveAssign_effect s this other hne (h1 this hat)
    have hne2 : other ≠ this := fun h => hne h.symm
    have hcc : ∀ fd, (moveAssign this other s).closeCount fd
        = s.closeCount fd
          + (if (s.obj this).is_open_ = true ∧ (s.obj this).file_.fd = fd then 1 else 0) := by
      intro fd
      rw [closeCount_append s _ _ hl fd]
      by_cases hop : (s.obj this).is_open_ = true
      · by_cases hfd : (s.obj this).file_.fd = fd <;> simp [hop, hfd, List.count_cons]
      · simp [hop]
    have hsame : ∀ x, s.alive x = true → x ≠ this → (s.obj x).is_open_ = true →
        ¬ ((s.obj this).is_open_ = true ∧ (s.obj this).file_.fd = (s.obj x).file_.fd) := by
      intro x hx hxt hox hcon
      exact hxt (h3 x this hx hat hox hcon.1 hcon.2.symm)
    refine ⟨?_, ?_, ?_, ?_, ?_⟩
    · intro x hx
      rw [ha] at hx
      by_cases hxt : x = this
      · subst hxt
        rw [ht1, ht2]
        exact h1 other hao
      · by_cases hxo : x = other
        · subst hxo
          rw [ho1, ho2]
        · rw [hoth x hxt hxo]
          exact h1 x hx
    · intro x hx hox
      rw [ha] at hx
      by_cases hxt : x = this
      · subst hxt
        rw [ht1] at hox
        rw [ht3, hn, hcc, if_neg (hsame other hao hne2 hox)]
        exact h2 other hao hox
      · by_cases hxo : x = other
        · subst hxo
          rw [ho1] at hox
          cases hox
        · rw [hoth x hxt hxo] at hox ⊢
          rw [hn, hcc, if_neg (hsame x hx hxt hox)]
          exact h2 x hx hox
    · intro x y hx hy hox hoy hfd
      rw [ha] at hx hy
      by_cases hxt : x = this
      · by_cases hyt : y = this
        · rw [hxt, hyt]
        · by_cases hyo : y = other
          · subst hyo
            rw [ho1] at hoy
            cases hoy
          · subst hxt
            rw [ht1] at hox
            rw [ht3, hoth y hyt hyo] at hfd
            rw [hoth y hyt hyo] at hoy
            exact absurd (h3 other y hao hy hox hoy hfd) (fun e => hyo e.symm)
      · by_cases hxo : x = other
        · subst hxo
          rw [ho1] at hox
          cases hox
        · by_cases hyt : y = this
          · subst hyt
            rw [ht1] at hoy
            rw [ht3, hoth x hxt hxo] at hfd
            rw [hoth x hxt hxo] at hox
            exact absurd (h3 x other hx hao hox hoy hfd) hxo
          · by_cases hyo : y = other
            · subst hyo
              rw [ho1] at hoy
              cases hoy
            · rw [hoth x hxt hxo] at hox hfd
              rw [hoth y hyt hyo] at hoy hfd
              exact h3 x y hx hy hox hoy hfd
    · intro fd hfd hcl
      rw [hn] at hfd
      rw [hcc] at hcl
      have hcl0 : s.closeCount fd = 0 := by omega
      have hnot : ¬ ((s.obj this).is_open_ = true ∧ (s.obj this).file_.fd = fd) := by
        intro hcon
        rw [if_pos hcon] at hcl
        omega
      obtain ⟨k, hk1, hk2, hk3⟩ := h4 fd hfd hcl0
      by_cases hkt : k = this
      · subst hkt
        exact absurd ⟨hk2, hk3⟩ hnot
      · by_cases hko : k = other
        · subst hko
          refine ⟨this, ?_, ?_, ?_⟩
          · rw [ha]
            exact hat
          · rw [ht1]
            exact hk2
          · rw [ht3]
            exact hk3
        · refine ⟨k, ?_, ?_, ?_⟩
          · rw [ha]
            exact hk1
          · rw [hoth k hkt hko]
            exact hk2
          · rw [hoth k hkt hko]
            exact hk3
    · intro fd
      rw [hcc, hn]
      by_cases hcon : (s.obj this).is_open_ = true ∧ (s.obj this).file_.fd = fd
      · rw [if_pos hcon]
        have hA := h2 this hat hcon.1
        rw [hcon.2] at hA
        refine ⟨by omega, fun hle => ?_⟩
        omega
      · rw [if_neg hcon]
        exact ⟨by have := (h5 fd).1; omega, fun hle => by have := (h5 fd).2 hle; omega⟩

/-- Effect of the move construction of a new handle. -/
theorem moveConstruct_effect (s : State) (this other : Addr) (hne : this ≠ other) :
    (moveConstruct this other s).world.nextFd = s.world.nextFd
    ∧ (moveConstruct this other s).world.log = s.world.log
    ∧ (∀ x, (moveConstruct this other s).alive x = if x = this then true else s.alive x)
    ∧ (((moveConstruct this other s).obj this).is_open_ = (s.obj other).is_open_
      ∧ ((moveConstruct this other s).obj this).file_.is_open = (s.obj other).file_.is_open
      ∧ ((moveConstruct this other s).obj this).file_.fd = (s.obj other).file_.fd)
    ∧ (((moveConstruct this other s).obj other).is_open_ = false
      ∧ ((moveConstruct this other s).obj other).file_.is_open = false)
    ∧ (∀ x, x ≠ this → x ≠ other → (moveConstruct this other s).obj x = s.obj x) := by
  have hne2 : other ≠ this := fun h => hne h.symm
  refine ⟨?_, ?_, ?_, ⟨?_, ?_, ?_⟩, ⟨?_, ?_⟩, ?_⟩
  · simp [moveConstruct, FStream.moveAssign, State.setObj, State.setWorld, State.setAlive,
      FStream.closeBuf, FStream.create]
  · simp [moveConstruct, FStream.moveAssign, State.setObj, State.setWorld, State.setAlive,
      FStream.closeBuf, FStream.create]
  · intro x
    simp [moveConstruct, State.setObj, State.setWorld, State.setAlive]
  · simp [moveConstruct, FStream.moveAssign, State.setObj, State.setWorld, State.setAlive,
      hne, hne2]
  · simp [moveConstruct, FStream.moveAssign, State.setObj, State.setWorld, State.setAlive,
      hne, hne2]
  · simp [moveConstruct, FStream.moveAssign, State.setObj, State.setWorld, State.setAlive,
      hne, hne2]
  · simp [moveConstruct, FStream.moveAssign, State.setObj, State.setWorld, State.setAlive,
      hne, hne2]
  · simp [moveConstruct, FStream.moveAssign, State.setObj, State.setWorld, State.setAlive,
      hne, hne2]
  · intro x hx1 hx2
    simp [moveConstruct, FStream.moveAssign, State.setObj, State.setWorld, State.setAlive,
      hx1, hx2]

/-- The invariant survives the move construction of a new handle. -/
theorem fileHandle_moveConstruct_preserves (s : State) (this other : Addr)
    (hat : s.alive this = false) (hao : s.alive other = true) (hinv : Invariant s) :
    Invariant (moveConstruct this other s) := by
  have hne : this ≠ other := by
    intro e
    rw [e, hao] at hat
    cases hat
  have hne2 : other ≠ this := fun h => hne h.symm
  obtain ⟨h1, h2, h3, h4, h5⟩ := hinv
  obtain ⟨hn, hl, ha, ⟨ht1, ht2, ht3⟩, ⟨ho1, ho2⟩, hoth⟩ :=
    moveConstruct_effect s this other hne
  have hcc : ∀ fd, (moveConstruct this other s).closeCount fd = s.closeCount fd := by
    intro fd
    simp [State.closeCount, hl]
  have hold : ∀ x, x ≠ this → (moveConstruct this other s).alive x = true →
      s.alive x = true := by
    intro x hx hax
    rw [ha x] at hax
    simpa [hx] using hax
  refine ⟨?_, ?_, ?_, ?_, ?_⟩
  · intro x hx
    by_cases hxt : x = this
    · subst hxt
      rw [ht1, ht2]
      exact h1 other hao
    · by_cases hxo : x = other
      · subst hxo
        rw [ho1, ho2]
      · rw [hoth x hxt hxo]
        exact h1 x (hold x hxt hx)
  · intro x hx hox
    by_cases hxt : x = this
    · subst hxt
      rw [ht1] at hox
      rw [ht3, hn, hcc]
      exact h2 other hao hox
    · by_cases hxo : x = other
      · subst hxo
        rw [ho1] at hox
        cases hox
      · rw [hoth x hxt hxo] at hox ⊢
        rw [hn, hcc]
        exact h2 x (hold x hxt hx) hox
  · intro x y hx hy hox hoy hfd
    by_cases hxt : x = this
    · by_cases hyt : y = this
      · rw [hxt, hyt]
      · by_cases hyo : y = other
        · subst hyo
          rw [ho1] at hoy
          cases hoy
        · subst hxt
          rw [ht1] at hox
          rw [ht3, hoth y hyt hyo] at hfd
          rw [hoth y hyt hyo] at hoy
          exact absurd (h3 other y hao (hold y hyt hy) hox hoy hfd) (fun e => hyo e.symm)
    · by_cases hxo : x = other
      · subst hxo
        rw [ho1] at hox
        cases hox
      · by_cases hyt : y = this
        · subst hyt
          rw [ht1] at hoy
          rw [ht3, hoth x hxt hxo] at hfd
          rw [hoth x hxt hxo] at hox
          exact absurd (h3 x other (hold x hxt hx) hao hox hoy hfd) hxo
        · by_cases hyo : y = other
          · subst hyo
            rw [ho1] at hoy
            cases hoy
          · rw [hoth x hxt hxo] at hox hfd
            rw [hoth y hyt hyo] at hoy hfd
            exact h3 x y (hold x hxt hx) (hold y hyt hy) hox hoy hfd
  · intro fd hfd hcl
    rw [hn] at hfd
    rw [hcc] at hcl
    obtain ⟨k, hk1, hk2, hk3⟩ := h4 fd hfd hcl
    have hkt : k ≠ this := by
      intro e
      rw [e, hat] at hk1
      cases hk1
    by_cases hko : k = other
    · subst hko
      refine ⟨this, ?_, ?_, ?_⟩
      · rw [ha this]
        simp
      · rw [ht1]
        exact hk2
      · rw [ht3]
        exact hk3
    · refine ⟨k, ?_, ?_, ?_⟩
      · rw [ha k]
        simp [hkt, hk1]
      · rw [hoth k hkt hko]
        exact hk2
      · rw [hoth k hkt hko]
        exact hk3
  · intro fd
    rw [hcc, hn]
    exact h5 fd

/-- Effect of the destructor on a handle with consistent flags. -/
theorem destruct_effect (s : State) (this : Addr)
    (hc : (s.obj this).file_.is_open = (s.obj this).is_open_) :
    (destruct this s).world.nextFd = s.world.nextFd
    ∧ (destruct this s).world.log
        = s.world.log ++ (if (s.obj this).is_open_
            then [Event.closed (s.obj this).file_.fd] else [])
    ∧ (∀ x, (destruct this s).alive x = if x = this then false else s.alive x)
    ∧ (∀ x, x ≠ this → (destruct this s).obj x = s.obj x) := by
  by_cases h1 : (s.obj this).is_open_ = true
  · have h2 : (s.obj this).file_.is_open = true := by rw [hc, h1]
    refine ⟨?_, ?_, ?_, ?_⟩
    · simp [destruct, State.setObj, State.setWorld, State.setAlive, h1, closeBuf_effect,
        close_effect]
    · simp [destruct, State.setObj, State.setWorld, State.setAlive, h1, h2,
        closeBuf_effect, close_effect]
    · intro x
      simp [destruct, State.setObj, State.setWorld, State.setAlive, h1]
    · intro x hx
      simp [destruct, State.setObj, State.setWorld, State.setAlive, hx, h1]
  · have h1f : (s.obj this).is_open_ = false := by
      cases hb : (s.obj this).is_open_
      · rfl
      · exact absurd hb h1
    have h2 : (s.obj this).file_.is_open = false := by rw [hc, h1f]
    refine ⟨?_, ?_, ?_, ?_⟩
    · simp [destruct, State.setObj, State.setWorld, State.setAlive, h1f, closeBuf_effect]
    · simp [destruct, State.setObj, State.setWorld, State.setAlive, h1f, h2,
        closeBuf_effect]
    · intro x
      simp [destruct, State.setObj, State.setWorld, State.setAlive, h1f]
    · intro x hx
      simp [destruct, State.setObj, State.setWorld, State.setAlive, hx, h1f]

/-- The invariant survives the destruction of a living handle. -/
theorem fileHandle_destruct_preserves (s : State) (this : Addr)
    (hat : s.alive this = true) (hinv : Invariant s) :
    Invariant (destruct this s) := by
  obtain ⟨h1, h2, h3, h4, h5⟩ := hinv
  obtain ⟨hn, hl, ha, hoth⟩ := destruct_effect s this (h1 this hat)
  have hcc : ∀ fd, (destruct this s).closeCount fd
      = s.closeCount fd
        + (if (s.obj this).is_open_ = true ∧ (s.obj this).file_.fd = fd then 1 else 0) := by
    intro fd
    rw [closeCount_append s _ _ hl fd]
    by_cases hop : (s.obj this).is_open_ = true
    · by_cases hfd : (s.obj this).file_.fd = fd <;> simp [hop, hfd, List.count_cons]
    · simp [hop]
  have hold : ∀ x, (destruct this s).alive x = true → x ≠ this ∧ s.alive x = true := by
    intro x hax
    rw [ha x] at hax
    by_cases hx : x = this
    · simp [hx] at hax
    · exact ⟨hx, by simpa [hx] using hax⟩
  have hsame : ∀ x, s.alive x = true → x ≠ this → (s.obj x).is_open_ = true →
      ¬ ((s.obj this).is_open_ = true ∧ (s.obj this).file_.fd = (s.obj x).file_.fd) := by
    intro x hx hxt hox hcon
    exact hxt (h3 x this hx hat hox hcon.1 hcon.2.symm)
  refine ⟨?_, ?_, ?_, ?_, ?_⟩
  · intro x hx
    obtain ⟨hxt, hx'⟩ := hold x hx
    rw [hoth x hxt]
    exact h1 x hx'
  · intro x hx hox
    obtain ⟨hxt, hx'⟩ := hold x hx
    rw [hoth x hxt] at hox ⊢
    rw [hn, hcc, if_neg (hsame x hx' hxt hox)]
    exact h2 x hx' hox
  · intro x y hx hy hox hoy hfd
    obtain ⟨hxt, hx'⟩ := hold x hx
    obtain ⟨hyt, hy'⟩ := hold y hy
    rw [hoth x hxt] at hox hfd
    rw [hoth y hyt] at hoy hfd
    exact h3 x y hx' hy' hox hoy hfd
  · intro fd hfd hcl
    rw [hn] at hfd
    rw [hcc] at hcl
    have hcl0 : s.closeCount fd = 0 := by omega
    have hnot : ¬ ((s.obj this).is_open_ = true ∧ (s.obj this).file_.fd = fd) := by
      intro hcon
      rw [if_pos hcon] at hcl
      omega
    obtain ⟨k, hk1, hk2, hk3⟩ := h4 fd hfd hcl0
    have hkt : k ≠ this := by
      intro e
      subst e
      exact hnot ⟨hk2, hk3⟩
    refine ⟨k, ?_, ?_, ?_⟩
    · rw [ha k]
      simp [hkt, hk1]
    · rw [hoth k hkt]
      exact hk2
    · rw [hoth k hkt]
      exact hk3
  · intro fd
    rw [hcc, hn]
    by_cases hcon : (s.obj this).is_open_ = true ∧ (s.obj this).file_.fd = fd
    · rw [if_pos hcon]
      have hA := h2 this hat hcon.1
      rw [hcon.2] at hA
      refine ⟨by omega, fun hle => ?_⟩
      omega
    · rw [if_neg hcon]
      exact ⟨by have := (h5 fd).1; omega, fun hle => by have := (h5 fd).2 hle; omega⟩

/-- Every step keeps the invariant. -/
theorem step_preserves_invariant (s t : State) (hst : Step s t) (hinv : Invariant s) :
    Invariant t := by
  cases hst with
  | construct this filename mode hal => exact fileHandle_construct_preserves s this filename mode hal hinv
  | write this data _ => exact write_preserves s this data hinv
  | read this _ => exact read_preserves s this hinv
  | moveConstruct this other hal hao => exact fileHandle_moveConstruct_preserves s this other hal hao hinv
  | moveAssign this other hal hao => exact fileHandle_moveAssign_preserves s this other hal hao hinv
  | destruct this hal => exact fileHandle_destruct_preserves s this hal hinv

/-- Starting states satisfy the invariant. -/
theorem initial_invariant (s : State) (h : Initial s) : Invariant s := by
  obtain ⟨ha, hn, hl⟩ := h
  refine ⟨?_, ?_, ?_, ?_, ?_⟩
  · intro x hx
    rw [ha x] at hx
    cases hx
  · intro x hx
    rw [ha x] at hx
    cases hx
  · intro x y hx
    rw [ha x] at hx
    cases hx
  · intro fd hfd
    rw [hn] at hfd
    omega
  · intro fd
    simp [State.closeCount, hl]

/-- Every state reachable from a starting state satisfies the invariant. -/
theorem reachable_invariant (s0 s : State) (h0 : Initial s0) (hr : Reachable s0 s) :
    Invariant s := by
  induction hr with
  | refl => exact initial_invariant s0 h0
  | step t u _ htu ih => exact step_preserves_invariant t u htu ih

/-- C25: for distinct handles `dst` and `src`, move-assigning `src` into `dst` closes
the descriptor that `dst` held if its stream was open, gives `dst` the former stream,
name and open flag of `src`, and leaves `src` with `is_open() == false`, a stream that
is not open and an empty name; move construction of a new handle `dst` from `src` does
the same transfer and closes nothing. -/
theorem fileHandle_move_transfers (s : State) (dst src : Addr) (hne : dst ≠ src) :
    (((moveAssign dst src s).obj dst).file_ = (s.obj src).file_
      ∧ ((moveAssign dst src s).obj dst).filename_ = (s.obj src).filename_
      ∧ is_open dst (moveAssign dst src s) = is_open src s
      ∧ is_open src (moveAssign dst src s) = false
      ∧ ((moveAssign dst src s).obj src).filename_ = ""
      ∧ ((moveAssign dst src s).obj src).file_.is_open = false
      ∧ (moveAssign dst src s).world.log
          = s.world.log ++ (if (s.obj dst).file_.is_open
              then [Event.closed (s.obj dst).file_.fd] else []))
    ∧ (((moveConstruct dst src s).obj dst).file_ = (s.obj src).file_
      ∧ ((moveConstruct dst src s).obj dst).filename_ = (s.obj src).filename_
      ∧ is_open dst (moveConstruct dst src s) = is_open src s
      ∧ is_open src (moveConstruct dst src s) = false
      ∧ ((moveConstruct dst src s).obj src).filename_ = ""
      ∧ ((moveConstruct dst src s).obj src).file_.is_open = false
      ∧ (moveConstruct dst src s).world.log = s.world.log) := by
  have hne2 : src ≠ dst := fun h => hne h.symm
  refine ⟨⟨?_, ?_, ?_, ?_, ?_, ?_, ?_⟩, ?_, ?_, ?_, ?_, ?_, ?_, ?_⟩
  · simp [moveAssign, FStream.moveAssign, State.setObj, State.setWorld, hne, hne2]
  · simp [moveAssign, FStream.moveAssign, State.setObj, State.setWorld, hne, hne2]
  · simp [moveAssign, FStream.moveAssign, State.setObj, State.setWorld, is_open, hne, hne2]
  · simp [moveAssign, FStream.moveAssign, State.setObj, State.setWorld, is_open, hne, hne2]
  · simp [moveAssign, FStream.moveAssign, State.setObj, State.setWorld, hne, hne2]
  · simp [moveAssign, FStream.moveAssign, State.setObj, State.setWorld, hne, hne2]
  · by_cases h1 : (s.obj dst).is_open_ = true <;>
      by_cases h2 : (s.obj dst).file_.is_open = true <;>
      simp [moveAssign, FStream.moveAssign, State.setObj, State.setWorld, hne, h1, h2,
        closeBuf_effect, close_effect]
  · simp [moveConstruct, FStream.moveAssign, State.setObj, State.setWorld, State.setAlive,
      hne, hne2]
  · simp [moveConstruct, FStream.moveAssign, State.setObj, State.setWorld, State.setAlive,
      hne, hne2]
  · simp [moveConstruct, FStream.moveAssign, State.setObj, State.setWorld, State.setAlive,
      is_open, hne, hne2]
  · simp [moveConstruct, FStream.moveAssign, State.setObj, State.setWorld, State.setAlive,
      is_open, hne, hne2]
  · simp [moveConstruct, FStream.moveAssign, State.setObj, State.setWorld, State.setAlive,
      hne, hne2]
  · simp [moveConstruct, FStream.moveAssign, State.setObj, State.setWorld, State.setAlive,
      hne, hne2]
  · simp [moveConstruct, FStream.moveAssign, State.setObj, State.setWorld, State.setAlive,
      FStream.closeBuf, FStream.create]

/-- C25 witness (Test 4): `fh4 = std::move(fh3)` closes the descriptor of `test4.txt`,
leaves `fh4` open on `test3.txt` and `fh3` closed with an empty name. -/
theorem fileHandle_move_transfers_witness :
    (moveAssign 4 3 test4Before).world.log
      = test4Before.world.log ++ [Event.closed 1]
    ∧ ((moveAssign 4 3 test4Before).obj 4).filename_ = "test3.txt"
    ∧ ((moveAssign 4 3 test4Before).obj 4).file_.fd = 0
    ∧ is_open 4 (moveAssign 4 3 test4Before) = true
    ∧ is_open 3 (moveAssign 4 3 test4Before) = false
    ∧ ((moveAssign 4 3 test4Before).obj 3).filename_ = "" :=
  ⟨(fileHandle_move_transfers test4Before 4 3 (by decide)).1.2.2.2.2.2.2,
   rfl, rfl, rfl,
   (fileHandle_move_transfers test4Before 4 3 (by decide)).1.2.2.2.1,
   (fileHandle_move_transfers test4Before 4 3 (by decide)).1.2.2.2.2.1⟩

/-- What `read` returns on an open handle whose stream is good, has no unflushed
output and can still deliver `c`: the characters before the first NUL when `c` contains
one, an exception when `c` is empty, and `c` itself otherwise. -/
theorem read_result (s : State) (h : Addr) (c : List Char)
    (hopen : (s.obj h).is_open_ = true) (hfail : (s.obj h).file_.fail = false)
    (heof : (s.obj h).file_.eof = false) (hpend : (s.obj h).file_.pending = [])
    (hc : FStream.remaining s.world (s.obj h).file_ = c) :
    (read h s).1
      = if (c.takeWhile (fun ch => ch != nul)).length < c.length then
          Except.ok (c.takeWhile (fun ch => ch != nul))
        else if c = [] then
          Except.error (Error.runtime_error
            ("Failed to read from file: " ++ (s.obj h).filename_))
        else Except.ok c := by
  have hfl : FStream.flush s.world (s.obj h).file_ = (s.world, (s.obj h).file_) := by
    simp [FStream.flush, hpend]
  by_cases hlt : (c.takeWhile (fun ch => ch != nul)).length < c.length
  · simp [FileHandle.read, FStream.getline, hopen, hfail, heof, hfl, hc, hlt]
  · have hall : c.takeWhile (fun ch => ch != nul) = c := by
      have hle := (List.takeWhile_prefix (fun ch => ch != nul) (l := c)).length_le
      have hlen : (c.takeWhile (fun ch => ch != nul)).length = c.length := by omega
      exact (List.takeWhile_prefix (fun ch => ch != nul)).eq_of_length hlen
    by_cases hnil : c = []
    · simp [FileHandle.read, FStream.getline, hopen, hfail, heof, hfl, hc, hnil]
    · simp [FileHandle.read, FStream.getline, hopen, hfail, heof, hfl, hc, hlt, hall,
        hnil]

/-- C23 (code at the failing inputs): on an open handle whose stream has the empty
remaining content, `read()` throws instead of returning the empty string; on an open
handle whose remaining content is `a`, NUL, `b`, `read()` returns only `a`. -/
theorem read_fails_on_empty_and_stops_at_nul :
    (is_open 1 emptyFileOpen = true
      ∧ FStream.remaining emptyFileOpen.world (emptyFileOpen.obj 1).file_ = []
      ∧ throws (read 1 emptyFileOpen).1 = true)
    ∧ (is_open 1 nulFileOpen = true
      ∧ FStream.remaining nulFileOpen.world (nulFileOpen.obj 1).file_ = ['a', nul, 'b']
      ∧ (read 1 nulFileOpen).1 = Except.ok ['a']) :=
  ⟨⟨rfl, rfl, rfl⟩, rfl, rfl, rfl⟩

/-- C24 (code at the failing inputs): the write/read round trip of Tests 1 and 2 returns
`"Hello RAII!"` for that data, but for the empty string the final `read()` throws, and
for the data `a`, NUL, `b` it returns only `a`. -/
theorem writeThenRead_fails_on_empty_and_nul :
    writeThenRead World.init "Hello RAII!".toList = Except.ok "Hello RAII!".toList
    ∧ throws (writeThenRead World.init []) = true
    ∧ writeThenRead World.init ['a', nul, 'b'] = Except.ok ['a'] :=
  ⟨rfl, rfl, rfl⟩

/-- C27: a resource is never closed twice.  In every state reachable from a starting
state, the destructor of a living handle closes its descriptor iff `is_open()` is true
and otherwise leaves the environment untouched; no descriptor has been closed more than
once; and once every handle has been destroyed, every descriptor that was opened has
been closed exactly once. -/
theorem resource_closed_exactly_once (s0 s : State) (h0 : Initial s0)
    (hr : Reachable s0 s) :
    (∀ h : Addr, s.alive h = true →
      (destruct h s).world.log
        = s.world.log ++ (if is_open h s then [Event.closed (s.obj h).file_.fd] else [])
      ∧ (is_open h s = false → (destruct h s).world = s.world))
    ∧ (∀ fd : Nat, s.closeCount fd ≤ 1)
    ∧ ((∀ h : Addr, s.alive h = false) →
        ∀ fd : Nat, fd < s.world.nextFd → s.closeCount fd = 1) := by
  obtain ⟨h1, h2, h3, h4, h5⟩ := reachable_invariant s0 s h0 hr
  refine ⟨?_, fun fd => (h5 fd).1, ?_⟩
  · intro h hal
    refine ⟨(destruct_effect s h (h1 h hal)).2.1, ?_⟩
    intro hcl
    have hcl1 : (s.obj h).is_open_ = false := hcl
    have hcl2 : (s.obj h).file_.is_open = false := by rw [h1 h hal, hcl1]
    simp [destruct, State.setObj, State.setWorld, State.setAlive, hcl1, hcl2,
      FStream.closeBuf]
  · intro hdead fd hfd
    have hle := (h5 fd).1
    have hne : s.closeCount fd ≠ 0 := by
      intro h0c
      obtain ⟨k, hk, _, _⟩ := h4 fd hfd h0c
      rw [hdead k] at hk
      cases hk
    omega

/-- C27 witness (Test 3): after `fh2 = std::move(fh1)`-style construction and the
destruction of both handles, the descriptor of `test2.txt` has been closed exactly
once. -/
theorem resource_closed_exactly_once_witness :
    test3Final.world.nextFd = 1
    ∧ test3Final.world.log = [Event.opened 0 "test2.txt", Event.closed 0]
    ∧ test3Final.closeCount 0 = 1 :=
  ⟨rfl, rfl,
   (resource_closed_exactly_once (State.init World.init) test3Final
      ⟨fun _ => rfl, rfl, rfl⟩
      (Reachable.step _ _
        (Reachable.step _ _
          (Reachable.step _ _
            (Reachable.step _ _
              (Reachable.step _ _ Reachable.refl
                (Step.construct _ 1 "test2.txt" OpenMode.write rfl))
              (Step.write _ 1 "Move test".toList rfl))
            (Step.moveConstruct _ 2 1 rfl rfl))
          (Step.destruct _ 2 rfl))
        (Step.destruct _ 1 rfl))).2.2
      (fun h => by
        have e : test3Final.alive
            = fun x => if x = 1 then false else if x = 2 then false
                else if x = 2 then true else if x = 1 then true else false := rfl
        rw [e]
        by_cases h1 : h = 1 <;> by_cases h2 : h = 2 <;> simp [h1, h2])
      0 (by decide)⟩

/-- C28: in every state reachable from a starting state through constructions, `write`,
`read`, move constructions, move assignments and destructions, a living handle with
`is_open() == true` has an open stream whose descriptor has been opened and not closed,
and no other living handle with `is_open() == true` holds the same descriptor. -/
theorem open_flag_means_exclusive_stream (s0 s : State) (h0 : Initial s0)
    (hr : Reachable s0 s) :
    ∀ h : Addr, s.alive h = true → is_open h s = true →
      (s.obj h).file_.is_open = true
      ∧ (s.obj h).file_.fd < s.world.nextFd
      ∧ s.closeCount (s.obj h).file_.fd = 0
      ∧ ∀ k : Addr, s.alive k = true → is_open k s = true →
          (s.obj k).file_.fd = (s.obj h).file_.fd → k = h := by
  obtain ⟨h1, h2, h3, _, _⟩ := reachable_invariant s0 s h0 hr
  intro h hal hop
  have hop1 : (s.obj h).is_open_ = true := hop
  refine ⟨?_, (h2 h hal hop1).1, (h2 h hal hop1).2, ?_⟩
  · rw [h1 h hal, hop1]
  · intro k hk hok hfd
    exact h3 k h hk hal hok hop1 hfd

/-- C28 witness (Test 4): after `fh4 = std::move(fh3)` the handle `fh4` is open on
descriptor 0, which has not been closed, and `fh3` is not open. -/
theorem open_flag_means_exclusive_stream_witness :
    ((moveAssign 4 3 test4Before).obj 4).file_.is_open = true
    ∧ ((moveAssign 4 3 test4Before).obj 4).file_.fd < (moveAssign 4 3 test4Before).world.nextFd
    ∧ (moveAssign 4 3 test4Before).closeCount
        ((moveAssign 4 3 test4Before).obj 4).file_.fd = 0
    ∧ is_open 3 (moveAssign 4 3 test4Before) = false :=
  ⟨(open_flag_means_exclusive_stream (State.init World.init) (moveAssign 4 3 test4Before)
      ⟨fun _ => rfl, rfl, rfl⟩
      (Reachable.step _ _
        (Reachable.step _ _
          (Reachable.step _ _
            (Reachable.step _ _ Reachable.refl
              (Step.construct _ 3 "test3.txt" OpenMode.write rfl))
            (Step.write _ 3 "Move assignment test".toList rfl))
          (Step.construct _ 4 "test4.txt" OpenMode.write rfl))
        (Step.moveAssign _ 4 3 rfl rfl))
      4 rfl rfl).1,
   (open_flag_means_exclusive_stream (State.init World.init) (moveAssign 4 3 test4Before)
      ⟨fun _ => rfl, rfl, rfl⟩
      (Reachable.step _ _
        (Reachable.step _ _
          (Reachable.step _ _
            (Reachable.step _ _ Reachable.refl
              (Step.construct _ 3 "test3.txt" OpenMode.write rfl))
            (Step.write _ 3 "Move assignment test".toList rfl))
          (Step.construct _ 4 "test4.txt" OpenMode.write rfl))
        (Step.moveAssign _ 4 3 rfl rfl))
      4 rfl rfl).2.1,
   (open_flag_means_exclusive_stream (State.init World.init) (moveAssign 4 3 test4Before)
      ⟨fun _ => rfl, rfl, rfl⟩
      (Reachable.step _ _
        (Reachable.step _ _
          (Reachable.step _ _
            (Reachable.step _ _ Reachable.refl
              (Step.construct _ 3 "test3.txt" OpenMode.write rfl))
            (Step.write _ 3 "Move assignment test".toList rfl))
          (Step.construct _ 4 "test4.txt" OpenMode.write rfl))
        (Step.moveAssign _ 4 3 rfl rfl))
      4 rfl rfl).2.2.1,
   rfl⟩

end Kata1

namespace LC207

/-- Reading a color after one color has been written. -/
theorem colorOf_set (c : List Nat) (i a j : Nat) :
    colorOf (c.set i a) j = if i = j ∧ i < c.length then a else colorOf c j := by
  unfold colorOf
  induction c generalizing i j with
  | nil => simp
  | cons x xs ih =>
      cases i with
      | zero =>
          cases j with
          | zero => simp
          | succ j => simp
      | succ i =>
          cases j with
          | zero => simp
          | succ j =>
              simp only [List.set_cons_succ, List.getD_cons_succ, List.length_cons]
              rw [ih i j]
              simp

/-- A course with a non-white color is within the vector. -/
theorem lt_length_of_colorOf_ne_zero (c : List Nat) (i : Nat) (h : colorOf c i ≠ 0) :
    i < c.length := by
  by_contra hlt
  apply h
  unfold colorOf
  rw [List.getD_eq_default]
  omega

/-- Coloring a white course removes one white course. -/
theorem whites_set_white (c : List Nat) (i a : Nat) (hi : i < c.length)
    (hw : colorOf c i = 0) (ha : a ≠ 0) : whites (c.set i a) + 1 = whites c := by
  unfold whites colorOf at *
  induction c generalizing i with
  | nil => simp at hi
  | cons x xs ih =>
      cases i with
      | zero =>
          simp at hw
          subst hw
          simp [List.count_cons, ha]
      | succ i =>
          simp only [List.getD_cons_succ] at hw
          simp only [List.length_cons] at hi
          have := ih i (by omega) hw
          simp only [List.set_cons_succ, List.count_cons]
          omega

/-- Colors that only advance do not gain white courses. -/
theorem whites_le_of_advances (c c1 : List Nat) (h : Advances c c1) :
    whites c1 ≤ whites c := by
  obtain ⟨hlen, hcol⟩ := h
  unfold whites
  induction c generalizing c1 with
  | nil =>
      cases c1 with
      | nil => simp
      | cons y ys => simp at hlen
  | cons x xs ih =>
      cases c1 with
      | nil => simp at hlen
      | cons y ys =>
          have htail := ih ys (by simpa using hlen) (fun u => by
            have := hcol (u + 1)
            simpa [colorOf] using this)
          have hhead := hcol 0
          simp only [colorOf, List.getD_cons_zero] at hhead
          simp only [List.count_cons]
          rcases hhead with h1 | ⟨h1, h2⟩
          · rw [h1]
            omega
          · rw [h1, h2]
            simp
            omega

/-- Advancing is reflexive. -/
theorem Advances.refl (c : List Nat) : Advances c c :=
  ⟨rfl, fun _ => Or.inl rfl⟩

/-- Advancing is transitive. -/
theorem Advances.trans {c c1 c2 : List Nat} (h1 : Advances c c1) (h2 : Advances c1 c2) :
    Advances c c2 := by
  refine ⟨h2.1.trans h1.1, fun u => ?_⟩
  rcases h2.2 u with e2 | ⟨e2, e3⟩
  · rcases h1.2 u with e1 | ⟨e1, e4⟩
    · exact Or.inl (e2.trans e1)
    · exact Or.inr ⟨e1, e2.trans e4⟩
  · rcases h1.2 u with e1 | ⟨e1, e4⟩
    · exact Or.inr ⟨e1 ▸ e2, e3⟩
    · rw [e4] at e2
      cases e2

/-- Valid colors stay valid when they advance. -/
theorem ColorsValid.advances {c c1 : List Nat} (hv : ColorsValid c) (h : Advances c c1) :
    ColorsValid c1 := by
  intro u
  rcases h.2 u with e | ⟨_, e⟩
  · rw [e]
    exact hv u
  · exact Or.inr (Or.inr e)

/-- Length of the graph under construction. -/
theorem pushAt_length (g : List (List Nat)) (i x : Nat) : (pushAt g i x).length = g.length := by
  simp [pushAt]

/-- Adjacency list of `u` after one `push_back`. -/
theorem pushAt_getD (g : List (List Nat)) (i x u : Nat) (hi : i < g.length) :
    (pushAt g i x).getD u [] = if u = i then g.getD i [] ++ [x] else g.getD u [] := by
  unfold pushAt
  by_cases hu : u = i
  · subst hu
    simp [List.getD_eq_getElem?_getD, List.getElem?_set, hi]
  · have hne : i ≠ u := fun e => hu e.symm
    simp [List.getD_eq_getElem?_getD, List.getElem?_set, hu, hne]

/-- Membership in the adjacency lists after folding the pairs `ps` into `g`. -/
theorem mem_foldl_pushAt (ps : List (Nat × Nat)) :
    ∀ (g : List (List Nat)), (∀ p ∈ ps, p.2 < g.length) → ∀ u w : Nat,
      (w ∈ (ps.foldl (fun g prereq => pushAt g prereq.2 prereq.1) g).getD u []
        ↔ w ∈ g.getD u [] ∨ (w, u) ∈ ps) := by
  induction ps with
  | nil =>
      intro g _ u w
      simp
  | cons p ps ih =>
      intro g hg u w
      have hp : p.2 < g.length := hg p (List.mem_cons_self _ _)
      have hrest : ∀ q ∈ ps, q.2 < (pushAt g p.2 p.1).length := by
        intro q hq
        rw [pushAt_length]
        exact hg q (List.mem_cons_of_mem _ hq)
      simp only [List.foldl_cons]
      rw [ih (pushAt g p.2 p.1) hrest u w, pushAt_getD g p.2 p.1 u hp]
      by_cases hu : u = p.2
      · subst hu
        rw [if_pos rfl]
        constructor
        · rintro (h | h)
          · rcases List.mem_append.mp h with h | h
            · exact Or.inl h
            · have hw : w = p.1 := List.mem_singleton.mp h
              exact Or.inr (List.mem_cons.mpr (Or.inl (by rw [hw])))
          · exact Or.inr (List.mem_cons_of_mem _ h)
        · rintro (h | h)
          · exact Or.inl (List.mem_append.mpr (Or.inl h))
          · rcases List.mem_cons.mp h with h | h
            · have hw : w = p.1 := congrArg Prod.fst h
              exact Or.inl (List.mem_append.mpr (Or.inr (List.mem_singleton.mpr hw)))
            · exact Or.inr h
      · rw [if_neg hu]
        constructor
        · rintro (h | h)
          · exact Or.inl h
          · exact Or.inr (List.mem_cons_of_mem _ h)
        · rintro (h | h)
          · exact Or.inl h
          · rcases List.mem_cons.mp h with h | h
            · exact absurd (congrArg Prod.snd h) hu
            · exact Or.inr h

/-- The adjacency list of `u` in the built graph holds exactly the courses that have `u`
as a prerequisite. -/
theorem mem_buildGraph (n : Nat) (ps : List (Nat × Nat))
    (hps : ∀ p ∈ ps, p.1 < n ∧ p.2 < n) (u w : Nat) :
    w ∈ (buildGraph n ps).getD u [] ↔ Edge ps u w := by
  unfold buildGraph Edge
  rw [mem_foldl_pushAt ps (List.replicate n []) (by
    intro p hp
    simpa using (hps p hp).2) u w]
  constructor
  · rintro (h | h)
    · exfalso
      by_cases hu : u < n
      · simp [List.getD_eq_getElem?_getD, List.getElem?_replicate, hu] at h
      · simp [List.getD_eq_getElem?_getD, List.getElem?_replicate, hu] at h
    · exact h
  · intro h
    exact Or.inr h

/-- Both ends of an edge are courses below `n`. -/
theorem edge_lt (n : Nat) (ps : List (Nat × Nat)) (hps : ∀ p ∈ ps, p.1 < n ∧ p.2 < n)
    (u w : Nat) (h : Edge ps u w) : u < n ∧ w < n := by
  have := hps (w, u) h
  exact ⟨this.2, this.1⟩

/-- Everything reachable from a black course is black when black is closed under
edges. -/
theorem black_reach (ps : List (Nat × Nat)) (c : List Nat) (hbc : BlackClosed ps c)
    (w x : Nat) (hw : colorOf c w = 2) (hr : Relation.ReflTransGen (Edge ps) w x) :
    colorOf c x = 2 := by
  induction hr with
  | refl => exact hw
  | tail _ hyz ih => exact hbc _ _ ih hyz

/-- Specification of the neighbor loop of the course `v`, given the specification of the
recursive call. -/
theorem forNeighbors_spec (n : Nat) (ps : List (Nat × Nat)) (fuel v : Nat)
    (hps : ∀ p ∈ ps, p.1 < n ∧ p.2 < n)
    (ih : ∀ (c : List Nat) (w : Nat), c.length = n → w < n → ColorsValid c →
      whites c < fuel → BlackClosed ps c → BlackAcyclic ps c →
      (∀ g, colorOf c g = 1 → Relation.TransGen (Edge ps) g w) →
      ∃ b c1, hasCycle (buildGraph n ps) fuel c w = some (b, c1)
        ∧ (b = true → HasDirectedCycle ps)
        ∧ (b = false → Advances c c1 ∧ colorOf c1 w = 2
            ∧ BlackClosed ps c1 ∧ BlackAcyclic ps c1)) :
    ∀ (l : List Nat) (c : List Nat), (∀ w ∈ l, Edge ps v w) → c.length = n →
      ColorsValid c → whites c < fuel → BlackClosed ps c → BlackAcyclic ps c →
      (∀ g, colorOf c g = 1 → Relation.ReflTransGen (Edge ps) g v) →
      ∃ b c1, forNeighbors (hasCycle (buildGraph n ps) fuel) l c = some (b, c1)
        ∧ (b = true → HasDirectedCycle ps)
        ∧ (b = false → Advances c c1 ∧ (∀ w ∈ l, colorOf c1 w = 2)
            ∧ BlackClosed ps c1 ∧ BlackAcyclic ps c1) := by
  intro l
  induction l with
  | nil =>
      intro c _ _ _ _ hbc hba _
      exact ⟨false, c, rfl, (fun h => by cases h),
        fun _ => ⟨Advances.refl c, (fun w hw => by cases hw), hbc, hba⟩⟩
  | cons w rest ihl =>
      intro c hE hlen hv hwh hbc hba hgray
      have hEw : Edge ps v w := hE w (List.mem_cons_self _ _)
      have hwn : w < n := (edge_lt n ps hps v w hEw).2
      obtain ⟨b, c1, hrun, hT, hF⟩ := ih c w hlen hwn hv hwh hbc hba
        (fun g hg => Relation.TransGen.tail' (hgray g hg) hEw)
      cases b with
      | true =>
          refine ⟨true, c1, ?_, (fun _ => hT rfl), (fun h => by cases h)⟩
          simp [forNeighbors, hrun]
      | false =>
          obtain ⟨hadv, hwb, hbc1, hba1⟩ := hF rfl
          have hgray1 : ∀ g, colorOf c1 g = 1 →
              Relation.ReflTransGen (Edge ps) g v := by
            intro g hg
            rcases hadv.2 g with e | ⟨_, e⟩
            · exact hgray g (e ▸ hg)
            · rw [e] at hg
              cases hg
          obtain ⟨b2, c2, hrun2, hT2, hF2⟩ := ihl c1
            (fun x hx => hE x (List.mem_cons_of_mem _ hx))
            (hadv.1.trans hlen) (hv.advances hadv)
            (Nat.lt_of_le_of_lt (whites_le_of_advances c c1 hadv) hwh) hbc1 hba1 hgray1
          refine ⟨b2, c2, ?_, hT2, ?_⟩
          · simp [forNeighbors, hrun, hrun2]
          · intro hb2
            obtain ⟨hadv2, hall, hbc2, hba2⟩ := hF2 hb2
            refine ⟨hadv.trans hadv2, ?_, hbc2, hba2⟩
            intro x hx
            rcases List.mem_cons.mp hx with hx | hx
            · subst hx
              rcases hadv2.2 x with e | ⟨_, e⟩
              · rw [e]
                exact hwb
              · exact e
            · exact hall x hx

/-- Specification of `hasCycle`: with more fuel than white courses, on valid colors
whose black courses are closed and acyclic and whose gray courses all reach `v` through
at least one edge, the call returns; `true` only if there is a directed cycle; and on
`false` the colors have advanced, `v` is black and black is still closed and acyclic. -/
theorem hasCycle_spec (n : Nat) (ps : List (Nat × Nat))
    (hps : ∀ p ∈ ps, p.1 < n ∧ p.2 < n) :
    ∀ (fuel : Nat) (c : List Nat) (v : Nat), c.length = n → v < n → ColorsValid c →
      whites c < fuel → BlackClosed ps c → BlackAcyclic ps c →
      (∀ g, colorOf c g = 1 → Relation.TransGen (Edge ps) g v) →
      ∃ b c1, hasCycle (buildGraph n ps) fuel c v = some (b, c1)
        ∧ (b = true → HasDirectedCycle ps)
        ∧ (b = false → Advances c c1 ∧ colorOf c1 v = 2
            ∧ BlackClosed ps c1 ∧ BlackAcyclic ps c1) := by
  intro fuel
  induction fuel with
  | zero =>
      intro c v _ _ _ hwh
      omega
  | succ fuel ihf =>
      intro c v hlen hvn hv hwh hbc hba hgray
      by_cases h1 : colorOf c v = 1
      · refine ⟨true, c, ?_, (fun _ => ⟨v, hgray v h1⟩), (fun h => by cases h)⟩
        simp [hasCycle, h1]
      · by_cases h2 : colorOf c v = 2
        · refine ⟨false, c, ?_, (fun h => by cases h),
            (fun _ => ⟨Advances.refl c, h2, hbc, hba⟩)⟩
          simp [hasCycle, h2]
        · have h0 : colorOf c v = 0 := by
            rcases hv v with e | e | e
            · exact e
            · exact absurd e h1
            · exact absurd e h2
          have hvl : v < c.length := by omega
          have hcol1 : ∀ u, colorOf (c.set v 1) u = if v = u then 1 else colorOf c u := by
            intro u
            rw [colorOf_set]
            by_cases e : v = u
            · subst e
              simp [hvl]
            · simp [e]
          have hblack1 : ∀ u, colorOf (c.set v 1) u = 2 ↔ colorOf c u = 2 := by
            intro u
            rw [hcol1 u]
            by_cases e : v = u
            · subst e
              simp [h0]
            · simp [e]
          have hwh1 : whites (c.set v 1) < fuel := by
            have := whites_set_white c v 1 hvl h0 (by decide)
            omega
          have hv1 : ColorsValid (c.set v 1) := by
            intro u
            rw [hcol1 u]
            by_cases e : v = u
            · simp [e]
            · simp only [if_neg e]
              exact hv u
          have hbc1 : BlackClosed ps (c.set v 1) := by
            intro u w hu hE
            rw [hblack1] at hu ⊢
            exact hbc u w hu hE
          have hba1 : BlackAcyclic ps (c.set v 1) := by
            intro u hu
            rw [hblack1] at hu
            exact hba u hu
          have hgray1 : ∀ g, colorOf (c.set v 1) g = 1 →
              Relation.ReflTransGen (Edge ps) g v := by
            intro g hg
            rw [hcol1 g] at hg
            by_cases e : v = g
            · subst e
              exact Relation.ReflTransGen.refl
            · rw [if_neg e] at hg
              exact (hgray g hg).to_reflTransGen
          obtain ⟨b, c2, hrun, hT, hF⟩ := forNeighbors_spec n ps fuel v hps
            (fun c' w' => ihf c' w') ((buildGraph n ps).getD v []) (c.set v 1)
            (fun w hw => (mem_buildGraph n ps hps v w).mp hw)
            (by simpa using hlen) hv1 hwh1 hbc1 hba1 hgray1
          cases b with
          | true =>
              refine ⟨true, c2, ?_, (fun _ => hT rfl), (fun h => by cases h)⟩
              rw [hasCycle, if_neg h1, if_neg h2, hrun]
          | false =>
              obtain ⟨hadv, hnb, hbc2, hba2⟩ := hF rfl
              have hc2v : colorOf c2 v = 1 := by
                rcases hadv.2 v with e | ⟨e, _⟩
                · rw [e, hcol1 v]
                  simp
                · rw [hcol1 v] at e
                  simp at e
              have hvl2 : v < c2.length := by
                rw [hadv.1]
                simpa using hvl
              have hcol3 : ∀ u, colorOf (c2.set v 2) u
                  = if v = u then 2 else colorOf c2 u := by
                intro u
                rw [colorOf_set]
                by_cases e : v = u
                · subst e
                  simp [hvl2]
                · simp [e]
              refine ⟨false, c2.set v 2, ?_, (fun h => by cases h), fun _ => ?_⟩
              · rw [hasCycle, if_neg h1, if_neg h2, hrun]
              · refine ⟨⟨?_, ?_⟩, ?_, ?_, ?_⟩
                · rw [List.length_set, hadv.1, List.length_set]
                · intro u
                  rw [hcol3 u]
                  by_cases e : v = u
                  · subst e
                    exact Or.inr ⟨h0, by simp⟩
                  · rw [if_neg e]
                    rcases hadv.2 u with e2 | ⟨e2, e3⟩
                    · rw [hcol1 u, if_neg e] at e2
                      exact Or.inl e2
                    · rw [hcol1 u, if_neg e] at e2
                      exact Or.inr ⟨e2, e3⟩
                · rw [hcol3 v]
                  simp
                · intro u w hu hE
                  rw [hcol3 w]
                  rw [hcol3 u] at hu
                  by_cases e : v = u
                  · subst e
                    have hwb : colorOf c2 w = 2 :=
                      hnb w ((mem_buildGraph n ps hps v w).mpr hE)
                    by_cases e2 : v = w
                    · simp [e2]
                    · rw [if_neg e2]
                      exact hwb
                  · rw [if_neg e] at hu
                    have hwb : colorOf c2 w = 2 := hbc2 u w hu hE
                    by_cases e2 : v = w
                    · simp [e2]
                    · rw [if_neg e2]
                      exact hwb
                · intro u hu hcyc
                  rw [hcol3 u] at hu
                  by_cases e : v = u
                  · subst e
                    obtain ⟨w, hE, hr⟩ := Relation.TransGen.head'_iff.mp hcyc
                    have hwb : colorOf c2 w = 2 :=
                      hnb w ((mem_buildGraph n ps hps v w).mpr hE)
                    have := black_reach ps c2 hbc2 w v hwb hr
                    rw [hc2v] at this
                    cases this
                  · rw [if_neg e] at hu
                    exact hba2 u hu hcyc

/-- Specification of the outer loop: on colors without gray courses it returns; `false`
only if there is a directed cycle; and on `true` every course of the list is black in
colors whose black courses lie on no cycle. -/
theorem checkAll_spec (n : Nat) (ps : List (Nat × Nat))
    (hps : ∀ p ∈ ps, p.1 < n ∧ p.2 < n) :
    ∀ (l : List Nat) (c : List Nat), (∀ i ∈ l, i < n) → c.length = n →
      (∀ u, colorOf c u = 0 ∨ colorOf c u = 2) →
      BlackClosed ps c → BlackAcyclic ps c →
      ∃ b, checkAll (buildGraph n ps) (n + 1) l c = some b
        ∧ (b = false → HasDirectedCycle ps)
        ∧ (b = true → ∃ c1, Advances c c1 ∧ (∀ i ∈ l, colorOf c1 i = 2)
            ∧ BlackAcyclic ps c1) := by
  intro l
  induction l with
  | nil =>
      intro c _ _ _ _ hba
      exact ⟨true, rfl, (fun h => by cases h),
        fun _ => ⟨c, Advances.refl c, (fun i hi => by cases hi), hba⟩⟩
  | cons i rest ihl =>
      intro c hl hlen hng hbc hba
      have hin : i < n := hl i (List.mem_cons_self _ _)
      have hrest : ∀ j ∈ rest, j < n := fun j hj => hl j (List.mem_cons_of_mem _ hj)
      by_cases h0 : colorOf c i = 0
      · have hv : ColorsValid c := by
          intro u
          rcases hng u with e | e
          · exact Or.inl e
          · exact Or.inr (Or.inr e)
        have hwh : whites c < n + 1 := by
          have : whites c ≤ c.length := List.count_le_length _ _
          omega
        obtain ⟨b, c1, hrun, hT, hF⟩ := hasCycle_spec n ps hps (n + 1) c i hlen hin hv hwh
          hbc hba (fun g hg => by
            rcases hng g with e | e
            · rw [e] at hg
              cases hg
            · rw [e] at hg
              cases hg)
        cases b with
        | true =>
            refine ⟨false, ?_, (fun _ => hT rfl), (fun h => by cases h)⟩
            simp [checkAll, h0, hrun]
        | false =>
            obtain ⟨hadv, hib, hbc1, hba1⟩ := hF rfl
            have hng1 : ∀ u, colorOf c1 u = 0 ∨ colorOf c1 u = 2 := by
              intro u
              rcases hadv.2 u with e | ⟨_, e⟩
              · rw [e]
                exact hng u
              · exact Or.inr e
            obtain ⟨b2, hrun2, hT2, hF2⟩ := ihl c1 hrest (hadv.1.trans hlen) hng1 hbc1 hba1
            refine ⟨b2, ?_, hT2, ?_⟩
            · simp [checkAll, h0, hrun, hrun2]
            · intro hb2
              obtain ⟨c2, hadv2, hall, hba2⟩ := hF2 hb2
              refine ⟨c2, hadv.trans hadv2, ?_, hba2⟩
              intro j hj
              rcases List.mem_cons.mp hj with hj | hj
              · subst hj
                rcases hadv2.2 j with e | ⟨_, e⟩
                · rw [e]
                  exact hib
                · exact e
              · exact hall j hj
      · have h2 : colorOf c i = 2 := by
          rcases hng i with e | e
          · exact absurd e h0
          · exact e
        obtain ⟨b2, hrun2, hT2, hF2⟩ := ihl c hrest hlen hng hbc hba
        refine ⟨b2, ?_, hT2, ?_⟩
        · simp [checkAll, h0, hrun2]
        · intro hb2
          obtain ⟨c2, hadv2, hall, hba2⟩ := hF2 hb2
          refine ⟨c2, hadv2, ?_, hba2⟩
          intro j hj
          rcases List.mem_cons.mp hj with hj | hj
          · subst hj
            rcases hadv2.2 j with e | ⟨_, e⟩
            · rw [e]
              exact h2
            · exact e
          · exact hall j hj

/-- Reading the initial color vector: every course is white. -/
theorem colorOf_replicate (n u : Nat) : colorOf (List.replicate n 0) u = 0 := by
  unfold colorOf
  by_cases h : u < n
  · simp [List.getD_eq_getElem?_getD, List.getElem?_replicate, h]
  · simp [List.getD_eq_getElem?_getD, List.getElem?_replicate, h]

/-- C30: for every number of courses and every list of pairs `[course, prerequisite]`
with both entries below `numCourses`, `canFinish` returns, and it returns `true` if and
only if the directed graph with an edge `prerequisite → course` for each pair has no
directed cycle (a pair `[a, a]` is a cycle). -/
theorem canFinish_iff_acyclic (numCourses : Nat) (prerequisites : List (Nat × Nat))
    (hps : ∀ p ∈ prerequisites, p.1 < numCourses ∧ p.2 < numCourses) :
    (canFinish numCourses prerequisites = some true
      ∨ canFinish numCourses prerequisites = some false)
    ∧ (canFinish numCourses prerequisites = some true
        ↔ ¬ HasDirectedCycle prerequisites)
    ∧ (canFinish numCourses prerequisites = some false
        ↔ HasDirectedCycle prerequisites) := by
  obtain ⟨b, hrun, hF, hT⟩ := checkAll_spec numCourses prerequisites hps
    (List.range numCourses) (List.replicate numCourses 0)
    (fun i hi => List.mem_range.mp hi) (by simp)
    (fun u => Or.inl (colorOf_replicate numCourses u))
    (fun u w hu _ => by
      rw [colorOf_replicate] at hu
      cases hu)
    (fun u hu => by
      rw [colorOf_replicate] at hu
      cases hu)
  have hrun' : canFinish numCourses prerequisites = some b := hrun
  cases b with
  | true =>
      obtain ⟨c1, _, hall, hba⟩ := hT rfl
      have hacyc : ¬ HasDirectedCycle prerequisites := by
        rintro ⟨v, hv⟩
        obtain ⟨w, hE, _⟩ := Relation.TransGen.head'_iff.mp hv
        have hvn : v < numCourses := (edge_lt numCourses prerequisites hps v w hE).1
        exact hba v (hall v (List.mem_range.mpr hvn)) hv
      refine ⟨Or.inl hrun', ?_, ?_⟩
      · exact ⟨fun _ => hacyc, fun _ => hrun'⟩
      · constructor
        · intro h
          rw [hrun'] at h
          cases h
        · intro h
          exact absurd h hacyc
  | false =>
      have hcyc : HasDirectedCycle prerequisites := hF rfl
      refine ⟨Or.inr hrun', ?_, ?_⟩
      · constructor
        · intro h
          rw [hrun'] at h
          cases h
        · intro h
          exact absurd hcyc h
      · exact ⟨fun _ => hcyc, fun _ => hrun'⟩

/-- C30 witness (Test Cases 1, 2 and 5, and a self-prerequisite): `{{1,0}}` on 2 courses
is `true`; `{{1,0},{0,1}}` and `{{1,0},{2,1},{0,2}}` are `false`; so is `{{1,1}}`. -/
theorem canFinish_iff_acyclic_witness :
    canFinish 2 [(1, 0)] = some true
    ∧ ¬ HasDirectedCycle [(1, 0)]
    ∧ canFinish 2 [(1, 0), (0, 1)] = some false
    ∧ canFinish 3 [(1, 0), (2, 1), (0, 2)] = some false
    ∧ HasDirectedCycle [(1, 0), (2, 1), (0, 2)]
    ∧ canFinish 2 [(1, 1)] = some false :=
  ⟨by decide,
   ((canFinish_iff_acyclic 2 [(1, 0)] (by decide)).2.1).mp (by decide),
   by decide, by decide,
   ((canFinish_iff_acyclic 3 [(1, 0), (2, 1), (0, 2)] (by decide)).2.2).mp (by decide),
   by decide⟩

end LC207

namespace LC200

theorem Adjacent.swap {p q : Cell} (h : Adjacent p q) : Adjacent q p := by
  rcases p with ⟨a, b⟩
  rcases q with ⟨c, d⟩
  simp only [Adjacent, Prod.mk.injEq] at h ⊢
  omega

theorem StepIn.back {P : Cell → Prop} {p q : Cell} (h : StepIn P p q) : StepIn P q p :=
  ⟨h.2.1, h.1, h.2.2.swap⟩

theorem ConnIn.self {P : Cell → Prop} {p : Cell} (h : P p) : ConnIn P p p :=
  ⟨h, Relation.ReflTransGen.refl⟩

theorem ConnIn.right {P : Cell → Prop} {p q : Cell} (h : ConnIn P p q) : P q := by
  rcases h with ⟨hp, h⟩
  induction h with
  | refl => exact hp
  | tail _ hs _ => exact hs.2.1

theorem ConnIn.append {P : Cell → Prop} {p q r : Cell} (h1 : ConnIn P p q)
    (h2 : ConnIn P q r) : ConnIn P p r :=
  ⟨h1.1, h1.2.trans h2.2⟩

theorem ConnIn.tail {P : Cell → Prop} {p q r : Cell} (h1 : ConnIn P p q)
    (h2 : StepIn P q r) : ConnIn P p r :=
  ⟨h1.1, h1.2.tail h2⟩

theorem ConnIn.reverse {P : Cell → Prop} {p q : Cell} (h : ConnIn P p q) : ConnIn P q p := by
  refine ⟨h.right, ?_⟩
  rcases h with ⟨_, h⟩
  induction h with
  | refl => exact Relation.ReflTransGen.refl
  | tail _ hs ih => exact Relation.ReflTransGen.head hs.back ih

theorem ConnIn.mono {P Q : Cell → Prop} (hPQ : ∀ x, P x → Q x) {p q : Cell}
    (h : ConnIn P p q) : ConnIn Q p q := by
  refine ⟨hPQ _ h.1, ?_⟩
  rcases h with ⟨_, h⟩
  induction h with
  | refl => exact Relation.ReflTransGen.refl
  | tail _ hs ih => exact ih.tail ⟨hPQ _ hs.1, hPQ _ hs.2.1, hs.2.2⟩

theorem ConnIn.congr {P Q : Cell → Prop} (hPQ : ∀ x, P x ↔ Q x) (p q : Cell) :
    ConnIn P p q ↔ ConnIn Q p q :=
  ⟨ConnIn.mono (fun x => (hPQ x).1), ConnIn.mono (fun x => (hPQ x).2)⟩

/-- Removing whole components leaves the other components as they were. -/
theorem connIn_remove (P S : Cell → Prop) (x q : Cell) :
    ConnIn (fun y => P y ∧ ∀ a, S a → ¬ ConnIn P a y) x q
      ↔ ConnIn P x q ∧ ∀ a, S a → ¬ ConnIn P a x := by
  constructor
  · intro h
    exact ⟨h.mono (fun _ hy => hy.1), h.1.2⟩
  · rintro ⟨h, hx⟩
    have key : ∀ y, ConnIn P x y → ∀ a, S a → ¬ ConnIn P a y :=
      fun y hy a ha hay => hx a ha (hay.append hy.reverse)
    refine ⟨⟨h.1, hx⟩, ?_⟩
    have hP := h.1
    rcases h with ⟨_, h⟩
    induction h with
    | refl => exact Relation.ReflTransGen.refl
    | @tail b c hb hs ih =>
      exact ih.tail ⟨⟨hs.1, key b ⟨hP, hb⟩⟩, ⟨hs.2.1, key c ⟨hP, hb.tail hs⟩⟩, hs.2.2⟩

/-- A cell reached from `p` is `p` itself or is reached from a neighbour of `p` without
passing through `p`. -/
theorem connIn_split (P : Cell → Prop) (p q : Cell) (h : ConnIn P p q) :
    q = p ∨ ∃ n, Adjacent p n ∧ ConnIn (fun y => P y ∧ y ≠ p) n q := by
  rcases h with ⟨_, h⟩
  induction h with
  | refl => exact Or.inl rfl
  | @tail b c _ hs ih =>
    by_cases hc : c = p
    · exact Or.inl hc
    · right
      rcases ih with hb | ⟨n, hn, hnb⟩
      · subst hb
        exact ⟨c, hs.2.2, ConnIn.self ⟨hs.2.1, hc⟩⟩
      · exact ⟨n, hn, hnb.tail ⟨hnb.right, ⟨hs.2.1, hc⟩, hs.2.2⟩⟩

theorem SunkBy.solid {g g1 : Grid} {S : Cell → Prop} (h : SunkBy g g1 S) (q : Cell) :
    Solid g1 q ↔ Solid g q ∧ ∀ a, S a → ¬ ConnIn (Solid g) a q := by
  by_cases hq : ∃ a, S a ∧ ConnIn (Solid g) a q
  · have h0 := (h q).1 hq
    constructor
    · rintro ⟨ch, hch, hne⟩
      rw [h0] at hch
      cases hch
      exact absurd rfl hne
    · rintro ⟨_, hno⟩
      rcases hq with ⟨a, ha, hc⟩
      exact absurd hc (hno a ha)
  · have h0 := (h q).2 hq
    constructor
    · rintro ⟨ch, hch, hne⟩
      exact ⟨⟨ch, h0 ▸ hch, hne⟩, fun a ha hc => hq ⟨a, ha, hc⟩⟩
    · rintro ⟨⟨ch, hch, hne⟩, _⟩
      exact ⟨ch, h0.symm ▸ hch, hne⟩

theorem SunkBy.of_not_solid {g : Grid} {S : Cell → Prop} (h : ∀ a, S a → ¬ Solid g a) :
    SunkBy g g S := by
  intro q
  refine ⟨?_, fun _ => rfl⟩
  rintro ⟨a, ha, hc⟩
  exact absurd hc.1 (h a ha)

theorem SunkBy.seeds {g g1 : Grid} {S T : Cell → Prop} (hST : ∀ a, S a ↔ T a)
    (h : SunkBy g g1 S) : SunkBy g g1 T := by
  intro q
  have e : (∃ a, T a ∧ ConnIn (Solid g) a q) ↔ ∃ a, S a ∧ ConnIn (Solid g) a q :=
    exists_congr (fun a => and_congr_left (fun _ => (hST a).symm))
  rw [e]
  exact h q

theorem SunkBy.comp {g g1 g2 : Grid} {S T : Cell → Prop} (h1 : SunkBy g g1 S)
    (h2 : SunkBy g1 g2 T) : SunkBy g g2 (fun a => S a ∨ T a) := by
  have hrem : ∀ x q, ConnIn (Solid g1) x q
      ↔ ConnIn (Solid g) x q ∧ ∀ a, S a → ¬ ConnIn (Solid g) a x := by
    intro x q
    rw [ConnIn.congr (fun y => h1.solid y) x q]
    exact connIn_remove (Solid g) S x q
  intro q
  by_cases hT : ∃ a, T a ∧ ConnIn (Solid g1) a q
  · have h0 := (h2 q).1 hT
    refine ⟨fun _ => h0, fun hno => ?_⟩
    rcases hT with ⟨a, ha, hc⟩
    exact absurd ⟨a, Or.inr ha, ((hrem a q).1 hc).1⟩ hno
  · have h0 := (h2 q).2 hT
    by_cases hS : ∃ a, S a ∧ ConnIn (Solid g) a q
    · have h00 := (h1 q).1 hS
      refine ⟨fun _ => h0.trans h00, fun hno => ?_⟩
      rcases hS with ⟨a, ha, hc⟩
      exact absurd ⟨a, Or.inl ha, hc⟩ hno
    · have h00 := (h1 q).2 hS
      refine ⟨?_, fun _ => h0.trans h00⟩
      rintro ⟨a, ha | ha, hc⟩
      · exact absurd ⟨a, ha, hc⟩ hS
      · refine absurd ⟨a, ha, (hrem a q).2 ⟨hc, fun s hs hsa => ?_⟩⟩ hT
        exact hS ⟨s, hs, hsa.append hc⟩

/-- One call of the body of `dfs` on a cell other than `'0'`: writing `'0'` and sinking
from the four neighbours sinks exactly what is reached from the cell. -/
theorem SunkBy.of_neighbours {g g1 g5 : Grid} {p : Cell} (hp : Solid g p)
    (hw : ∀ q : Cell, (q = p → readCell g1 q.1 q.2 = Except.ok '0')
      ∧ (q ≠ p → readCell g1 q.1 q.2 = readCell g q.1 q.2))
    (h : SunkBy g1 g5 (Adjacent p)) : SunkBy g g5 (fun a => a = p) := by
  have hs1 : ∀ y, Solid g1 y ↔ Solid g y ∧ y ≠ p := by
    intro y
    by_cases hy : y = p
    · constructor
      · rintro ⟨ch, hch, hne⟩
        rw [(hw y).1 hy] at hch
        cases hch
        exact absurd rfl hne
      · rintro ⟨_, hne⟩
        exact absurd hy hne
    · have e := (hw y).2 hy
      constructor
      · rintro ⟨ch, hch, hne⟩
        exact ⟨⟨ch, e ▸ hch, hne⟩, hy⟩
      · rintro ⟨⟨ch, hch, hne⟩, _⟩
        exact ⟨ch, e.symm ▸ hch, hne⟩
  have lift : ∀ n q, Adjacent p n → ConnIn (Solid g1) n q → ConnIn (Solid g) p q := by
    intro n q hn hc
    have hc1 : ConnIn (Solid g) n q := hc.mono (fun y hy => ((hs1 y).1 hy).1)
    exact (ConnIn.tail (ConnIn.self hp) ⟨hp, hc1.1, hn⟩).append hc1
  intro q
  by_cases hN : ∃ n, Adjacent p n ∧ ConnIn (Solid g1) n q
  · have h0 := (h q).1 hN
    refine ⟨fun _ => h0, fun hno => ?_⟩
    rcases hN with ⟨n, hn, hc⟩
    exact absurd ⟨p, rfl, lift n q hn hc⟩ hno
  · have h0 := (h q).2 hN
    by_cases hq : q = p
    · refine ⟨fun _ => h0.trans ((hw q).1 hq), fun hno => ?_⟩
      exact absurd ⟨p, rfl, hq.symm ▸ ConnIn.self hp⟩ hno
    · refine ⟨?_, fun _ => h0.trans ((hw q).2 hq)⟩
      rintro ⟨a, ha, hc⟩
      subst ha
      rcases connIn_split (Solid g) a q hc with e | ⟨n, hn, hc1⟩
      · exact absurd e hq
      · exact absurd ⟨n, hn, (ConnIn.congr hs1 n q).2 hc1⟩ hN

theorem readCell_eq_ok {g : Grid} {r c : Int} {ch : Char} :
    readCell g r c = Except.ok ch
      ↔ 0 ≤ r ∧ 0 ≤ c ∧ ∃ row, g[r.toNat]? = some row ∧ row[c.toNat]? = some ch := by
  unfold readCell
  by_cases h : r < 0 ∨ c < 0
  · rw [if_pos h]
    constructor
    · intro h1
      cases h1
    · rintro ⟨h1, h2, _⟩
      omega
  · rw [if_neg h]
    have h1 : 0 ≤ r := by omega
    have h2 : 0 ≤ c := by omega
    cases hg : g[r.toNat]? with
    | none => simp
    | some row =>
      cases hrow : row[c.toNat]? with
      | none => simp [hrow]
      | some x => simp [hrow, h1, h2]

theorem writeCell_eq_ok {g g1 : Grid} {r c : Int} {ch : Char} :
    writeCell g r c ch = Except.ok g1
      ↔ 0 ≤ r ∧ 0 ≤ c ∧ ∃ row, g[r.toNat]? = some row ∧ c.toNat < row.length
          ∧ g1 = g.set r.toNat (row.set c.toNat ch) := by
  unfold writeCell
  by_cases h : r < 0 ∨ c < 0
  · rw [if_pos h]
    constructor
    · intro h1
      cases h1
    · rintro ⟨h1, h2, _⟩
      omega
  · rw [if_neg h]
    have h1 : 0 ≤ r := by omega
    have h2 : 0 ≤ c := by omega
    cases hg : g[r.toNat]? with
    | none => simp
    | some row =>
      by_cases hl : c.toNat < row.length
      · simp only [hl, if_true]
        constructor
        · intro e
          cases e
          exact ⟨h1, h2, row, rfl, hl, rfl⟩
        · rintro ⟨_, _, row1, e, _, e2⟩
          cases e
          rw [e2]
      · simp only [hl, if_false]
        constructor
        · intro e
          cases e
        · rintro ⟨_, _, row1, e, hl1, _⟩
          cases e
          exact absurd hl1 hl

theorem countP_set_zero (row : List Char) (j : Nat) (x : Char) (hx : row[j]? = some x)
    (hne : x ≠ '0') :
    (row.set j '0').countP (fun ch => ch != '0') + 1 = row.countP (fun ch => ch != '0') := by
  induction row generalizing j with
  | nil => simp at hx
  | cons a l ih =>
    cases j with
    | zero =>
      simp only [List.getElem?_cons_zero, Option.some.injEq] at hx
      subst hx
      simp [List.countP_cons, hne]
    | succ j =>
      simp only [List.getElem?_cons_succ] at hx
      have := ih j hx
      simp only [List.set_cons_succ, List.countP_cons]
      omega

theorem sum_map_set (f : List Char → Nat) (g : Grid) (i : Nat) (row row1 : List Char)
    (hrow : g[i]? = some row) :
    ((g.set i row1).map f).sum + f row = (g.map f).sum + f row1 := by
  induction g generalizing i with
  | nil => simp at hrow
  | cons a l ih =>
    cases i with
    | zero =>
      simp only [List.getElem?_cons_zero, Option.some.injEq] at hrow
      subst hrow
      simp only [List.set_cons_zero, List.map_cons, List.sum_cons]
      omega
    | succ i =>
      simp only [List.getElem?_cons_succ] at hrow
      have := ih i hrow
      simp only [List.set_cons_succ, List.map_cons, List.sum_cons]
      omega

theorem Dim.readCell_ok {g : Grid} {rows cols : Nat} (hd : Dim g rows cols) {r c : Int}
    (hr : 0 ≤ r) (hr1 : r < rows) (hc : 0 ≤ c) (hc1 : c < cols) :
    ∃ ch, readCell g r c = Except.ok ch := by
  have h1 : r.toNat < g.length := by rw [hd.1]; omega
  have hm : g[r.toNat] ∈ g := List.getElem_mem h1
  have h2 : c.toNat < (g[r.toNat]).length := by rw [hd.2 _ hm]; omega
  exact ⟨(g[r.toNat])[c.toNat], readCell_eq_ok.2
    ⟨hr, hc, g[r.toNat], List.getElem?_eq_getElem h1, List.getElem?_eq_getElem h2⟩⟩

theorem Dim.of_readCell {g : Grid} {rows cols : Nat} (hd : Dim g rows cols) {r c : Int}
    {ch : Char} (h : readCell g r c = Except.ok ch) :
    0 ≤ r ∧ r < rows ∧ 0 ≤ c ∧ c < cols := by
  rcases readCell_eq_ok.1 h with ⟨hr, hc, row, hrow, hch⟩
  have h1 : r.toNat < g.length := (List.getElem?_eq_some_iff.1 hrow).1
  have hm : row ∈ g := List.getElem?_mem hrow
  have h2 : c.toNat < row.length := (List.getElem?_eq_some_iff.1 hch).1
  rw [hd.2 _ hm] at h2
  rw [hd.1] at h1
  omega

theorem Dim.writeCell_ok {g : Grid} {rows cols : Nat} (hd : Dim g rows cols) {r c : Int}
    {x : Char} (hx : readCell g r c = Except.ok x) (ch : Char) :
    ∃ g1, writeCell g r c ch = Except.ok g1 ∧ Dim g1 rows cols
      ∧ (∀ q : Cell, (q = (r, c) → readCell g1 q.1 q.2 = Except.ok ch)
          ∧ (q ≠ (r, c) → readCell g1 q.1 q.2 = readCell g q.1 q.2))
      ∧ (ch = '0' → x ≠ '0' → solidCount g1 + 1 = solidCount g) := by
  rcases readCell_eq_ok.1 hx with ⟨hr, hc, row, hrow, hch⟩
  have hrl : r.toNat < g.length := (List.getElem?_eq_some_iff.1 hrow).1
  have hcl : c.toNat < row.length := (List.getElem?_eq_some_iff.1 hch).1
  refine ⟨g.set r.toNat (row.set c.toNat ch),
    writeCell_eq_ok.2 ⟨hr, hc, row, hrow, hcl, rfl⟩, ⟨?_, ?_⟩, ?_, ?_⟩
  · rw [List.length_set]
    exact hd.1
  · intro row1 h1
    rcases List.mem_or_eq_of_mem_set h1 with h | h
    · exact hd.2 _ h
    · rw [h, List.length_set]
      exact hd.2 _ (List.getElem?_mem hrow)
  · rintro ⟨r1, c1⟩
    constructor
    · intro e
      cases e
      refine readCell_eq_ok.2 ⟨hr, hc, row.set c.toNat ch, ?_, ?_⟩
      · rw [List.getElem?_set, if_pos rfl, if_pos hrl]
      · rw [List.getElem?_set, if_pos rfl, if_pos hcl]
    · intro hne
      show readCell _ r1 c1 = readCell g r1 c1
      unfold readCell
      by_cases hneg : r1 < 0 ∨ c1 < 0
      · rw [if_pos hneg, if_pos hneg]
      · rw [if_neg hneg, if_neg hneg]
        by_cases e : r.toNat = r1.toNat
        · have hcne : c.toNat ≠ c1.toNat := by
            intro e2
            apply hne
            have e3 : r1 = r := by omega
            have e4 : c1 = c := by omega
            rw [e3, e4]
          rw [List.getElem?_set, if_pos e, if_pos hrl, ← e, hrow]
          simp only [List.getElem?_set_ne hcne]
        · rw [List.getElem?_set_ne e]
  · intro e hne
    subst e
    have h1 := sum_map_set (fun row => row.countP (fun ch => ch != '0')) g r.toNat row
      (row.set c.toNat '0') hrow
    have h2 := countP_set_zero row c.toNat x hch hne
    simp only [solidCount] at h1 ⊢
    omega

theorem solidCount_le (g : Grid) (rows cols : Nat) (hd : Dim g rows cols) :
    solidCount g ≤ rows * cols := by
  induction g generalizing rows with
  | nil => simp [solidCount]
  | cons a l ih =>
    have h1 := ih (rows - 1) ⟨by have := hd.1; simp at this; omega,
      fun row h => hd.2 row (List.mem_cons_of_mem _ h)⟩
    have h2 : a.countP (fun ch => ch != '0') ≤ cols := by
      have := hd.2 a (List.mem_cons_self _ _)
      rw [← this]
      exact List.countP_le_length _
    have h3 : rows = (rows - 1) + 1 := by have := hd.1; simp at this; omega
    rw [h3, Nat.add_mul, Nat.one_mul]
    simp only [solidCount, List.map_cons, List.sum_cons] at h1 ⊢
    omega

/-- A call of `dfs` with more fuel than there are cells other than `'0'` returns, keeps
the dimensions, and sinks exactly the cells reached from its start cell. -/
theorem dfs_spec (rows cols : Nat) : ∀ (fuel : Nat) (g : Grid) (r c : Int),
    Dim g rows cols → solidCount g < fuel →
    ∃ g1, dfs rows cols fuel g r c = Except.ok g1 ∧ Dim g1 rows cols
      ∧ solidCount g1 ≤ solidCount g ∧ SunkBy g g1 (fun a => a = (r, c)) := by
  intro fuel
  induction fuel with
  | zero =>
    intro g r c _ h
    omega
  | succ fuel ih =>
    intro g r c hd hf
    rw [dfs]
    by_cases hb : r < 0 ∨ r ≥ (rows : Int) ∨ c < 0 ∨ c ≥ (cols : Int)
    · rw [if_pos hb]
      refine ⟨g, rfl, hd, le_refl _, SunkBy.of_not_solid ?_⟩
      rintro a rfl ⟨ch, hch, _⟩
      have := hd.of_readCell hch
      omega
    · rw [if_neg hb]
      obtain ⟨x, hx⟩ := hd.readCell_ok (r := r) (c := c) (by omega) (by omega) (by omega)
        (by omega)
      rw [hx]
      dsimp only
      by_cases h0 : x = '0'
      · rw [if_pos h0]
        refine ⟨g, rfl, hd, le_refl _, SunkBy.of_not_solid ?_⟩
        rintro a rfl ⟨ch, hch, hne⟩
        rw [hx] at hch
        cases hch
        exact hne h0
      · rw [if_neg h0]
        obtain ⟨g1, hw, hd1, hread, hcount⟩ := hd.writeCell_ok hx '0'
        have hc1 := hcount rfl h0
        rw [hw]
        dsimp only
        obtain ⟨g2, e2, hd2, hc2, hs2⟩ := ih g1 (r - 1) c hd1 (by omega)
        rw [e2]
        dsimp only
        obtain ⟨g3, e3, hd3, hc3, hs3⟩ := ih g2 (r + 1) c hd2 (by omega)
        rw [e3]
        dsimp only
        obtain ⟨g4, e4, hd4, hc4, hs4⟩ := ih g3 r (c - 1) hd3 (by omega)
        rw [e4]
        dsimp only
        obtain ⟨g5, e5, hd5, hc5, hs5⟩ := ih g4 r (c + 1) hd4 (by omega)
        refine ⟨g5, e5, hd5, by omega, ?_⟩
        apply SunkBy.of_neighbours (p := (r, c)) ⟨x, hx, h0⟩ hread
        refine (((hs2.comp hs3).comp hs4).comp hs5).seeds ?_
        intro a
        simp only [Adjacent]
        tauto

theorem ScanInv.step {g0 g g1 : Grid} {rows cols fuel : Nat} {reps : List Cell} {p : Cell}
    (hi : ScanInv g0 rows cols fuel g reps) (hp : Solid g p) (hd1 : Dim g1 rows cols)
    (hc1 : solidCount g1 ≤ solidCount g) (hs1 : SunkBy g g1 (fun a => a = p)) :
    ScanInv g0 rows cols fuel g1 (reps ++ [p]) := by
  rcases hi with ⟨_, hf, hs, hland, hpair⟩
  have hp0 := (hs.solid p).1 hp
  refine ⟨hd1, by omega, (hs.comp hs1).seeds ?_, ?_, ?_⟩
  · intro a
    simp only [List.mem_append, List.mem_singleton]
  · intro a ha
    rcases List.mem_append.1 ha with h | h
    · exact hland a h
    · rw [List.mem_singleton.1 h]
      exact hp0.1
  · rw [List.pairwise_append]
    refine ⟨hpair, List.pairwise_singleton _ _, ?_⟩
    intro a ha b hb
    rw [List.mem_singleton.1 hb]
    exact hp0.2 a ha

/-- A non-empty rectangular grid has the dimensions that `numIslands` reads from it. -/
theorem Rectangular.dim {grid : Grid} (hr : Rectangular grid) :
    Dim grid grid.length (grid.headD []).length :=
  ⟨rfl, hr.2⟩

/-- The first row of a non-empty grid. -/
theorem Rectangular.head {grid : Grid} (hr : Rectangular grid) :
    grid[0]? = some (grid.headD []) := by
  cases grid with
  | nil => exact absurd rfl hr.1
  | cons row0 rest => simp

end LC200

namespace Kata2

open SimpleUniquePtr

/-- Construction from a live allocation that no living handle holds (or from the null
pointer) keeps ownership exclusive and live. -/
theorem constructLive_preserves (s : State) (this : Addr) (a : Ptr)
    (ha : a = nullptr ∨ (s.heap a ≠ none ∧ ∀ z : Addr, s.alive z = true → s.ptr_ z ≠ a))
    (hE : Exclusive s) (hL : OwnedLive s) :
    Exclusive (construct this a s) ∧ OwnedLive (construct this a s) := by
  have hnot : ∀ z : Addr, s.alive z = true → a ≠ nullptr → s.ptr_ z ≠ a ∧ a ≠ s.ptr_ z := by
    intro z hz h0
    rcases ha with h | h
    · exact absurd h h0
    · exact ⟨h.2 z hz, fun e => h.2 z hz e.symm⟩
  have hlive : a ≠ nullptr → s.heap a ≠ none := by
    intro h0
    rcases ha with h | h
    · exact absurd h h0
    · exact h.1
  constructor
  · intro x y hx hy hxy hpx
    have hExy := hE x y
    have hnx := hnot x
    have hny := hnot y
    have hxa : s.alive x = true → s.ptr_ x ≠ nullptr → s.ptr_ x ≠ a := by
      intro h3 h4 e
      exact (hnot x h3 (e ▸ h4)).1 e
    by_cases h1 : x = this <;> by_cases h2 : y = this <;>
      simp_all [construct, State.storePtr, State.setAlive]
  · intro x hx hpx
    have hLx := hL x
    by_cases h1 : x = this <;>
      simp_all [construct, State.storePtr, State.setAlive]

/-- Reset with a live allocation that no living handle holds (or with the null pointer)
keeps ownership exclusive and live. -/
theorem resetLive_preserves (s : State) (this : Addr) (x : Ptr)
    (hal : s.alive this = true)
    (hx : x = nullptr ∨ (s.heap x ≠ none ∧ ∀ z : Addr, s.alive z = true → s.ptr_ z ≠ x))
    (hE : Exclusive s) (hL : OwnedLive s) :
    Exclusive (reset this x s) ∧ OwnedLive (reset this x s) := by
  have hnot : ∀ z : Addr, s.alive z = true → x ≠ nullptr → s.ptr_ z ≠ x ∧ x ≠ s.ptr_ z := by
    intro z hz h0
    rcases hx with h | h
    · exact absurd h h0
    · exact ⟨h.2 z hz, fun e => h.2 z hz e.symm⟩
  have hlive : x ≠ nullptr → s.heap x ≠ none := by
    intro h0
    rcases hx with h | h
    · exact absurd h h0
    · exact h.1
  obtain ⟨hptr, halive, hheap⟩ := reset_fields s this x
  constructor
  · intro a b ha hb hab hpa
    rw [halive] at ha hb
    rw [hptr] at hpa
    rw [hptr, hptr]
    have hEab := hE a b ha hb hab
    have hna := hnot a ha
    have hnb := hnot b hb
    have hax : s.ptr_ a ≠ nullptr → s.ptr_ a ≠ x := by
      intro h4 e
      exact (hnot a ha (e ▸ h4)).1 e
    by_cases h1 : a = this <;> by_cases h2 : b = this <;>
      simp_all
  · intro a ha hpa
    rw [halive] at ha
    rw [hptr] at hpa
    rw [hheap, hptr]
    have hLa := hL a ha
    have hnt := hnot this hal
    have hna := hnot a ha
    have hta := (hE.sep hal ha).2
    by_cases h1 : a = this <;>
      simp_all

/-- C33 (as stated, refuted): in Test 1 the handle at address 1 holds the live
allocation 1000, which no other handle holds, and ownership is exclusive and live; after
`reset(1000)` on that handle the allocation is deallocated and the handle still holds
its address. -/
theorem reset_own_pointer_dangles :
    Exclusive test1State ∧ OwnedLive test1State
    ∧ test1State.alive 1 = true ∧ test1State.ptr_ 1 = 1000
    ∧ test1State.heap 1000 ≠ none
    ∧ (∀ z : Addr, z ≠ 1 → test1State.alive z = true → test1State.ptr_ z ≠ 1000)
    ∧ (reset 1 1000 test1State).alive 1 = true
    ∧ (reset 1 1000 test1State).ptr_ 1 = 1000
    ∧ (reset 1 1000 test1State).heap 1000 = none
    ∧ ¬ OwnedLive (reset 1 1000 test1State) := by
  have hal : ∀ z : Addr, test1State.alive z = true → z = 1 := by
    intro z hz
    by_contra h
    simp [test1State, construct, State.setAlive, State.storePtr, State.newResource,
      State.empty, h] at hz
  have h1 : (reset 1 1000 test1State).alive 1 = true := by
    simp [reset, test1State, construct, State.setAlive, State.storePtr, State.newResource,
      State.empty, State.deletePtr, nullptr]
  have h2 : (reset 1 1000 test1State).ptr_ 1 = 1000 := by
    simp [reset, test1State, construct, State.setAlive, State.storePtr, State.newResource,
      State.empty, State.deletePtr, nullptr]
  have h3 : (reset 1 1000 test1State).heap 1000 = none := by
    simp [reset, test1State, construct, State.setAlive, State.storePtr, State.newResource,
      State.empty, State.deletePtr, nullptr]
  refine ⟨?_, ?_, ?_, ?_, ?_, ?_, h1, h2, h3, ?_⟩
  · intro a b ha hb hab
    exact absurd ((hal a ha).trans (hal b hb).symm) hab
  · intro a ha _
    rw [hal a ha]
    simp [test1State, construct, State.setAlive, State.storePtr, State.newResource,
      State.empty]
  · simp [test1State, construct, State.setAlive]
  · simp [test1State, construct, State.setAlive, State.storePtr]
  · simp [test1State, construct, State.setAlive, State.storePtr, State.newResource]
  · intro z hz hz1
    exact absurd (hal z hz1) hz
  · intro hL
    have := hL 1 h1 (by rw [h2]; decide)
    rw [h2] at this
    exact this h3

/-- C33 (amended): over states in which ownership is exclusive, the two properties
"no two living handles hold the same non-null pointer" and "every non-null pointer held
by a living handle is a live allocation" are kept by construction from a live allocation
that no handle holds, move construction, move assignment, `release`, destruction, and
`reset(x)` for `x` null or a live allocation that no living handle holds, the handle
itself included. -/
theorem no_dangling_preserved (s : State) (hE : Exclusive s) (hL : OwnedLive s) :
    (∀ (this : Addr) (a : Ptr),
        a = nullptr ∨ (s.heap a ≠ none ∧ ∀ z : Addr, s.alive z = true → s.ptr_ z ≠ a) →
        Exclusive (construct this a s) ∧ OwnedLive (construct this a s))
    ∧ (∀ this other : Addr, s.alive this = false → s.alive other = true →
        Exclusive (moveConstruct this other s) ∧ OwnedLive (moveConstruct this other s))
    ∧ (∀ this other : Addr, s.alive this = true → s.alive other = true →
        Exclusive (moveAssign this other s) ∧ OwnedLive (moveAssign this other s))
    ∧ (∀ this : Addr,
        Exclusive (release this s).2 ∧ OwnedLive (release this s).2)
    ∧ (∀ this : Addr, s.alive this = true →
        Exclusive (destruct this s) ∧ OwnedLive (destruct this s))
    ∧ (∀ (this : Addr) (x : Ptr), s.alive this = true →
        x = nullptr ∨ (s.heap x ≠ none ∧ ∀ z : Addr, s.alive z = true → s.ptr_ z ≠ x) →
        Exclusive (reset this x s) ∧ OwnedLive (reset this x s)) :=
  ⟨fun this a ha => constructLive_preserves s this a ha hE hL,
    fun this other hal hoth => moveConstruct_preserves s this other hal hoth hE hL,
    fun this other hal hoth => moveAssign_preserves s this other hal hoth hE hL,
    fun this => release_preserves s this hE hL,
    fun this hal => destruct_preserves s this hal hE hL,
    fun this x hal hx => resetLive_preserves s this x hal hx hE hL⟩

/-- C33 witness (Test 3, before the assignment): with `ptr1` owning 1000 and `ptr2`
owning 2000, the move assignment `ptr2 = std::move(ptr1)` and `ptr1.reset()` leave every
held pointer live. -/
theorem no_dangling_preserved_witness :
    Exclusive test3Before ∧ OwnedLive test3Before
    ∧ OwnedLive (moveAssign 2 1 test3Before)
    ∧ OwnedLive (reset 1 nullptr test3Before) := by
  have hal : ∀ z : Addr, test3Before.alive z = true → z = 1 ∨ z = 2 := by
    intro z hz
    by_contra h
    rw [not_or] at h
    simp [test3Before, construct, State.setAlive, State.storePtr, State.newResource,
      State.empty, h.1, h.2] at hz
  have hE : Exclusive test3Before := by
    intro a b ha hb hab _
    rcases hal a ha with e1 | e1 <;> rcases hal b hb with e2 | e2 <;> subst e1 <;> subst e2 <;>
      simp [test3Before, construct, State.setAlive, State.storePtr, State.newResource,
        State.empty] at hab ⊢
  have hL : OwnedLive test3Before := by
    intro a ha _
    rcases hal a ha with e1 | e1 <;> subst e1 <;>
      simp [test3Before, construct, State.setAlive, State.storePtr, State.newResource,
        State.empty]
  have h1 : test3Before.alive 1 = true := by
    simp [test3Before, construct, State.setAlive, State.storePtr, State.newResource]
  have h2 : test3Before.alive 2 = true := by
    simp [test3Before, construct, State.setAlive, State.storePtr, State.newResource]
  have h := no_dangling_preserved test3Before hE hL
  exact ⟨hE, hL, (h.2.2.1 2 1 h2 h1).2, (h.2.2.2.2.2 1 nullptr h1 (Or.inl rfl)).2⟩

end Kata2

namespace Kata3

open OptimizedContainer

/-- A container without elements: `empty()` holds, both `operator[]` throw for every
index, both traversals yield nothing, and one `add` of an object, or one `emplace` with
a size up to `max_size()`, returns, gives size 1 and leaves every other container as it
was. -/
theorem empty_container_usable (grow : Nat → Nat) (maxSize : Nat) (t : State) (c : Addr)
    (h : (t.elements_ c).elems = []) :
    empty c t = true ∧ size c t = 0
    ∧ (∀ i : Nat, operatorIndex c i t = Except.error (Error.out_of_range "Index out of range")
        ∧ operatorIndexConst c i t = Except.error (Error.out_of_range "Index out of range"))
    ∧ Kata3.traverse c t = some [] ∧ Kata3.traverseConst c t = some []
    ∧ (∀ (e : ExpensiveObject) (isLvalue isConst : Bool),
        ∃ r : State × ExpensiveObject,
          add grow c (Arg.object e) isLvalue isConst t = Except.ok r
          ∧ size c r.1 = 1
          ∧ ∀ d : Addr, d ≠ c → r.1.elements_ d = t.elements_ d)
    ∧ (∀ (name : String) (count : Nat), count ≤ maxSize →
        ∃ u : State, emplace grow maxSize c name count t = Except.ok u
          ∧ size c u = 1
          ∧ ∀ d : Addr, d ≠ c → u.elements_ d = t.elements_ d) := by
  have hsz : (t.elements_ c).size = 0 := by simp [StdVector.size, h]
  refine ⟨?_, hsz, ?_, ?_, ?_, ?_, ?_⟩
  · simp [OptimizedContainer.empty, StdVector.empty, h]
  · intro i
    simp [operatorIndex, operatorIndexConst, hsz]
  · simp [Kata3.traverse, rangeFor, OptimizedContainer.end_, OptimizedContainer.begin, hsz]
  · simp [Kata3.traverseConst, rangeFor, OptimizedContainer.endConst,
      OptimizedContainer.beginConst, hsz]
  · intro e lv cst
    unfold add
    simp only [Arg.eval]
    by_cases hc : (lv || cst) = true
    · rw [if_pos hc]
      refine ⟨_, rfl, ?_, ?_⟩
      · simp [OptimizedContainer.size, StdVector.size, State.setElements,
          emplace_back_elems, h]
      · intro d hd
        simp [State.setElements, hd]
    · rw [if_neg hc]
      refine ⟨_, rfl, ?_, ?_⟩
      · simp [OptimizedContainer.size, StdVector.size, State.setElements, Arg.assign,
          emplace_back_elems, h]
      · intro d hd
        simp [State.setElements, Arg.assign, hd]
  · intro name count hcount
    refine ⟨_, emplace_returns grow maxSize c name count t hcount, ?_, ?_⟩
    · simp [OptimizedContainer.size, StdVector.size, State.setElements,
        emplace_back_elems, h]
    · intro d hd
      simp [State.setElements, hd]

/-- C32: after a container `src` is moved out, by move construction of `dst` or by move
assignment into a distinct `dst`, it is an empty container that can be used: `empty()`
is true, `operator[]` throws for every index, traversal yields nothing, and an `add` of
an object, or an `emplace` with a size up to `max_size()`, returns, gives `size() == 1`
and leaves `dst` with the elements it received. -/
theorem moved_from_container_is_usable (grow : Nat → Nat) (maxSize : Nat) (s : State)
    (dst src : Addr) (hne : dst ≠ src) :
    ∀ t : State, t = moveConstruct dst src s ∨ t = moveAssign dst src s →
      (t.elements_ dst).elems = (s.elements_ src).elems
      ∧ empty src t = true
      ∧ (∀ i : Nat, throws (operatorIndex src i t) = true
          ∧ throws (operatorIndexConst src i t) = true)
      ∧ Kata3.traverse src t = some [] ∧ Kata3.traverseConst src t = some []
      ∧ (∀ (e : ExpensiveObject) (isLvalue isConst : Bool),
          ∃ r : State × ExpensiveObject,
            add grow src (Arg.object e) isLvalue isConst t = Except.ok r
            ∧ size src r.1 = 1
            ∧ (r.1.elements_ dst).elems = (s.elements_ src).elems)
      ∧ (∀ (name : String) (count : Nat), count ≤ maxSize →
          ∃ u : State, emplace grow maxSize src name count t = Except.ok u
            ∧ size src u = 1
            ∧ (u.elements_ dst).elems = (s.elements_ src).elems) := by
  intro t ht
  have hsrc : (t.elements_ src).elems = [] := by
    rcases ht with e | e <;> subst e <;>
      simp [moveConstruct, moveAssign, construct, State.setElements, StdVector.moveAssign,
        StdVector.clear, StdVector.create, hne, Ne.symm hne]
  have hdst : (t.elements_ dst).elems = (s.elements_ src).elems := by
    rcases ht with e | e <;> subst e <;>
      simp [moveConstruct, moveAssign, construct, State.setElements, StdVector.moveAssign,
        StdVector.clear, StdVector.create, hne, Ne.symm hne]
  have hu := empty_container_usable grow maxSize t src hsrc
  refine ⟨hdst, hu.1, ?_, hu.2.2.2.1, hu.2.2.2.2.1, ?_, ?_⟩
  · intro i
    rw [(hu.2.2.1 i).1, (hu.2.2.1 i).2]
    exact ⟨rfl, rfl⟩
  · intro e lv cst
    obtain ⟨r, hr, hsz, hother⟩ := hu.2.2.2.2.2.1 e lv cst
    exact ⟨r, hr, hsz, by rw [hother dst hne, hdst]⟩
  · intro name count hcount
    obtain ⟨u, hue, hsz, hother⟩ := hu.2.2.2.2.2.2 name count hcount
    exact ⟨u, hue, hsz, by rw [hother dst hne, hdst]⟩

/-- C32 witness (Test 3): after `container2 = std::move(container1)` at addresses 2 and
1, `container1` is empty and one `emplace` on it gives size 1, while `container2` keeps
the two elements it received. -/
theorem moved_from_container_is_usable_witness :
    (2 : Addr) ≠ 1
    ∧ empty 1 (moveConstruct 2 1 test3Container1) = true
    ∧ (∃ u : State, emplace gnuGrowth gnuMaxSize 1 "again" 3
          (moveConstruct 2 1 test3Container1) = Except.ok u
        ∧ size 1 u = 1
        ∧ (u.elements_ 2).elems = (test3Container1.elements_ 1).elems) :=
  have h := moved_from_container_is_usable gnuGrowth gnuMaxSize test3Container1 2 1
    (by decide) (moveConstruct 2 1 test3Container1) (Or.inl rfl)
  ⟨by decide, h.2.1, h.2.2.2.2.2.2 "again" 3 (by decide)⟩

end Kata3

namespace Kata3

open OptimizedContainer

/-- C34 (as stated, refuted): `add(std::move(o))` on a new container, with a `const`
object `o` equal to `obj1` of Test 2, copy-constructs the element: it is named
`copy_source_copy`, not `copy_source`, and `o` keeps its name and its 200 data items. -/
theorem add_const_rvalue_copies :
    ∃ (t : State) (v c : ExpensiveObject),
      add gnuGrowth 1 (Arg.object test2Obj1) false true (construct 1 State.init)
        = Except.ok (t, v)
      ∧ operatorIndex 1 0 t = Except.ok c
      ∧ c.getName = "copy_source_copy"
      ∧ test2Obj1.getName = "copy_source"
      ∧ v.getName = "copy_source"
      ∧ v.getDataSize = 200 :=
  ⟨_, _, _, rfl, rfl, rfl, rfl, rfl, rfl⟩

/-- C34 (amended): the copy constructor of `ExpensiveObject` appends `"_copy"` to the
name and keeps the data size, the source being an argument that the call does not
change.  So after `add(o)` by lvalue on a container of size `n`, and after
`add(std::move(o))` with a `const` object `o`, the element at index `n` is named
`o.getName() + "_copy"` and `o` is unchanged, whereas after `add(std::move(o))` with a
non-`const` object `o` the element at index `n` has the former name of `o`, and `o` is
left with an empty name and data size 0. -/
theorem copy_appends_copy_suffix (grow : Nat → Nat) (s : State) (this : Addr)
    (o : ExpensiveObject) :
    ((ExpensiveObject.copyConstruct o).getName = o.getName ++ "_copy"
      ∧ (ExpensiveObject.copyConstruct o).getDataSize = o.getDataSize)
    ∧ (∀ (isLvalue isConst : Bool), (isLvalue || isConst) = true →
        ∃ (t : State) (c : ExpensiveObject),
          add grow this (Arg.object o) isLvalue isConst s = Except.ok (t, o)
          ∧ operatorIndex this (size this s) t = Except.ok c
          ∧ c.getName = o.getName ++ "_copy" ∧ c.getDataSize = o.getDataSize)
    ∧ (∃ (t : State) (c o1 : ExpensiveObject),
        add grow this (Arg.object o) false false s = Except.ok (t, o1)
        ∧ operatorIndex this (size this s) t = Except.ok c
        ∧ c.getName = o.getName ∧ c.getDataSize = o.getDataSize
        ∧ o1.getName = ""
        ∧ o1.getDataSize = 0) := by
  have h := add_copies_lvalue_moves_rvalue_aux grow s this o
  refine ⟨⟨rfl, rfl⟩, ?_, ?_⟩
  · intro lv cst hc
    obtain ⟨t, hadd, hidx⟩ := h.1 lv cst hc
    exact ⟨t, _, hadd, hidx, rfl, rfl⟩
  · obtain ⟨t, hadd, hidx⟩ := h.2
    exact ⟨t, o, _, hadd, hidx, rfl, rfl, rfl, rfl⟩

end Kata3

namespace LC200

end LC200

namespace LC200

/-- With any fuel a call of `dfs` on a grid of the captured dimensions makes no access
outside the grid: it runs out of fuel or returns a grid of the same dimensions. -/
theorem dfs_in_bounds (rows cols : Nat) : ∀ (fuel : Nat) (g : Grid) (r c : Int),
    Dim g rows cols →
    dfs rows cols fuel g r c = Except.error Fault.outOfFuel
      ∨ ∃ g1, dfs rows cols fuel g r c = Except.ok g1 ∧ Dim g1 rows cols := by
  intro fuel
  induction fuel with
  | zero =>
    intro g r c _
    exact Or.inl rfl
  | succ fuel ih =>
    intro g r c hd
    rw [dfs]
    by_cases hb : r < 0 ∨ r ≥ (rows : Int) ∨ c < 0 ∨ c ≥ (cols : Int)
    · rw [if_pos hb]
      exact Or.inr ⟨g, rfl, hd⟩
    · rw [if_neg hb]
      obtain ⟨x, hx⟩ := hd.readCell_ok (r := r) (c := c) (by omega) (by omega) (by omega)
        (by omega)
      rw [hx]
      dsimp only
      by_cases h0 : x = '0'
      · rw [if_pos h0]
        exact Or.inr ⟨g, rfl, hd⟩
      · rw [if_neg h0]
        obtain ⟨g1, hw, hd1, _, _⟩ := hd.writeCell_ok hx '0'
        rw [hw]
        dsimp only
        rcases ih g1 (r - 1) c hd1 with e2 | ⟨g2, e2, hd2⟩
        · rw [e2]
          exact Or.inl rfl
        rw [e2]
        dsimp only
        rcases ih g2 (r + 1) c hd2 with e3 | ⟨g3, e3, hd3⟩
        · rw [e3]
          exact Or.inl rfl
        rw [e3]
        dsimp only
        rcases ih g3 r (c - 1) hd3 with e4 | ⟨g4, e4, hd4⟩
        · rw [e4]
          exact Or.inl rfl
        rw [e4]
        dsimp only
        exact ih g4 r (c + 1) hd4

/-- The inner loop returns on a grid of the captured dimensions, whatever its cells
hold. -/
theorem scanRow_ok (rows cols fuel : Nat) (r : Nat) (hr : r < rows) :
    ∀ (cs : List Nat) (g : Grid) (k : Int), (∀ c ∈ cs, c < cols) → Dim g rows cols →
    solidCount g < fuel →
    ∃ g1 k1, scanRow rows cols fuel r cs g k = Except.ok (g1, k1) ∧ Dim g1 rows cols
      ∧ solidCount g1 ≤ solidCount g := by
  intro cs
  induction cs with
  | nil =>
    intro g k _ hd _
    exact ⟨g, k, rfl, hd, le_refl _⟩
  | cons c rest ih =>
    intro g k hcs hd hf
    have hc : c < cols := hcs c (List.mem_cons_self _ _)
    have hrest : ∀ c1 ∈ rest, c1 < cols := fun c1 h => hcs c1 (List.mem_cons_of_mem _ h)
    obtain ⟨x, hx⟩ := hd.readCell_ok (r := (r : Int)) (c := (c : Int)) (by omega)
      (by omega) (by omega) (by omega)
    rw [scanRow, hx]
    dsimp only
    by_cases h1 : x = '1'
    · rw [if_pos h1]
      obtain ⟨g1, e1, hd1, hc1, _⟩ := dfs_spec rows cols fuel g r c hd hf
      rw [e1]
      dsimp only
      obtain ⟨g2, k2, e2, hd2, hc2⟩ := ih g1 (k + 1) hrest hd1 (by omega)
      exact ⟨g2, k2, e2, hd2, by omega⟩
    · rw [if_neg h1]
      exact ih g k hrest hd hf

/-- The outer loop returns on a grid of the captured dimensions, whatever its cells
hold. -/
theorem scanRows_ok (rows cols fuel : Nat) :
    ∀ (rs : List Nat) (g : Grid) (k : Int), (∀ r ∈ rs, r < rows) → Dim g rows cols →
    solidCount g < fuel →
    ∃ g1 k1, scanRows rows cols fuel rs g k = Except.ok (g1, k1) ∧ Dim g1 rows cols
      ∧ solidCount g1 ≤ solidCount g := by
  intro rs
  induction rs with
  | nil =>
    intro g k _ hd _
    exact ⟨g, k, rfl, hd, le_refl _⟩
  | cons r rest ih =>
    intro g k hrs hd hf
    have hr : r < rows := hrs r (List.mem_cons_self _ _)
    have hrest : ∀ r1 ∈ rest, r1 < rows := fun r1 h => hrs r1 (List.mem_cons_of_mem _ h)
    obtain ⟨g1, k1, e1, hd1, hc1⟩ := scanRow_ok rows cols fuel r hr (List.range cols) g k
      (fun c h => List.mem_range.1 h) hd hf
    obtain ⟨g2, k2, e2, hd2, hc2⟩ := ih g1 k1 hrest hd1 (by omega)
    rw [scanRows, Int.toNat_ofNat, e1]
    dsimp only
    exact ⟨g2, k2, e2, hd2, by omega⟩

/-- C36: on every grid with at least one row whose rows all have the length of the
first row, `numIslands` returns, so none of its accesses `grid[r][c]` and none of those
of `dfs` leaves the vectors; and `dfs` on such a grid never reports an access out of
bounds, whatever the start cell.  The precondition is needed: on the empty grid, and on
a grid whose second row is shorter than the first, an access is out of bounds. -/
theorem numIslands_accesses_in_bounds (grid : Grid) (hr : Rectangular grid) :
    (∃ (k : Int) (g1 : Grid), numIslands grid = Except.ok (k, g1))
    ∧ (∀ (fuel : Nat) (r c : Int),
        dfs grid.length (grid.headD []).length fuel grid r c
          ≠ Except.error Fault.outOfBounds)
    ∧ numIslands [] = Except.error Fault.outOfBounds
    ∧ numIslands [['1', '1'], ['1']] = Except.error Fault.outOfBounds := by
  have hd := hr.dim
  have hf := solidCount_le _ _ _ hd
  refine ⟨?_, ?_, rfl, rfl⟩
  · obtain ⟨g1, k1, e, _, _⟩ := scanRows_ok grid.length (grid.headD []).length
      (grid.length * (grid.headD []).length + 1) (List.range grid.length) grid 0
      (fun r h => List.mem_range.1 h) hd (by omega)
    refine ⟨k1, g1, ?_⟩
    simp only [numIslands, hr.head, e]
  · intro fuel r c h
    rcases dfs_in_bounds grid.length (grid.headD []).length fuel grid r c hd with e | ⟨g1, e, _⟩
    · rw [e] at h
      cases h
    · rw [e] at h
      cases h

/-- C36 witness (test grid 1, and a grid holding a character other than `'0'` and
`'1'`): both calls return. -/
theorem numIslands_accesses_in_bounds_witness :
    Rectangular grid1 ∧ Rectangular [['1', 'x'], ['x', '1']]
    ∧ (∃ (k : Int) (g1 : Grid), numIslands grid1 = Except.ok (k, g1))
    ∧ (∃ (k : Int) (g1 : Grid), numIslands [['1', 'x'], ['x', '1']] = Except.ok (k, g1)) :=
  have r1 : Rectangular grid1 := by simp [Rectangular, grid1]
  have r2 : Rectangular [['1', 'x'], ['x', '1']] := by simp [Rectangular]
  ⟨r1, r2, (numIslands_accesses_in_bounds grid1 r1).1,
    (numIslands_accesses_in_bounds [['1', 'x'], ['x', '1']] r2).1⟩

/-- C37: on a non-empty rectangular grid, from every start cell, `dfs` returns once its
fuel exceeds the number of cells other than `'0'`, and it does not raise that number.  A
call on a cell outside the grid or holding `'0'` returns at once.  Every other call
writes `'0'` over its cell, which lowers the number of cells other than `'0'` by one, and
then makes its four recursive calls on grids with at most that lower number. -/
theorem dfs_terminates (grid : Grid) (hr : Rectangular grid) (r c : Int) :
    (∀ fuel : Nat, solidCount grid < fuel →
      ∃ g1, dfs grid.length (grid.headD []).length fuel grid r c = Except.ok g1
        ∧ solidCount g1 ≤ solidCount grid
        ∧ (Solid grid (r, c) → solidCount g1 < solidCount grid))
    ∧ (¬ Solid grid (r, c) → ∀ fuel : Nat,
        dfs grid.length (grid.headD []).length (fuel + 1) grid r c = Except.ok grid)
    ∧ (Solid grid (r, c) → ∃ g0, writeCell grid r c '0' = Except.ok g0
        ∧ solidCount g0 + 1 = solidCount grid
        ∧ ∀ fuel : Nat, dfs grid.length (grid.headD []).length (fuel + 1) grid r c
            = (dfs grid.length (grid.headD []).length fuel g0 (r - 1) c).bind (fun g2 =>
              (dfs grid.length (grid.headD []).length fuel g2 (r + 1) c).bind (fun g3 =>
              (dfs grid.length (grid.headD []).length fuel g3 r (c - 1)).bind (fun g4 =>
              dfs grid.length (grid.headD []).length fuel g4 r (c + 1))))) := by
  have hd := hr.dim
  have hsolid : Solid grid (r, c) → ∃ x g0, readCell grid r c = Except.ok x ∧ x ≠ '0'
      ∧ ¬ (r < 0 ∨ r ≥ (grid.length : Int) ∨ c < 0 ∨ c ≥ ((grid.headD []).length : Int))
      ∧ writeCell grid r c '0' = Except.ok g0
      ∧ Dim g0 grid.length (grid.headD []).length
      ∧ solidCount g0 + 1 = solidCount grid := by
    rintro ⟨x, hx, hne⟩
    obtain ⟨g0, hw, hd0, _, hcount⟩ := hd.writeCell_ok hx '0'
    have hbnd := hd.of_readCell hx
    exact ⟨x, g0, hx, hne, by omega, hw, hd0, hcount rfl hne⟩
  refine ⟨?_, ?_, ?_⟩
  · intro fuel hf
    cases fuel with
    | zero => omega
    | succ fuel =>
      obtain ⟨g1, e1, _, hc1, _⟩ := dfs_spec grid.length (grid.headD []).length (fuel + 1)
        grid r c hd hf
      refine ⟨g1, e1, hc1, fun hs => ?_⟩
      obtain ⟨x, g0, hx, hne, hb, hw, hd0, hcount⟩ := hsolid hs
      rw [dfs, if_neg hb, hx] at e1
      dsimp only at e1
      rw [if_neg hne, hw] at e1
      dsimp only at e1
      obtain ⟨g2, e2, hd2, hc2, _⟩ := dfs_spec grid.length (grid.headD []).length fuel
        g0 (r - 1) c hd0 (by omega)
      rw [e2] at e1
      dsimp only at e1
      obtain ⟨g3, e3, hd3, hc3, _⟩ := dfs_spec grid.length (grid.headD []).length fuel
        g2 (r + 1) c hd2 (by omega)
      rw [e3] at e1
      dsimp only at e1
      obtain ⟨g4, e4, hd4, hc4, _⟩ := dfs_spec grid.length (grid.headD []).length fuel
        g3 r (c - 1) hd3 (by omega)
      rw [e4] at e1
      dsimp only at e1
      obtain ⟨g5, e5, _, hc5, _⟩ := dfs_spec grid.length (grid.headD []).length fuel
        g4 r (c + 1) hd4 (by omega)
      rw [e5] at e1
      cases e1
      omega
  · intro hns fuel
    rw [dfs]
    by_cases hb : r < 0 ∨ r ≥ (grid.length : Int) ∨ c < 0 ∨ c ≥ ((grid.headD []).length : Int)
    · rw [if_pos hb]
    · rw [if_neg hb]
      obtain ⟨x, hx⟩ := hd.readCell_ok (r := r) (c := c) (by omega) (by omega) (by omega)
        (by omega)
      rw [hx]
      dsimp only
      by_cases h0 : x = '0'
      · rw [if_pos h0]
      · exact absurd ⟨x, hx, h0⟩ hns
  · intro hs
    obtain ⟨x, g0, hx, hne, hb, hw, _, hcount⟩ := hsolid hs
    refine ⟨g0, hw, hcount, fun fuel => ?_⟩
    rw [dfs, if_neg hb, hx]
    dsimp only
    rw [if_neg hne, hw]
    dsimp only
    cases dfs grid.length (grid.headD []).length fuel g0 (r - 1) c with
    | error e => rfl
    | ok g2 =>
      dsimp only [Except.bind]
      cases dfs grid.length (grid.headD []).length fuel g2 (r + 1) c with
      | error e => rfl
      | ok g3 =>
        dsimp only [Except.bind]
        cases dfs grid.length (grid.headD []).length fuel g3 r (c - 1) with
        | error e => rfl
        | ok g4 => rfl

/-- C37 witness (test grid 1, start cell `(0, 0)`): the island has 9 cells, the call
with fuel 10 returns and leaves no cell other than `'0'`. -/
theorem dfs_terminates_witness :
    Rectangular grid1 ∧ solidCount grid1 = 9
    ∧ (∃ g1, dfs grid1.length (grid1.headD []).length 10 grid1 0 0 = Except.ok g1
        ∧ solidCount g1 ≤ solidCount grid1
        ∧ (Solid grid1 (0, 0) → solidCount g1 < solidCount grid1))
    ∧ dfs 4 5 10 grid1 0 0 = Except.ok (List.replicate 4 (List.replicate 5 '0')) :=
  have r1 : Rectangular grid1 := by simp [Rectangular, grid1]
  ⟨r1, rfl, (dfs_terminates grid1 r1 0 0).1 10 (by decide), rfl⟩

end LC200

namespace LC207

/-- Writing a color other than white does not add a white course. -/
theorem whites_set_le (c : List Nat) (i a : Nat) (ha : a ≠ 0) :
    whites (c.set i a) ≤ whites c := by
  unfold whites
  induction c generalizing i with
  | nil => simp
  | cons x xs ih =>
      cases i with
      | zero =>
          simp only [List.set_cons_zero, List.count_cons]
          have : (a == 0) = false := by simpa using ha
          simp [this]
      | succ i =>
          have := ih i
          simp only [List.set_cons_succ, List.count_cons]
          omega

/-- Valid colors stay valid when gray or black is written. -/
theorem colorsValid_set (c : List Nat) (hv : ColorsValid c) (i a : Nat)
    (ha : a = 1 ∨ a = 2) : ColorsValid (c.set i a) := by
  intro u
  rw [colorOf_set]
  by_cases h : i = u ∧ i < c.length
  · rw [if_pos h]
    exact Or.inr ha
  · rw [if_neg h]
    exact hv u

/-- The neighbor loop returns when every recursive call does. -/
theorem forNeighbors_returns (n : Nat) (graph : List (List Nat)) (fuel : Nat)
    (ih : ∀ (c : List Nat) (w : Nat), c.length = n → w < n → ColorsValid c →
      whites c < fuel →
      ∃ b c1, hasCycle graph fuel c w = some (b, c1) ∧ c1.length = n ∧ ColorsValid c1
        ∧ whites c1 ≤ whites c) :
    ∀ (l : List Nat) (c : List Nat), (∀ w ∈ l, w < n) → c.length = n → ColorsValid c →
      whites c < fuel →
      ∃ b c1, forNeighbors (hasCycle graph fuel) l c = some (b, c1) ∧ c1.length = n
        ∧ ColorsValid c1 ∧ whites c1 ≤ whites c := by
  intro l
  induction l with
  | nil =>
      intro c _ hlen hv _
      exact ⟨false, c, rfl, hlen, hv, le_refl _⟩
  | cons w rest ihl =>
      intro c hl hlen hv hwh
      obtain ⟨b, c1, hrun, hlen1, hv1, hw1⟩ := ih c w hlen (hl w (List.mem_cons_self _ _))
        hv hwh
      cases b with
      | true =>
          refine ⟨true, c1, ?_, hlen1, hv1, hw1⟩
          simp [forNeighbors, hrun]
      | false =>
          obtain ⟨b2, c2, hrun2, hlen2, hv2, hw2⟩ := ihl c1
            (fun x hx => hl x (List.mem_cons_of_mem _ hx)) hlen1 hv1 (by omega)
          refine ⟨b2, c2, ?_, hlen2, hv2, by omega⟩
          simp [forNeighbors, hrun, hrun2]

/-- On valid colors `hasCycle` returns once its fuel exceeds the number of white courses,
and it does not add white courses. -/
theorem hasCycle_returns (n : Nat) (graph : List (List Nat))
    (hg : ∀ u w : Nat, w ∈ graph.getD u [] → w < n) :
    ∀ (fuel : Nat) (c : List Nat) (v : Nat), c.length = n → v < n → ColorsValid c →
      whites c < fuel →
      ∃ b c1, hasCycle graph fuel c v = some (b, c1) ∧ c1.length = n ∧ ColorsValid c1
        ∧ whites c1 ≤ whites c := by
  intro fuel
  induction fuel with
  | zero =>
      intro c v _ _ _ hwh
      omega
  | succ fuel ihf =>
      intro c v hlen hvn hv hwh
      by_cases h1 : colorOf c v = 1
      · refine ⟨true, c, ?_, hlen, hv, le_refl _⟩
        simp [hasCycle, h1]
      · by_cases h2 : colorOf c v = 2
        · refine ⟨false, c, ?_, hlen, hv, le_refl _⟩
          simp [hasCycle, h2]
        · have h0 : colorOf c v = 0 := by
            rcases hv v with e | e | e
            · exact e
            · exact absurd e h1
            · exact absurd e h2
          have hvl : v < c.length := by omega
          have hdec := whites_set_white c v 1 hvl h0 (by decide)
          obtain ⟨b, c2, hrun, hlen2, hv2, hw2⟩ := forNeighbors_returns n graph fuel
            (fun c1 w1 => ihf c1 w1) (graph.getD v []) (c.set v 1) (fun w hw => hg v w hw)
            (by simpa using hlen) (colorsValid_set c hv v 1 (Or.inl rfl)) (by omega)
          cases b with
          | true =>
              refine ⟨true, c2, ?_, hlen2, hv2, by omega⟩
              rw [hasCycle, if_neg h1, if_neg h2, hrun]
          | false =>
              refine ⟨false, c2.set v 2, ?_, by simpa using hlen2,
                colorsValid_set c2 hv2 v 2 (Or.inr rfl), ?_⟩
              · rw [hasCycle, if_neg h1, if_neg h2, hrun]
              · have := whites_set_le c2 v 2 (by decide)
                omega

/-- C38: for every number of courses and every list of pairs with both entries below
it, cycles and self-prerequisites included, `canFinish` returns.  On valid colors
`hasCycle` returns once its fuel exceeds the number of white courses and never adds a
white course; it returns at once on a gray or black course; and before it recurses from
a white course it colors that course gray, which lowers the number of white courses by
one. -/
theorem canFinish_terminates (numCourses : Nat) (prerequisites : List (Nat × Nat))
    (hps : ∀ p ∈ prerequisites, p.1 < numCourses ∧ p.2 < numCourses) :
    (∃ b : Bool, canFinish numCourses prerequisites = some b)
    ∧ (∀ (fuel : Nat) (color : List Nat) (course : Nat), color.length = numCourses →
        course < numCourses → ColorsValid color → whites color < fuel →
        ∃ b color1, hasCycle (buildGraph numCourses prerequisites) fuel color course
            = some (b, color1)
          ∧ whites color1 ≤ whites color)
    ∧ (∀ (fuel : Nat) (color : List Nat) (course : Nat), colorOf color course = 1 ∨
        colorOf color course = 2 →
        ∃ b, hasCycle (buildGraph numCourses prerequisites) (fuel + 1) color course
          = some (b, color))
    ∧ (∀ (color : List Nat) (course : Nat), color.length = numCourses →
        course < numCourses → colorOf color course = 0 →
        whites (color.set course 1) + 1 = whites color) := by
  refine ⟨?_, ?_, ?_, ?_⟩
  · obtain ⟨b, hrun, _, _⟩ := checkAll_spec numCourses prerequisites hps
      (List.range numCourses) (List.replicate numCourses 0)
      (fun i hi => List.mem_range.mp hi) (by simp)
      (fun u => Or.inl (colorOf_replicate numCourses u))
      (fun u w hu _ => by
        rw [colorOf_replicate] at hu
        cases hu)
      (fun u hu => by
        rw [colorOf_replicate] at hu
        cases hu)
    exact ⟨b, hrun⟩
  · intro fuel color course hlen hc hv hwh
    obtain ⟨b, c1, hrun, _, _, hw⟩ := hasCycle_returns numCourses
      (buildGraph numCourses prerequisites)
      (fun u w hw => (edge_lt numCourses prerequisites hps u w
        ((mem_buildGraph numCourses prerequisites hps u w).mp hw)).2)
      fuel color course hlen hc hv hwh
    exact ⟨b, c1, hrun, hw⟩
  · intro fuel color course h
    rcases h with h | h
    · exact ⟨true, by simp [hasCycle, h]⟩
    · exact ⟨false, by simp [hasCycle, h]⟩
  · intro color course hlen hc h0
    exact whites_set_white color course 1 (by omega) h0 (by decide)

/-- C38 witness: `canFinish` returns on the two-course cycle of Test Case 2, on the
three-course cycle of Test Case 5 and on a self-prerequisite. -/
theorem canFinish_terminates_witness :
    (∃ b : Bool, canFinish 2 [(1, 0), (0, 1)] = some b)
    ∧ (∃ b : Bool, canFinish 3 [(1, 0), (2, 1), (0, 2)] = some b)
    ∧ (∃ b : Bool, canFinish 2 [(1, 1)] = some b)
    ∧ canFinish 2 [(1, 1)] = some false :=
  ⟨(canFinish_terminates 2 [(1, 0), (0, 1)] (by decide)).1,
    (canFinish_terminates 3 [(1, 0), (2, 1), (0, 2)] (by decide)).1,
    (canFinish_terminates 2 [(1, 1)] (by decide)).1, by decide⟩

end LC207

namespace LC133

theorem mapFind_eq_none (vis : List (Nat × Nat)) (a : Nat) :
    mapFind vis a = none ↔ a ∉ vis.map Prod.fst := by
  induction vis with
  | nil => simp [mapFind]
  | cons p rest ih =>
    rcases p with ⟨k, v⟩
    by_cases h : k = a
    · simp [mapFind, h]
    · simp only [mapFind, if_neg h, ih, List.map_cons, List.mem_cons, not_or]
      exact ⟨fun h1 => ⟨fun e => h e.symm, h1⟩, fun h1 => h1.2⟩

theorem mem_of_mapFind (vis : List (Nat × Nat)) (a c : Nat)
    (h : mapFind vis a = some c) : (a, c) ∈ vis := by
  induction vis with
  | nil => simp [mapFind] at h
  | cons p rest ih =>
    rcases p with ⟨k, v⟩
    by_cases hk : k = a
    · simp only [mapFind, if_pos hk, Option.some.injEq] at h
      rw [hk, h]
      exact List.mem_cons_self _ _
    · simp only [mapFind, if_neg hk] at h
      exact List.mem_cons_of_mem _ (ih h)

theorem mapFind_of_mem (vis : List (Nat × Nat)) (hnd : (vis.map Prod.fst).Nodup)
    (a c : Nat) (h : (a, c) ∈ vis) : mapFind vis a = some c := by
  induction vis with
  | nil => cases h
  | cons p rest ih =>
    rcases p with ⟨k, v⟩
    simp only [List.map_cons, List.nodup_cons] at hnd
    rcases List.mem_cons.1 h with e | e
    · cases e
      simp [mapFind]
    · have hne : k ≠ a := by
        intro e1
        apply hnd.1
        rw [e1]
        exact List.mem_map.2 ⟨(a, c), e, rfl⟩
      simp only [mapFind, if_neg hne]
      exact ih hnd.2 e

theorem mem_valuesFrom (b k c : Nat) : c ∈ valuesFrom b k ↔ b ≤ c ∧ c < b + k := by
  induction k with
  | zero =>
    simp only [valuesFrom, List.not_mem_nil, false_iff]
    omega
  | succ k ih =>
    simp only [valuesFrom, List.mem_cons, ih]
    omega

theorem nodup_valuesFrom (b k : Nat) : (valuesFrom b k).Nodup := by
  induction k with
  | zero => exact List.nodup_nil
  | succ k ih =>
    simp only [valuesFrom, List.nodup_cons]
    refine ⟨?_, ih⟩
    rw [mem_valuesFrom]
    omega

/-- A list of distinct numbers below `n` has at most `n` entries. -/
theorem length_le_of_nodup_lt (l : List Nat) (n : Nat) (hnd : l.Nodup)
    (hlt : ∀ x ∈ l, x < n) : l.length ≤ n := by
  have h1 : l.toFinset ⊆ Finset.range n := by
    intro x hx
    rw [List.mem_toFinset] at hx
    exact Finset.mem_range.2 (hlt x hx)
  have h2 := Finset.card_le_card h1
  rw [List.toFinset_card_of_nodup hnd, Finset.card_range] at h2
  exact h2

/-- Every node reached from an allocated node of a well-formed free store is
allocated. -/
theorem reach_allocated (h : Heap) (hwf : WellFormed h) (root a : Nat)
    (hroot : ∃ n, h.nodes root = some n) (hr : Reach h root a) :
    ∃ n, h.nodes a = some n := by
  induction hr with
  | refl => exact hroot
  | tail _ he _ =>
    rcases he with ⟨n, hn, hb⟩
    exact (hwf _ n hn).2.2 _ hb

theorem Inv.value_bounds {h0 : Heap} {root : Nat} {s : State} (hi : Inv h0 root s)
    {p : Nat × Nat} (hp : p ∈ s.visited) : h0.next ≤ p.2 ∧ p.2 < s.heap.next := by
  have h1 : p.2 ∈ s.visited.map Prod.snd := List.mem_map.2 ⟨p, hp, rfl⟩
  rw [hi.2.2.2.2.2, mem_valuesFrom] at h1
  rw [hi.2.1]
  exact h1

theorem Inv.value_inj {h0 : Heap} {root : Nat} {s : State} (hi : Inv h0 root s)
    {p q : Nat × Nat} (hp : p ∈ s.visited) (hq : q ∈ s.visited) (h : p.2 = q.2) :
    p = q := by
  have hnd : (s.visited.map Prod.snd).Nodup := by
    rw [hi.2.2.2.2.2]
    exact nodup_valuesFrom _ _
  exact List.inj_on_of_nodup_map hnd hp hq h

theorem Inv.length_lt {h0 : Heap} {root : Nat} {s : State} (hi : Inv h0 root s)
    (hwf : WellFormed h0) (hroot : ∃ n, h0.nodes root = some n) :
    s.visited.length ≤ h0.next := by
  have := length_le_of_nodup_lt (s.visited.map Prod.fst) h0.next hi.2.2.2.2.1 (by
    intro x hx
    rcases List.mem_map.1 hx with ⟨p, hp, e⟩
    obtain ⟨n, hn⟩ := reach_allocated h0 hwf root p.1 hroot (hi.2.2.2.1 p hp)
    rw [← e]
    exact (hwf _ n hn).2.1)
  simpa using this

theorem Complete.stable {h0 : Heap} {s t : State} {p : Nat × Nat}
    (hc : Complete h0 s p) (hext : ∀ q ∈ s.visited, q ∈ t.visited)
    (hcell : t.heap.nodes p.2 = s.heap.nodes p.2) : Complete h0 t p := by
  rcases hc with ⟨n, cs, hn, hcs, hf⟩
  exact ⟨n, cs, hn, hcell.trans hcs, hf.imp (fun _ _ h => hext _ h)⟩

theorem Inv.push {h0 : Heap} {root : Nat} {s : State} (hi : Inv h0 root s)
    (c : Nat) (hc : h0.next ≤ c) (hc2 : c < s.heap.next) (n : Node) :
    Inv h0 root { s with heap := s.heap.store c n } := by
  rcases hi with ⟨h1, h2, h3, h4, h5, h6⟩
  refine ⟨?_, h2, ?_, h4, h5, h6⟩
  · intro a ha
    have hne : a ≠ c := by omega
    simp only [Heap.store, if_neg hne]
    exact h1 a ha
  · intro a ha
    have ha1 : s.heap.next ≤ a := ha
    have hne : a ≠ c := by omega
    simp only [Heap.store, if_neg hne]
    exact h3 a ha1

theorem Inv.alloc {h0 : Heap} {root : Nat} {s : State} (hi : Inv h0 root s)
    (orig : Nat) (v : Int) (hr : Reach h0 root orig)
    (hfind : mapFind s.visited orig = none) :
    Inv h0 root { heap := (s.heap.newNode v).2,
                  visited := (orig, (s.heap.newNode v).1) :: s.visited } := by
  rcases hi with ⟨h1, h2, h3, h4, h5, h6⟩
  refine ⟨?_, ?_, ?_, ?_, ?_, ?_⟩
  · intro a ha
    have hne : a ≠ s.heap.next := by omega
    simp only [Heap.newNode, if_neg hne]
    exact h1 a ha
  · simp only [Heap.newNode, List.length_cons]
    omega
  · intro a ha
    have ha1 : s.heap.next + 1 ≤ a := ha
    have hne : a ≠ s.heap.next := by omega
    simp only [Heap.newNode, if_neg hne]
    exact h3 a (by omega)
  · intro p hp
    rcases List.mem_cons.1 hp with e | e
    · rw [e]
      exact hr
    · exact h4 p e
  · simp only [List.map_cons, List.nodup_cons]
    exact ⟨(mapFind_eq_none _ _).1 hfind, h5⟩
  · simp only [List.map_cons, List.length_cons, valuesFrom, Heap.newNode]
    rw [h6, h2]

theorem forall₂_snoc {R : Nat → Nat → Prop} {l1 l2 : List Nat} {a b : Nat}
    (h : List.Forall₂ R l1 l2) (hab : R a b) : List.Forall₂ R (l1 ++ [a]) (l2 ++ [b]) := by
  induction h with
  | nil => exact List.Forall₂.cons hab List.Forall₂.nil
  | cons h1 _ ih => exact List.Forall₂.cons h1 ih

/-- Specification of the neighbor loop on the clone `c`, given the specification of the
recursive call: the loop returns, entries of `visited` are kept, clones other than `c`
entered before the loop are untouched, every entry made during the loop is finished, and
`c` has gained the clones of the neighbors in order. -/
theorem cloneNeighbors_spec (h0 : Heap) (root : Nat) (fuel : Nat) (c : Nat) (v : Int)
    (ih : ∀ (s : State) (b : Nat), Inv h0 root s → Reach h0 root b →
      h0.next < fuel + s.visited.length →
      ∃ cb t, dfs fuel s b = Except.ok (cb, t) ∧ Inv h0 root t ∧ (b, cb) ∈ t.visited
        ∧ s.visited.length ≤ t.visited.length
        ∧ (∀ q ∈ s.visited, q ∈ t.visited)
        ∧ (∀ q ∈ s.visited, t.heap.nodes q.2 = s.heap.nodes q.2)
        ∧ (∀ q ∈ t.visited, q ∈ s.visited ∨ Complete h0 t q)) :
    ∀ (l done cs : List Nat) (s : State), Inv h0 root s → (∃ o, (o, c) ∈ s.visited) →
      (∀ b ∈ l, Reach h0 root b) → h0.next < fuel + s.visited.length →
      s.heap.nodes c = some { val := v, neighbors := cs } →
      List.Forall₂ (fun b cb => (b, cb) ∈ s.visited) done cs →
      ∃ t cs1, cloneNeighbors (dfs fuel) c l s = Except.ok t ∧ Inv h0 root t
        ∧ s.visited.length ≤ t.visited.length
        ∧ (∀ q ∈ s.visited, q ∈ t.visited)
        ∧ (∀ q ∈ s.visited, q.2 ≠ c → t.heap.nodes q.2 = s.heap.nodes q.2)
        ∧ (∀ q ∈ t.visited, q ∈ s.visited ∨ Complete h0 t q)
        ∧ t.heap.nodes c = some { val := v, neighbors := cs1 }
        ∧ List.Forall₂ (fun b cb => (b, cb) ∈ t.visited) (done ++ l) cs1 := by
  intro l
  induction l with
  | nil =>
    intro done cs s hi _ _ _ hcell hf
    refine ⟨s, cs, rfl, hi, le_refl _, fun _ h => h, fun _ _ _ => rfl, fun _ h => Or.inl h,
      hcell, ?_⟩
    rw [List.append_nil]
    exact hf
  | cons nb rest ihl =>
    intro done cs s hi hoc hl hfuel hcell hf
    obtain ⟨o, ho⟩ := hoc
    obtain ⟨cb, sA, e, hiA, hmem, hlenA, hextA, hcellA, hcompA⟩ := ih s nb hi
      (hl nb (List.mem_cons_self _ _)) hfuel
    have hoA : (o, c) ∈ sA.visited := hextA _ ho
    have hcA : sA.heap.nodes c = some { val := v, neighbors := cs } :=
      (hcellA _ ho).trans hcell
    have hb := hiA.value_bounds hoA
    have hpush : sA.heap.pushNeighbor c cb
        = Except.ok (sA.heap.store c { val := v, neighbors := cs ++ [cb] }) := by
      simp only [Heap.pushNeighbor, hcA]
    have hiB := hiA.push c hb.1 hb.2 { val := v, neighbors := cs ++ [cb] }
    have hcB : (sA.heap.store c { val := v, neighbors := cs ++ [cb] }).nodes c
        = some { val := v, neighbors := cs ++ [cb] } := by
      simp [Heap.store]
    have hother : ∀ a : Nat, a ≠ c →
        (sA.heap.store c { val := v, neighbors := cs ++ [cb] }).nodes a
          = sA.heap.nodes a := by
      intro a ha
      simp [Heap.store, ha]
    have hfB : List.Forall₂ (fun b cb => (b, cb) ∈ sA.visited) (done ++ [nb]) (cs ++ [cb]) :=
      forall₂_snoc (hf.imp (fun _ _ h => hextA _ h)) hmem
    obtain ⟨t, cs1, et, hit, hlent, hextt, hcellt, hcompt, hct, hft⟩ := ihl (done ++ [nb])
      (cs ++ [cb]) { sA with heap := sA.heap.store c { val := v, neighbors := cs ++ [cb] } }
      hiB ⟨o, hoA⟩ (fun b hb1 => hl b (List.mem_cons_of_mem _ hb1))
      (by
        have h1 : s.visited.length ≤ sA.visited.length := hlenA
        show h0.next < fuel + sA.visited.length
        omega)
      hcB hfB
    refine ⟨t, cs1, ?_, hit, ?_, ?_, ?_, ?_, hct, ?_⟩
    · rw [cloneNeighbors, e]
      dsimp only
      rw [hpush]
      exact et
    · have h1 : sA.visited.length ≤ t.visited.length := hlent
      omega
    · intro q hq
      exact hextt q (hextA q hq)
    · intro q hq hqc
      rw [hcellt q (hextA q hq) hqc]
      show (sA.heap.store c { val := v, neighbors := cs ++ [cb] }).nodes q.2 = _
      rw [hother q.2 hqc]
      exact hcellA q hq
    · intro q hq
      by_cases hqs : q ∈ s.visited
      · exact Or.inl hqs
      · right
        rcases hcompt q hq with hqB | hc
        · have hqA : q ∈ sA.visited := hqB
          have hqc : q.2 ≠ c := by
            intro e1
            have := hiA.value_inj hqA hoA e1
            rw [this] at hqs
            exact hqs ho
          rcases hcompA q hqA with h1 | h1
          · exact absurd h1 hqs
          · have hcB1 : Complete h0
                { sA with heap := sA.heap.store c { val := v, neighbors := cs ++ [cb] } } q :=
              h1.stable (fun _ h => h) (hother q.2 hqc)
            exact hcB1.stable hextt (hcellt q hqA hqc)
        · exact hc
    · rw [List.append_assoc] at hft
      exact hft

/-- Specification of `dfs`: with more fuel than there are addresses below `h0.next`
without an entry in `visited`, a call on a node reached from the root returns the clone
entered for that node; entries of `visited` are kept, clones entered before the call are
untouched, and every entry made during the call is finished. -/
theorem cloneDfs_spec (h0 : Heap) (root : Nat) (hwf : WellFormed h0)
    (hroot : ∃ n, h0.nodes root = some n) :
    ∀ (fuel : Nat) (s : State) (b : Nat), Inv h0 root s → Reach h0 root b →
      h0.next < fuel + s.visited.length →
      ∃ cb t, dfs fuel s b = Except.ok (cb, t) ∧ Inv h0 root t ∧ (b, cb) ∈ t.visited
        ∧ s.visited.length ≤ t.visited.length
        ∧ (∀ q ∈ s.visited, q ∈ t.visited)
        ∧ (∀ q ∈ s.visited, t.heap.nodes q.2 = s.heap.nodes q.2)
        ∧ (∀ q ∈ t.visited, q ∈ s.visited ∨ Complete h0 t q) := by
  intro fuel
  induction fuel with
  | zero =>
    intro s b hi _ hfuel
    have := hi.length_lt hwf hroot
    omega
  | succ fuel ihf =>
    intro s b hi hr hfuel
    rw [dfs]
    cases hfind : mapFind s.visited b with
    | some c =>
      dsimp only
      exact ⟨c, s, rfl, hi, mem_of_mapFind _ _ _ hfind, le_refl _, fun _ h => h,
        fun _ _ => rfl, fun _ h => Or.inl h⟩
    | none =>
      dsimp only
      obtain ⟨n, hn⟩ := reach_allocated h0 hwf root b hroot hr
      have hblt : b < h0.next := (hwf b n hn).2.1
      have hsn : s.heap.nodes b = some n := (hi.1 b hblt).trans hn
      rw [hsn]
      dsimp only
      have hi1 := hi.alloc b n.val hr hfind
      have hc1 : (s.heap.newNode n.val).2.nodes (s.heap.newNode n.val).1
          = some { val := n.val, neighbors := [] } := by
        simp [Heap.newNode]
      obtain ⟨t, cs1, et, hit, hlent, hextt, hcellt, hcompt, hct, hft⟩ :=
        cloneNeighbors_spec h0 root fuel (s.heap.newNode n.val).1 n.val
          (fun s1 b1 => ihf s1 b1) n.neighbors [] []
          { heap := (s.heap.newNode n.val).2,
            visited := (b, (s.heap.newNode n.val).1) :: s.visited }
          hi1 ⟨b, List.mem_cons_self _ _⟩
          (fun b1 hb1 => Relation.ReflTransGen.tail hr ⟨n, hn, hb1⟩)
          (by
            show h0.next < fuel + (s.visited.length + 1)
            omega)
          hc1 List.Forall₂.nil
      rw [et]
      dsimp only
      have hold : ∀ q ∈ s.visited, q.2 ≠ (s.heap.newNode n.val).1 := by
        intro q hq
        have := (hi.value_bounds hq).2
        show q.2 ≠ s.heap.next
        omega
      refine ⟨(s.heap.newNode n.val).1, t, rfl, hit, hextt _ (List.mem_cons_self _ _), ?_,
        fun q hq => hextt q (List.mem_cons_of_mem _ hq), ?_, ?_⟩
      · have h1 : s.visited.length + 1 ≤ t.visited.length := hlent
        omega
      · intro q hq
        rw [hcellt q (List.mem_cons_of_mem _ hq) (hold q hq)]
        have hne : q.2 ≠ s.heap.next := hold q hq
        simp [Heap.newNode, hne]
      · intro q hq
        rcases hcompt q hq with h1 | h1
        · rcases List.mem_cons.1 h1 with e | e
          · right
            rw [e]
            rw [List.nil_append] at hft
            exact ⟨n, cs1, hn, hct, hft⟩
          · exact Or.inl e
        · exact Or.inr h1

/-- A run of `dfs` from `cloneGraph` on a well-formed free store and an allocated node:
it returns, the invariant holds afterwards, the result is the clone entered for the
argument, and every entry of `visited` is finished. -/
theorem cloneGraph_run (h : Heap) (node : Nat) (hwf : WellFormed h)
    (hnode : ∃ n, h.nodes node = some n) :
    ∃ res t, cloneGraph h node = Except.ok (res, t.heap) ∧ Inv h node t
      ∧ (node, res) ∈ t.visited ∧ ∀ q ∈ t.visited, Complete h t q := by
  have hi : Inv h node { heap := h, visited := [] } :=
    ⟨fun _ _ => rfl, rfl, fun a ha => by
      show h.nodes a = none
      cases hx : h.nodes a with
      | none => rfl
      | some n =>
        have h1 : a < h.next := (hwf a n hx).2.1
        have h2 : h.next ≤ a := ha
        omega,
      fun p hp => absurd hp (List.not_mem_nil p), List.nodup_nil, rfl⟩
  obtain ⟨res, t, e, hit, hmem, _, _, _, hcomp⟩ := cloneDfs_spec h node hwf hnode (h.next + 1)
    { heap := h, visited := [] } node hi Relation.ReflTransGen.refl (by
      show h.next < h.next + 1 + 0
      omega)
  obtain ⟨n, hn⟩ := hnode
  have hne : node ≠ nullptr := (hwf node n hn).1
  refine ⟨res, t, ?_, hit, hmem, fun q hq => ?_⟩
  · simp only [cloneGraph, if_neg hne, e]
  · rcases hcomp q hq with h1 | h1
    · exact absurd h1 (List.not_mem_nil q)
    · exact h1

/-- Along finished entries the clone's neighbors are the images of the original's
neighbors under the map `visited`. -/
theorem forall₂_eq_map (vis : List (Nat × Nat)) (hnd : (vis.map Prod.fst).Nodup)
    (l cs : List Nat) (h : List.Forall₂ (fun b cb => (b, cb) ∈ vis) l cs) :
    cs = l.map (cloneOf vis) := by
  induction h with
  | nil => rfl
  | cons h1 _ ih =>
    rw [List.map_cons, ← ih]
    simp only [cloneOf, mapFind_of_mem vis hnd _ _ h1, Option.getD_some]

theorem forall₂_left_mem {R : Nat → Nat → Prop} {l cs : List Nat}
    (h : List.Forall₂ R l cs) (b : Nat) (hb : b ∈ l) : ∃ cb, R b cb := by
  induction h with
  | nil => cases hb
  | cons h1 _ ih =>
    rcases List.mem_cons.1 hb with e | e
    · rw [e]
      exact ⟨_, h1⟩
    · exact ih e

/-- When every entry is finished, every node reached from the root has an entry, whose
clone holds the same `val` and the clones of its neighbors in order. -/
theorem clone_of_reach (h : Heap) (node res : Nat) (t : State) (hi : Inv h node t)
    (hmem : (node, res) ∈ t.visited) (hcomp : ∀ q ∈ t.visited, Complete h t q)
    (a : Nat) (hr : Reach h node a) :
    (a, cloneOf t.visited a) ∈ t.visited
    ∧ ∃ n, h.nodes a = some n
        ∧ t.heap.nodes (cloneOf t.visited a)
            = some { val := n.val, neighbors := n.neighbors.map (cloneOf t.visited) } := by
  have hnd := hi.2.2.2.2.1
  have hkey : ∃ c, (a, c) ∈ t.visited := by
    induction hr with
    | refl => exact ⟨res, hmem⟩
    | tail _ he ih =>
      obtain ⟨c, hc⟩ := ih
      obtain ⟨n, cs, hn, _, hf⟩ := hcomp _ hc
      obtain ⟨m, hm, hb⟩ := he
      have e : m = n := Option.some.inj (hm.symm.trans hn)
      rw [e] at hb
      exact forall₂_left_mem hf _ hb
  obtain ⟨c, hc⟩ := hkey
  have hfa : cloneOf t.visited a = c := by
    simp only [cloneOf, mapFind_of_mem t.visited hnd _ _ hc, Option.getD_some]
  rw [hfa]
  obtain ⟨n, cs, hn, hcell, hf⟩ := hcomp _ hc
  refine ⟨hc, n, hn, ?_⟩
  rw [hcell, forall₂_eq_map t.visited hnd _ _ hf]

/-- The number of elements with a property that a list without repetition
enumerates. -/
theorem card_of_nodup_list (l : List Nat) (P : Nat → Prop) (hnd : l.Nodup)
    (h : ∀ a, a ∈ l ↔ P a) : Nat.card {a : Nat // P a} = l.length := by
  have hf : Function.Bijective (fun i : Fin l.length =>
      (⟨l[i.1], (h _).1 (List.getElem_mem i.2)⟩ : {a : Nat // P a})) := by
    constructor
    · intro i j hij
      have h1 : l[i.1] = l[j.1] := congrArg Subtype.val hij
      exact Fin.ext ((hnd.getElem_inj_iff).1 h1)
    · rintro ⟨a, ha⟩
      obtain ⟨i, hi, e⟩ := List.getElem_of_mem ((h a).2 ha)
      exact ⟨⟨i, hi⟩, Subtype.ext e⟩
  rw [← Nat.card_eq_of_bijective _ hf, Nat.card_eq_fintype_card, Fintype.card_fin]

/-- The images of the nodes reached from the argument are exactly the nodes reached from
the result, and none of them is allocated in the original free store. -/
theorem clone_bijOn (h : Heap) (node res : Nat) (t : State) (hwf : WellFormed h)
    (hnode : ∃ n, h.nodes node = some n) (hi : Inv h node t)
    (hmem : (node, res) ∈ t.visited) (hcomp : ∀ q ∈ t.visited, Complete h t q) :
    cloneOf t.visited node = res
    ∧ Set.BijOn (cloneOf t.visited) {a | Reach h node a} {b | Reach t.heap res b}
    ∧ (∀ b, Reach t.heap res b → h.nodes b = none ∧ ¬ Reach h node b) := by
  have hnd := hi.2.2.2.2.1
  have hroot : cloneOf t.visited node = res := by
    simp only [cloneOf, mapFind_of_mem t.visited hnd _ _ hmem, Option.getD_some]
  have hc := clone_of_reach h node res t hi hmem hcomp
  have hsurj : ∀ b, Reach t.heap res b → ∃ a, Reach h node a ∧ cloneOf t.visited a = b := by
    intro b hb
    induction hb with
    | refl => exact ⟨node, Relation.ReflTransGen.refl, hroot⟩
    | tail _ he ih =>
      obtain ⟨a, ha, e⟩ := ih
      obtain ⟨m, hm, hb2⟩ := he
      obtain ⟨_, n, hn, hcell⟩ := hc a ha
      rw [← e, hcell] at hm
      have e2 : m = { val := n.val, neighbors := n.neighbors.map (cloneOf t.visited) } :=
        (Option.some.inj hm).symm
      rw [e2] at hb2
      obtain ⟨a2, ha2, e3⟩ := List.mem_map.1 hb2
      exact ⟨a2, Relation.ReflTransGen.tail ha ⟨n, hn, ha2⟩, e3⟩
  refine ⟨hroot, ⟨?_, ?_, ?_⟩, ?_⟩
  · intro a ha
    show Reach t.heap res (cloneOf t.visited a)
    have ha1 : Reach h node a := ha
    induction ha1 with
    | refl =>
      rw [hroot]
      exact Relation.ReflTransGen.refl
    | @tail a1 b1 hr1 he ih =>
      obtain ⟨m, hm, hb⟩ := he
      obtain ⟨_, n, hn, hcell⟩ := hc a1 hr1
      have e : m = n := Option.some.inj (hm.symm.trans hn)
      rw [e] at hb
      exact Relation.ReflTransGen.tail (ih hr1) ⟨_, hcell, List.mem_map.2 ⟨b1, hb, rfl⟩⟩
  · intro a1 ha1 a2 ha2 e
    have h1 := (hc a1 ha1).1
    have h2 := (hc a2 ha2).1
    have := hi.value_inj h1 h2 e
    exact congrArg Prod.fst this
  · intro b hb
    obtain ⟨a, ha, e⟩ := hsurj b hb
    exact ⟨a, ha, e⟩
  · intro b hb
    obtain ⟨a, ha, e⟩ := hsurj b hb
    have hbd := (hi.value_bounds (hc a ha).1).1
    rw [e] at hbd
    have hnone : h.nodes b = none := by
      cases hx : h.nodes b with
      | none => rfl
      | some n =>
        have h1 : b < h.next := (hwf b n hx).2.1
        have h2 : h.next ≤ b := hbd
        omega
    refine ⟨hnone, fun hr => ?_⟩
    obtain ⟨n, hn⟩ := reach_allocated h hwf node b hnode hr
    rw [hnone] at hn
    cases hn

/-- C31: `cloneGraph` returns null exactly for a null argument.  For a pointer to a node
of a well-formed free store the call returns, and the result is a deep copy: a map `f`
sends the argument to the result and the nodes reached from the argument one-to-one onto
the nodes reached from the result; the clone `f a` holds the `val` of `a` and, in order,
the clones of the neighbors of `a`; and no node reached from the result is allocated in
the original free store or reached from the argument there. -/
theorem cloneGraph_deep_copy (h : Heap) (node : Nat) (hwf : WellFormed h)
    (hnode : node = nullptr ∨ ∃ n, h.nodes node = some n) :
    ∃ res h1, cloneGraph h node = Except.ok (res, h1)
      ∧ (res = nullptr ↔ node = nullptr)
      ∧ (node ≠ nullptr → ∃ f : Nat → Nat, f node = res
          ∧ Set.BijOn f {a | Reach h node a} {b | Reach h1 res b}
          ∧ (∀ a, Reach h node a → ∃ n, h.nodes a = some n
              ∧ h1.nodes (f a) = some { val := n.val, neighbors := n.neighbors.map f })
          ∧ (∀ b, Reach h1 res b → h.nodes b = none ∧ ¬ Reach h node b)) := by
  rcases hnode with h0 | hn
  · refine ⟨nullptr, h, ?_, ?_, fun hne => absurd h0 hne⟩
    · simp [cloneGraph, h0]
    · simp [h0]
  · obtain ⟨res, t, e, hi, hmem, hcomp⟩ := cloneGraph_run h node hwf hn
    obtain ⟨hroot, hbij, hnew⟩ := clone_bijOn h node res t hwf hn hi hmem hcomp
    obtain ⟨n, hn1⟩ := hn
    have hw := hwf node n hn1
    have hres : res ≠ nullptr := by
      have h1 := (hi.value_bounds hmem).1
      have h2 : node < h.next := hw.2.1
      have h3 : h.next ≤ res := h1
      unfold nullptr
      omega
    refine ⟨res, t.heap, e, ⟨fun h1 => absurd h1 hres, fun h1 => absurd h1 hw.1⟩, fun _ => ?_⟩
    exact ⟨cloneOf t.visited, hroot, hbij,
      fun a ha => (clone_of_reach h node res t hi hmem hcomp a ha).2, hnew⟩

/-- C39: `cloneGraph` on a pointer to a node of a well-formed free store returns and
leaves every node of the original free store as it was; the addresses allocated by the
call are those from the old `next` up to the new `next`, and their number is the number
of distinct nodes reached from the argument.  On a null argument the free store is
returned as it was. -/
theorem cloneGraph_frame (h : Heap) (node : Nat) (hwf : WellFormed h)
    (hnode : ∃ n, h.nodes node = some n) :
    (∃ res h1, cloneGraph h node = Except.ok (res, h1)
      ∧ (∀ a n, h.nodes a = some n → h1.nodes a = some n)
      ∧ (∀ a, h.nodes a = none → (h1.nodes a ≠ none ↔ h.next ≤ a ∧ a < h1.next))
      ∧ h1.next = h.next + Nat.card {a : Nat // Reach h node a})
    ∧ cloneGraph h nullptr = Except.ok (nullptr, h) := by
  refine ⟨?_, by simp [cloneGraph]⟩
  obtain ⟨res, t, e, hi, hmem, hcomp⟩ := cloneGraph_run h node hwf hnode
  have hc := clone_of_reach h node res t hi hmem hcomp
  have hcard : Nat.card {a : Nat // Reach h node a} = t.visited.length := by
    have := card_of_nodup_list (t.visited.map Prod.fst) (fun a => Reach h node a)
      hi.2.2.2.2.1 (by
        intro a
        constructor
        · intro ha
          obtain ⟨p, hp, e1⟩ := List.mem_map.1 ha
          rw [← e1]
          exact hi.2.2.2.1 p hp
        · intro ha
          exact List.mem_map.2 ⟨_, (hc a ha).1, rfl⟩)
    rw [this, List.length_map]
  refine ⟨res, t.heap, e, ?_, ?_, ?_⟩
  · intro a n hn
    rw [hi.1 a (hwf a n hn).2.1]
    exact hn
  · intro a ha
    constructor
    · intro hne
      constructor
      · by_contra hlt
        apply hne
        rw [hi.1 a (by omega)]
        exact ha
      · by_contra hge
        exact hne (hi.2.2.1 a (by omega))
    · rintro ⟨h1, h2⟩
      have hv : a ∈ t.visited.map Prod.snd := by
        rw [hi.2.2.2.2.2, mem_valuesFrom]
        have := hi.2.1
        omega
      obtain ⟨p, hp, e1⟩ := List.mem_map.1 hv
      obtain ⟨n, cs, _, hcell, _⟩ := hcomp p hp
      rw [← e1, hcell]
      exact fun h3 => Option.noConfusion h3
  · rw [hcard]
    exact hi.2.1

/-- The nodes of Test Case 1. -/
theorem testGraph_nodes (a : Nat) :
    testGraph.nodes a
      = if a = 1 then some { val := 1, neighbors := [2, 4] }
        else if a = 2 then some { val := 2, neighbors := [1, 3] }
        else if a = 3 then some { val := 3, neighbors := [2, 4] }
        else if a = 4 then some { val := 4, neighbors := [1, 3] }
        else none := by
  by_cases h1 : a = 1
  · rw [h1]
    rfl
  by_cases h2 : a = 2
  · rw [h2]
    rfl
  by_cases h3 : a = 3
  · rw [h3]
    rfl
  by_cases h4 : a = 4
  · rw [h4]
    rfl
  rw [if_neg h1, if_neg h2, if_neg h3, if_neg h4]
  show (if a = 4 then _ else if a = 3 then _ else if a = 2 then _ else if a = 1 then _
    else if a = 4 then _ else if a = 3 then _ else if a = 2 then _ else if a = 1 then _
    else none) = none
  rw [if_neg h4, if_neg h3, if_neg h2, if_neg h1, if_neg h4, if_neg h3, if_neg h2, if_neg h1]

/-- The free store of Test Case 1 is well-formed. -/
theorem testGraph_wellFormed : WellFormed testGraph := by
  intro a n hn
  rw [testGraph_nodes] at hn
  have hnext : testGraph.next = 5 := rfl
  rw [hnext]
  have hmem : ∀ b : Nat, b = 1 ∨ b = 2 ∨ b = 3 ∨ b = 4 → ∃ m, testGraph.nodes b = some m := by
    intro b hb
    rw [testGraph_nodes]
    rcases hb with e | e | e | e <;> rw [e] <;> simp
  by_cases h1 : a = 1
  · rw [if_pos h1] at hn
    cases hn
    refine ⟨by rw [h1]; decide, by omega, fun b hb => hmem b ?_⟩
    simp at hb
    omega
  rw [if_neg h1] at hn
  by_cases h2 : a = 2
  · rw [if_pos h2] at hn
    cases hn
    refine ⟨by rw [h2]; decide, by omega, fun b hb => hmem b ?_⟩
    simp at hb
    omega
  rw [if_neg h2] at hn
  by_cases h3 : a = 3
  · rw [if_pos h3] at hn
    cases hn
    refine ⟨by rw [h3]; decide, by omega, fun b hb => hmem b ?_⟩
    simp at hb
    omega
  rw [if_neg h3] at hn
  by_cases h4 : a = 4
  · rw [if_pos h4] at hn
    cases hn
    refine ⟨by rw [h4]; decide, by omega, fun b hb => hmem b ?_⟩
    simp at hb
    omega
  rw [if_neg h4] at hn
  cases hn

/-- The free store with one node that is its own neighbor twice is well-formed. -/
theorem loopGraph_wellFormed : WellFormed loopGraph := by
  intro a n hn
  have hnext : loopGraph.next = 2 := rfl
  rw [hnext]
  have e : loopGraph.nodes a
      = if a = 1 then some { val := 7, neighbors := [1, 1] } else none := rfl
  rw [e] at hn
  by_cases h1 : a = 1
  · rw [if_pos h1] at hn
    cases hn
    refine ⟨by rw [h1]; decide, by omega, fun b hb => ?_⟩
    have hb1 : b = 1 := by
      simp at hb
      exact hb
    rw [hb1]
    exact ⟨_, rfl⟩
  · rw [if_neg h1] at hn
    cases hn

/-- C31 witness (Test Cases 1 and 2): on the four-node test graph the call returns the
new node at address 5; the clones at 5, 6, 7, 8 hold the values 1 to 4 and point to each
other as the originals do; a null argument gives null. -/
theorem cloneGraph_deep_copy_witness :
    WellFormed testGraph
    ∧ (∃ h1, cloneGraph testGraph 1 = Except.ok (5, h1)
        ∧ h1.nodes 5 = some { val := 1, neighbors := [6, 8] }
        ∧ h1.nodes 6 = some { val := 2, neighbors := [5, 7] }
        ∧ h1.nodes 7 = some { val := 3, neighbors := [6, 8] }
        ∧ h1.nodes 8 = some { val := 4, neighbors := [5, 7] })
    ∧ cloneGraph testGraph nullptr = Except.ok (nullptr, testGraph)
    ∧ ∃ res h1, cloneGraph testGraph 1 = Except.ok (res, h1)
      ∧ (res = nullptr ↔ 1 = nullptr)
      ∧ ((1 : Nat) ≠ nullptr → ∃ f : Nat → Nat, f 1 = res
          ∧ Set.BijOn f {a | Reach testGraph 1 a} {b | Reach h1 res b}
          ∧ (∀ a, Reach testGraph 1 a → ∃ n, testGraph.nodes a = some n
              ∧ h1.nodes (f a) = some { val := n.val, neighbors := n.neighbors.map f })
          ∧ (∀ b, Reach h1 res b → testGraph.nodes b = none ∧ ¬ Reach testGraph 1 b)) :=
  ⟨testGraph_wellFormed, ⟨_, rfl, rfl, rfl, rfl, rfl⟩, rfl,
    cloneGraph_deep_copy testGraph 1 testGraph_wellFormed (Or.inr ⟨_, rfl⟩)⟩

/-- C39 witness: on the four-node cyclic test graph the call allocates the four
addresses 5 to 8, four being the number of nodes reached from the argument; on the node
that is its own neighbor twice it allocates one node. -/
theorem cloneGraph_frame_witness :
    (∃ h1, cloneGraph testGraph 1 = Except.ok (5, h1) ∧ testGraph.next = 5 ∧ h1.next = 9)
    ∧ Nat.card {a : Nat // Reach testGraph 1 a} = 4
    ∧ (∃ h1, cloneGraph loopGraph 1 = Except.ok (2, h1) ∧ loopGraph.next = 2 ∧ h1.next = 3
        ∧ h1.nodes 2 = some { val := 7, neighbors := [2, 2] })
    ∧ Nat.card {a : Nat // Reach loopGraph 1 a} = 1 := by
  have ev1 : ∃ h1, cloneGraph testGraph 1 = Except.ok (5, h1) ∧ testGraph.next = 5
      ∧ h1.next = 9 := ⟨_, rfl, rfl, rfl⟩
  have ev2 : ∃ h1, cloneGraph loopGraph 1 = Except.ok (2, h1) ∧ loopGraph.next = 2
      ∧ h1.next = 3 ∧ h1.nodes 2 = some { val := 7, neighbors := [2, 2] } :=
    ⟨_, rfl, rfl, rfl, rfl⟩
  refine ⟨ev1, ?_, ev2, ?_⟩
  · obtain ⟨res, h1, e, _, _, hn⟩ :=
      (cloneGraph_frame testGraph 1 testGraph_wellFormed ⟨_, rfl⟩).1
    obtain ⟨H, e1, e2, e3⟩ := ev1
    rw [e1] at e
    cases e
    omega
  · obtain ⟨res, h1, e, _, _, hn⟩ :=
      (cloneGraph_frame loopGraph 1 loopGraph_wellFormed ⟨_, rfl⟩).1
    obtain ⟨H, e1, e2, e3, _⟩ := ev2
    rw [e1] at e
    cases e
    omega

end LC133

end FleetRL
